import Mathlib

/-!
# csim.c : a set-associative cache simulator, embedded in Lean

The development follows `src/csim.c`.

* The globals of the program (`cache`, `g_lru_counter`, `miss_count`, `hit_count`,
  `eviction_count`) are the fields of `Globals`; the command-line globals `s`, `b`, `E`
  and the derived `S` are the fields of `Config`.
* `accessData`, `initCache` and `replayTrace` are translated statement by statement; each
  loop of `accessData` is a fold or a search over the indices `0 .. E - 1`.
* The `int` counters are represented by their mathematical values.  Signed overflow is
  undefined in C, so the statements speak about runs in which no counter leaves the
  range of `int`.  The `unsigned int` field `lru_counter` stores the recency counter
  modulo `2 ^ 32`; where a result needs the stored recencies not to wrap, the bound on
  the counter is a hypothesis.
* The expression `pow(2, s) - 1` is evaluated in IEEE-754 binary64 (`roundDouble`).
* The C library (`fgets`, `feof`, `strtok`, `strcmp`, `strtol`) is modelled following
  the C standard; `long` and `mem_addr_t` are 64 bits wide.
-/

namespace Csim

/-! ## Data model -/

/-- The struct `cache_block_t`: `{ mem_addr_t tag; char used; unsigned int lru_counter; }`. -/
structure cache_block_t where
  tag : Nat
  used : Nat
  lru_counter : Nat
deriving DecidableEq, Repr

/-- The globals set from the command line (`s`, `b`, `E`) and the derived `S`. -/
structure Config where
  s : Nat
  b : Nat
  E : Nat
  S : Nat
deriving DecidableEq, Repr

/-- The mutable globals: the cache, the recency counter and the three statistics. -/
structure Globals where
  cache : List (List cache_block_t)
  g_lru_counter : Nat
  miss_count : Nat
  hit_count : Nat
  eviction_count : Nat
deriving DecidableEq, Repr

/-- A line as `calloc` leaves it: all fields zero. -/
def zeroBlock : cache_block_t := ⟨0, 0, 0⟩

/-- The read `cur_set[i]`.  A read past the end of the list yields a zeroed line; in a
valid configuration all reads are in bounds in every state reached from `initCache`
(`Inv`, `setIndexOf_lt`, `curSet_length`). -/
def lineAt (cur_set : List cache_block_t) (i : Nat) : cache_block_t :=
  cur_set.getD i zeroBlock

/-! ## Machine arithmetic -/

/-- Conversion of an `unsigned int` value to `int` (two's complement). -/
def toInt32 (x : Nat) : Int :=
  if x % 2 ^ 32 < 2 ^ 31 then ((x % 2 ^ 32 : Nat) : Int) else ((x % 2 ^ 32 : Nat) : Int) - 2 ^ 32

/-- Conversion of an `int` value to `unsigned int`. -/
def toUInt32 (i : Int) : Nat :=
  (i % 2 ^ 32).toNat

/-- Number of binary digits of `n` (for `n < 2 ^ fuel`). -/
def bitLength : Nat → Nat → Nat
  | 0, _ => 0
  | fuel + 1, n => if n = 0 then 0 else bitLength fuel (n / 2) + 1

/-- Rounding of a natural number to the nearest IEEE-754 binary64 value (53-bit
significand, ties to even); exact on every `n < 2 ^ 1024`, the range of a `double`. -/
def roundDouble (n : Nat) : Nat :=
  let e := bitLength 1024 n - 53
  let q := n / 2 ^ e
  let r := n % 2 ^ e
  if 2 * r < 2 ^ e then q * 2 ^ e
  else if 2 * r = 2 ^ e then (if q % 2 = 0 then q else q + 1) * 2 ^ e
  else (q + 1) * 2 ^ e

/-- The mask `(mem_addr_t)(pow(2, s) - 1)` of line 116, for `s ≤ 63`: `pow(2, s)` is
exact, the subtraction is rounded to a `double`, and the conversion of the result,
which is at most `2 ^ 63`, to `mem_addr_t` is exact. -/
def maskOf (s : Nat) : Nat :=
  roundDouble (2 ^ s - 1)

/-- Line 116: `set_index = (addr >> b) & (mem_addr_t)(pow(2, s) - 1)`. -/
def setIndexOf (cfg : Config) (addr : Nat) : Nat :=
  (addr >>> cfg.b) &&& maskOf cfg.s

/-- Line 117: `new_tag = addr >> (s + b)`. -/
def tagOf (cfg : Config) (addr : Nat) : Nat :=
  addr >>> (cfg.s + cfg.b)

/-- Line 306 of `main`: `S = (unsigned int) pow(2, s)` stored in the `int S`.  The value
is `2 ^ s` when that fits an `int`; for larger `s` the conversions are out of range. -/
def numSets (s : Nat) : Option Nat :=
  if s ≤ 30 then some (2 ^ s) else none

/-! ## initCache -/

/-- The function `initCache`: `g_lru_counter = 0`, `S` sets of `E` zeroed lines.  The
statistics are the zero-initialised globals of lines 64-66. -/
def initCache (cfg : Config) : Globals :=
  { cache := List.replicate cfg.S (List.replicate cfg.E zeroBlock)
    g_lru_counter := 0
    miss_count := 0
    hit_count := 0
    eviction_count := 0 }

/-! ## accessData -/

/-- Lines 123-131: the index of the first line with `tag == new_tag && used == 1`. -/
def hitScan (cur_set : List cache_block_t) (new_tag E : Nat) : Option Nat :=
  (List.range E).find? fun i =>
    decide ((lineAt cur_set i).tag = new_tag) && decide ((lineAt cur_set i).used = 1)

/-- Lines 142-149: the pair `(page_to_insert, is_found)` after the scan for an unused
line, both starting at `0`. -/
def compulsoryScan (cur_set : List cache_block_t) (E : Nat) : Nat × Nat :=
  (List.range E).foldl
    (fun p i => if p.2 = 0 ∧ (lineAt cur_set i).used = 0 then (i, 1) else p) (0, 0)

/-- Lines 164-169: `page_to_insert` after the eviction scan.  `min_lru_counter` is an
`int` that the loop never updates; the comparison converts it to `unsigned int`. -/
def evictScan (cur_set : List cache_block_t) (E : Nat) (min_lru_counter : Int)
    (page_to_insert : Nat) : Nat :=
  (List.range E).foldl
    (fun p i => if (lineAt cur_set i).lru_counter < toUInt32 min_lru_counter then i else p)
    page_to_insert

/-- Lines 160-175: the slot chosen when no unused line was found, in which case
`page_to_insert` is still `0` when the scan starts. -/
def evictSlot (cur_set : List cache_block_t) (E : Nat) : Nat :=
  evictScan cur_set E (toInt32 (lineAt cur_set 0).lru_counter) 0

/-- Lines 181-183: write tag, `used = 1` and `lru_counter = g_lru_counter++` into the
slot `page_to_insert` of the set `set_index`. -/
def insertBlock (st : Globals) (set_index page_to_insert new_tag : Nat) : Globals :=
  { st with
    cache := st.cache.set set_index
      ((st.cache.getD set_index []).set page_to_insert
        ⟨new_tag, 1, st.g_lru_counter % 2 ^ 32⟩)
    g_lru_counter := st.g_lru_counter + 1 }

/-- The function `accessData(addr)`, lines 114-186. -/
def accessData (cfg : Config) (addr : Nat) (st : Globals) : Globals :=
  let set_index := setIndexOf cfg addr
  let new_tag := tagOf cfg addr
  let cur_set := st.cache.getD set_index []
  match hitScan cur_set new_tag cfg.E with
  | some i =>
    { st with
      hit_count := st.hit_count + 1
      cache := st.cache.set set_index
        (cur_set.set i { lineAt cur_set i with lru_counter := st.g_lru_counter % 2 ^ 32 })
      g_lru_counter := st.g_lru_counter + 1 }
  | none =>
    let st1 := { st with miss_count := st.miss_count + 1 }
    let scan := compulsoryScan cur_set cfg.E
    if scan.2 = 0 then
      let st2 := { st1 with eviction_count := st1.eviction_count + 1 }
      let min_lru_counter := toInt32 (lineAt cur_set 0).lru_counter
      let page_to_insert := evictScan cur_set cfg.E min_lru_counter scan.1
      let is_found := if (lineAt cur_set page_to_insert).used = 1 then 1 else scan.2
      if is_found = 1 then insertBlock st2 set_index page_to_insert new_tag else st2
    else if scan.2 = 1 then insertBlock st1 set_index scan.1 new_tag
    else st1

/-- The state after calling `accessData` on each address of a list, in order. -/
def accessAll (cfg : Config) (addrs : List Nat) (st : Globals) : Globals :=
  addrs.foldl (fun st a => accessData cfg a st) st

/-- The states reachable from `initCache`: `run cfg addrs` is the state after the
calls `accessData(a)` for the addresses `a` of `addrs`. -/
def run (cfg : Config) (addrs : List Nat) : Globals :=
  accessAll cfg addrs (initCache cfg)

/-! ## Predicates on states used in the statements -/

/-- The set that `accessData(addr)` works on: `cur_set = cache[set_index]`. -/
def curSet (cfg : Config) (st : Globals) (addr : Nat) : List cache_block_t :=
  st.cache.getD (setIndexOf cfg addr) []

/-- The block of `addr` is in the cache: a valid line of its set holds its tag. -/
def resident (cfg : Config) (st : Globals) (addr : Nat) : Prop :=
  ∃ i, i < cfg.E ∧ (lineAt (curSet cfg st addr) i).tag = tagOf cfg addr ∧
    (lineAt (curSet cfg st addr) i).used = 1

/-- All `E` slots of the set of `addr` are valid. -/
def setFull (cfg : Config) (st : Globals) (addr : Nat) : Prop :=
  ∀ i, i < cfg.E → (lineAt (curSet cfg st addr) i).used = 1

/-- A configuration as `main` hands it to `initCache`: at least one line per set and
`S` computed from `s` on line 306. -/
def Config.Valid (cfg : Config) : Prop :=
  1 ≤ cfg.E ∧ numSets cfg.s = some cfg.S

/-- Shape of the cache: `S` sets of `E` lines, every `used` flag is `0` or `1`, and the
valid lines of a set carry pairwise different tags. -/
structure Inv (cfg : Config) (st : Globals) : Prop where
  length_cache : st.cache.length = cfg.S
  length_set : ∀ k, k < cfg.S → (st.cache.getD k []).length = cfg.E
  used01 : ∀ k i, (lineAt (st.cache.getD k []) i).used = 0 ∨
    (lineAt (st.cache.getD k []) i).used = 1
  tags_distinct : ∀ k i j, i ≠ j → (lineAt (st.cache.getD k []) i).used = 1 →
    (lineAt (st.cache.getD k []) j).used = 1 →
    (lineAt (st.cache.getD k []) i).tag ≠ (lineAt (st.cache.getD k []) j).tag

instance (cfg : Config) (st : Globals) (addr : Nat) : Decidable (resident cfg st addr) := by
  unfold resident; infer_instance

instance (cfg : Config) (st : Globals) (addr : Nat) : Decidable (setFull cfg st addr) := by
  unfold setFull; infer_instance

instance (cfg : Config) : Decidable cfg.Valid := by
  unfold Config.Valid; infer_instance

/-- The accesses of a list of steps, each step being some accesses to other sets followed
by one access to the set under study. -/
def interleave : List (List Nat × Nat) → List Nat
  | [] => []
  | p :: ps => p.1 ++ p.2 :: interleave ps

/-! ## The C library functions used by `replayTrace`

A C string is a list of bytes; it ends at the first `NUL` byte or at the end of the
list.  A pointer into the line buffer is the list of the bytes from that position on. -/

/-- The terminating byte of a C string. -/
def NUL : Char := Char.ofNat 0

/-- Result of a `strtok` call: the returned token (`none` for `NULL`), the bytes between
the start of the scan and the saved position as the call leaves them (a delimiter
that ended the token is overwritten by `NUL`), and the bytes at the saved position,
where `strtok(NULL, ...)` resumes. -/
structure Tok where
  token : Option (List Char)
  before : List Char
  save : List Char
deriving DecidableEq, Repr

/-- A byte of `delim`. -/
def isDelim (delim : List Char) (c : Char) : Bool :=
  delim.contains c

/-- A byte that can be part of a token: neither `NUL` nor a byte of `delim`. -/
def inToken (delim : List Char) (c : Char) : Bool :=
  c != NUL && !(delim.contains c)

/-- The call `strtok(s, delim)`: skip the leading delimiters; when the string ends
there, return `NULL`; otherwise the token runs to the next delimiter, which is
overwritten by `NUL`, or to the end of the string. -/
def strtok (s : List Char) (delim : List Char) : Tok :=
  let skipped := s.takeWhile (isDelim delim)
  let s1 := s.dropWhile (isDelim delim)
  let tok := s1.takeWhile (inToken delim)
  if tok = [] then ⟨none, skipped, s1⟩
  else
    match s1.dropWhile (inToken delim) with
    | [] => ⟨some tok, skipped ++ tok, []⟩
    | d :: s2 =>
      if d = NUL then ⟨some tok, skipped ++ tok, d :: s2⟩
      else ⟨some tok, skipped ++ tok ++ [NUL], s2⟩

/-- The function `isspace` in the C locale. -/
def isspace (c : Char) : Bool :=
  c.toNat = 32 || (9 ≤ c.toNat && c.toNat ≤ 13)

/-- Value of a hexadecimal digit. -/
def hexDigit (c : Char) : Option Nat :=
  if 48 ≤ c.toNat ∧ c.toNat ≤ 57 then some (c.toNat - 48)
  else if 97 ≤ c.toNat ∧ c.toNat ≤ 102 then some (c.toNat - 87)
  else if 65 ≤ c.toNat ∧ c.toNat ≤ 70 then some (c.toNat - 55)
  else none

/-- The value of the longest prefix of hexadecimal digits, continuing from `acc`. -/
def hexValue : List Char → Nat → Nat
  | [], acc => acc
  | c :: cs, acc =>
    match hexDigit c with
    | some d => hexValue cs (16 * acc + d)
    | none => acc

/-- The call `strtol(s, NULL, 16)` with a 64-bit `long`: leading white space, an
optional sign, an optional `0x`, the longest run of hexadecimal digits (value `0` when
there is none), clamped to the range of `long`. -/
def strtol16 (s : List Char) : Int :=
  let s1 := s.dropWhile isspace
  let neg := decide (s1.head? = some '-')
  let s2 := if s1.head? = some '-' ∨ s1.head? = some '+' then s1.tail else s1
  let s3 :=
    match s2 with
    | z :: x :: h :: r =>
      if z = '0' ∧ (x = 'x' ∨ x = 'X') ∧ (hexDigit h).isSome then h :: r else s2
    | _ => s2
  let v := hexValue s3 0
  if neg then (if 2 ^ 63 < v then -(2 ^ 63 : Int) else -(v : Int))
  else (if 2 ^ 63 - 1 < v then (2 ^ 63 - 1 : Int) else (v : Int))

/-- Conversion of a `long` to `unsigned long`, the type of `address`. -/
def toUInt64 (i : Int) : Nat :=
  (i % 2 ^ 64).toNat

/-- The stream `FILE* f`: the bytes not yet read and the end-of-file indicator. -/
structure FILE where
  data : List Char
  eof : Bool
deriving DecidableEq, Repr

/-- What `fgets` reads: the bytes stored, the bytes left in the stream, and whether the
end of the stream was hit. -/
structure ReadResult where
  line : List Char
  rest : List Char
  hitEof : Bool
deriving DecidableEq, Repr

/-- Read at most `k` bytes, stopping after a newline or at the end of the stream. -/
def readLine : Nat → List Char → ReadResult
  | 0, data => ⟨[], data, false⟩
  | _ + 1, [] => ⟨[], [], true⟩
  | k + 1, c :: data =>
    if c = '\n' then ⟨[c], data, false⟩
    else
      let r := readLine k data
      ⟨c :: r.line, r.rest, r.hitEof⟩

/-- The call `fgets(buffer, n, f)`: the new contents of the buffer and the new state of
the stream.  When the end of the stream is hit before any byte is read, `fgets`
returns `NULL` and leaves the buffer as it is. -/
def fgets (buffer : List Char) (n : Nat) (f : FILE) : List Char × FILE :=
  let r := readLine (n - 1) f.data
  if r.line = [] ∧ r.hitEof = true then (buffer, ⟨r.rest, true⟩)
  else (r.line, ⟨r.rest, f.eof || r.hitEof⟩)

/-! ## replayTrace -/

/-- Lines 206-226, the body of the loop after `fgets`: the buffer as `strtok` leaves
it, and the globals after the calls of `accessData`. -/
def processLine (cfg : Config) (buffer : List Char) (st : Globals) : List Char × Globals :=
  let t1 := strtok (buffer.drop 1) [' ']
  match t1.token with
  | none => (buffer.take 1 ++ t1.before ++ t1.save, st)
  | some token =>
    let modify := decide (token = ['M'])
    if token ≠ ['S'] ∧ token ≠ ['L'] ∧ token ≠ ['M'] then
      (buffer.take 1 ++ t1.before ++ t1.save, st)
    else
      let t2 := strtok t1.save [',']
      match t2.token with
      | none => (buffer.take 1 ++ t1.before ++ t2.before ++ t2.save, st)
      | some token2 =>
        let address := toUInt64 (strtol16 token2)
        let st1 := accessData cfg address st
        (buffer.take 1 ++ t1.before ++ t2.before ++ t2.save,
          if modify then accessData cfg address st1 else st1)

/-- The loop `while (!feof(f)) { fgets(buffer, 20, f); ... }` of lines 204-227,
run for at most `fuel` iterations; `none` when the fuel does not suffice. -/
def replayLoop (cfg : Config) : Nat → List Char → FILE → Globals → Option Globals
  | 0, _, _, _ => none
  | fuel + 1, buffer, f, st =>
    if f.eof then some st
    else
      let r := fgets buffer 20 f
      let p := processLine cfg r.1 st
      replayLoop cfg fuel p.1 r.2 p.2

/-- The function `replayTrace`, for a trace file that `fopen` could open and that holds
the bytes `trace`.  `buffer` is the content of the line buffer as `malloc` returns it.
The loop needs at most one iteration per byte and one more at the end of the file
(`replayTrace_total`). -/
def replayTrace (cfg : Config) (buffer : List Char) (trace : List Char) (st : Globals) :
    Option Globals :=
  replayLoop cfg (trace.length + 2) buffer ⟨trace, false⟩ st

/-! ## Well-formed trace records -/

/-- A record of the trace: operation letter, address field, length field. -/
structure Record where
  op : Char
  addr : List Char
  len : List Char
deriving DecidableEq, Repr

/-- An ASCII letter. -/
def isLetter (c : Char) : Prop :=
  (65 ≤ c.toNat ∧ c.toNat ≤ 90) ∨ (97 ≤ c.toNat ∧ c.toNat ≤ 122)

/-- A decimal digit. -/
def isDecDigit (c : Char) : Prop :=
  48 ≤ c.toNat ∧ c.toNat ≤ 57

/-- A hexadecimal digit. -/
def isHexDigit (c : Char) : Prop :=
  (48 ≤ c.toNat ∧ c.toNat ≤ 57) ∨ (97 ≤ c.toNat ∧ c.toNat ≤ 102) ∨
    (65 ≤ c.toNat ∧ c.toNat ≤ 70)

instance (c : Char) : Decidable (isLetter c) := by unfold isLetter; infer_instance

instance (c : Char) : Decidable (isDecDigit c) := by unfold isDecDigit; infer_instance

instance (c : Char) : Decidable (isHexDigit c) := by unfold isHexDigit; infer_instance

/-- A well-formed record: an operation letter, a non-empty hexadecimal address and a
non-empty decimal length. -/
def Record.WellFormed (r : Record) : Prop :=
  isLetter r.op ∧ r.addr ≠ [] ∧ (∀ c ∈ r.addr, isHexDigit c) ∧
    r.len ≠ [] ∧ (∀ c ∈ r.len, isDecDigit c)

instance (r : Record) : Decidable r.WellFormed := by
  unfold Record.WellFormed; infer_instance

/-- The text of a record: space, letter, space, address, comma, length, newline. -/
def Record.render (r : Record) : List Char :=
  ' ' :: r.op :: ' ' :: (r.addr ++ ',' :: (r.len ++ ['\n']))

/-- The trace file made of the given records, one per line. -/
def traceOf : List Record → List Char
  | [] => []
  | r :: rs => r.render ++ traceOf rs

/-- Number of data accesses of a record: one for `L` and `S`, two for `M`, none for
any other letter. -/
def Record.accesses (r : Record) : Nat :=
  if r.op = 'L' ∨ r.op = 'S' then 1 else if r.op = 'M' then 2 else 0

/-- The address `replayTrace` passes to `accessData` for a record: `strtol` applied to
the address field, of which at most 16 bytes fit the line buffer. -/
def Record.address (r : Record) : Nat :=
  toUInt64 (strtol16 (r.addr.take 16))

/-- The number that the address field of a record denotes in base 16. -/
def Record.value (r : Record) : Nat :=
  hexValue r.addr 0

/-- A byte that neither ends a token nor is one of the three operation letters. -/
def Quiet (c : Char) : Prop :=
  c ≠ ' ' ∧ c ≠ NUL ∧ c ≠ 'S' ∧ c ≠ 'L' ∧ c ≠ 'M'

/-- A buffer on which the body of the loop does nothing. -/
def Benign (cfg : Config) (buffer : List Char) : Prop :=
  ∀ st, processLine cfg buffer st = (buffer, st)

/-- A byte of the payload of a record line: `Quiet` and not a newline. -/
def Plain (c : Char) : Prop :=
  Quiet c ∧ c ≠ '\n'

/-- The calls of `accessData` that lines 222-225 make for an address. -/
def accessTwice (cfg : Config) (modify : Bool) (address : Nat) (st : Globals) : Globals :=
  if modify then accessData cfg address (accessData cfg address st)
  else accessData cfg address st

/-- The text that `strtok(NULL, ",")` returns as the address token when the bytes `z`
follow the operation letter and its space: the commas at the start of `z` are skipped,
and the token runs to the next comma or to the end of the line. -/
def addrField (z : List Char) : List Char :=
  (z.dropWhile (isDelim [','])).takeWhile (inToken [','])

/-- What the body of the loop does to the globals when the buffer holds the operation
letter `op`, a space, and then the bytes `z`. -/
def lineEffect (cfg : Config) (op : Char) (z : List Char) (st : Globals) : Globals :=
  if op = 'S' ∨ op = 'L' ∨ op = 'M' then
    if addrField z = [] then st
    else accessTwice cfg (decide (op = 'M')) (toUInt64 (strtol16 (addrField z))) st
  else st

/-- The trace file made of the given records, with or without the newline that ends
the last line. -/
def traceText (rs : List Record) (finalNewline : Bool) : List Char :=
  if finalNewline then traceOf rs else (traceOf rs).dropLast

/-- The addresses `replayTrace` accesses for a list of records, in order. -/
def accessList : List Record → List Nat
  | [] => []
  | r :: rs => List.replicate r.accesses r.address ++ accessList rs

/-- The line of a record behind `k` leading spaces, with or without the newline that
ends it. -/
def Record.indented (r : Record) (k : Nat) (nl : Bool) : List Char :=
  List.replicate k ' ' ++
    r.op :: ' ' :: (r.addr ++ ',' :: (r.len ++ if nl then ['\n'] else []))

/-! ## The slot search of `accessData`, and quantities of the statements about it -/

/-- The value of `page_to_insert` of `accessData` when line 179 is reached, that is
after the two searches of the miss path (lines 143-176). -/
def pageToInsert (cfg : Config) (addr : Nat) (st : Globals) : Nat :=
  let cur_set := st.cache.getD (setIndexOf cfg addr) []
  let scan := compulsoryScan cur_set cfg.E
  if scan.2 = 0 then evictScan cur_set cfg.E (toInt32 (lineAt cur_set 0).lru_counter) scan.1
  else scan.1

/-- The value of `is_found` of `accessData` when line 179 is reached. -/
def isFound (cfg : Config) (addr : Nat) (st : Globals) : Nat :=
  let cur_set := st.cache.getD (setIndexOf cfg addr) []
  let scan := compulsoryScan cur_set cfg.E
  if scan.2 = 0 then
    if (lineAt cur_set (pageToInsert cfg addr st)).used = 1 then 1 else scan.2
  else scan.2

/-- The counters when line 179 is reached: `miss_count` is incremented on line 138, and
`eviction_count` on line 158 when the set has no unused line. -/
def missCounted (cfg : Config) (addr : Nat) (st : Globals) : Globals :=
  { st with
    miss_count := st.miss_count + 1
    eviction_count := st.eviction_count +
      if (compulsoryScan (st.cache.getD (setIndexOf cfg addr) []) cfg.E).2 = 0 then 1 else 0 }

/-- Recency invariant: every valid line carries a recency below the global counter, and
no two valid lines of the cache carry the same recency. -/
structure RecInv (st : Globals) : Prop where
  lru_lt : ∀ k i, (lineAt (st.cache.getD k []) i).used = 1 →
    (lineAt (st.cache.getD k []) i).lru_counter < st.g_lru_counter
  lru_distinct : ∀ k i k' i', (k ≠ k' ∨ i ≠ i') →
    (lineAt (st.cache.getD k []) i).used = 1 → (lineAt (st.cache.getD k' []) i').used = 1 →
    (lineAt (st.cache.getD k []) i).lru_counter ≠ (lineAt (st.cache.getD k' []) i').lru_counter

/-- Number of valid lines of a set. -/
def validLines (cur_set : List cache_block_t) : Nat :=
  cur_set.countP fun l => decide (l.used = 1)

/-- Number of valid lines of the whole cache. -/
def totalValid (st : Globals) : Nat :=
  (st.cache.map validLines).sum

/-! ## main: the test of the command line arguments -/

/-- Lines 299-303 of `main`.  The options are read into the globals `s`, `E`, `b`
(results of `atoi`, initially `0`) and `trace_file` (`none` for `NULL`, its initial
value).  The result is `true` when `main` calls `printUsage`, which ends the program, so
that `initCache` and `replayTrace` are not reached. -/
def missingArgument (s E b : Int) (trace_file : Option (List Char)) : Bool :=
  s == 0 || E == 0 || b == 0 || trace_file.isNone

/-! ## Reference model: the cache of the specification, with true LRU replacement

The definitions of this section follow the words of the specification (its sections 3,
4.1 and 4.2), not the code: they are what `accessData` is compared with. -/

/-- Reference model: a cache line, with tag, validity and recency. -/
structure RefLine where
  tag : Nat
  valid : Bool
  recency : Nat
deriving DecidableEq, Repr

/-- Reference model: the sets of lines, the global recency counter and the three
counters of the run. -/
structure RefCache where
  sets : List (List RefLine)
  counter : Nat
  hits : Nat
  misses : Nat
  evictions : Nat
deriving DecidableEq, Repr

/-- Reference model: a line that was never used. -/
def refEmpty : RefLine := ⟨0, false, 0⟩

/-- Reference model: the line in slot `i` of a set. -/
def refLineAt (set : List RefLine) (i : Nat) : RefLine :=
  set.getD i refEmpty

/-- Reference model: the cache at the start of a run, `2 ^ s` sets of `E` unused lines. -/
def refInit (s E : Nat) : RefCache :=
  { sets := List.replicate (2 ^ s) (List.replicate E refEmpty)
    counter := 0
    hits := 0
    misses := 0
    evictions := 0 }

/-- Reference model, hit check: the first slot that holds a valid line with the tag. -/
def refFind (set : List RefLine) (tag E : Nat) : Option Nat :=
  (List.range E).find? fun i => (refLineAt set i).valid && decide ((refLineAt set i).tag = tag)

/-- Reference model, step 3a: the first slot that is not valid. -/
def refInvalidSlot (set : List RefLine) (E : Nat) : Option Nat :=
  (List.range E).find? fun i => !(refLineAt set i).valid

/-- Reference model, step 3b: the slot of minimum recency among all slots of the set,
the lowest index on ties, found by an explicit search for the minimum. -/
def refLruSlot (set : List RefLine) (E : Nat) : Nat :=
  (List.range E).foldl
    (fun best i => if (refLineAt set i).recency < (refLineAt set best).recency then i else best) 0

/-- Reference model: `access(address)` as the specification describes it.  Decode the
address; on a hit count it and give the line a fresh recency; on a miss count it, take
the first invalid slot, or else the slot of minimum recency and count an eviction; fill
the slot. -/
def refAccess (s b E : Nat) (address : Nat) (c : RefCache) : RefCache :=
  let tag := address >>> (s + b)
  let setIndex := (address >>> b) % 2 ^ s
  let set := c.sets.getD setIndex []
  match refFind set tag E with
  | some i =>
    { c with
      hits := c.hits + 1
      sets := c.sets.set setIndex (set.set i { refLineAt set i with recency := c.counter })
      counter := c.counter + 1 }
  | none =>
    match refInvalidSlot set E with
    | some i =>
      { c with
        misses := c.misses + 1
        sets := c.sets.set setIndex (set.set i ⟨tag, true, c.counter⟩)
        counter := c.counter + 1 }
    | none =>
      { c with
        misses := c.misses + 1
        evictions := c.evictions + 1
        sets := c.sets.set setIndex (set.set (refLruSlot set E) ⟨tag, true, c.counter⟩)
        counter := c.counter + 1 }

/-- Reference model: the accesses of a list of addresses, in order. -/
def refAccessAll (s b E : Nat) (addrs : List Nat) (c : RefCache) : RefCache :=
  addrs.foldl (fun c a => refAccess s b E a c) c

/-- Reference model: the state after the accesses `addrs` from the start of a run. -/
def refRun (s b E : Nat) (addrs : List Nat) : RefCache :=
  refAccessAll s b E addrs (refInit s E)

/-- Outcome of one access. -/
inductive Outcome where
  | hit
  | miss
  | missEvict
deriving DecidableEq, Repr

/-- Reference model: the outcome of an access, read off the counters. -/
def refOutcomeOf (s b E : Nat) (address : Nat) (c : RefCache) : Outcome :=
  if (refAccess s b E address c).hits = c.hits + 1 then Outcome.hit
  else if (refAccess s b E address c).evictions = c.evictions + 1 then Outcome.missEvict
  else Outcome.miss

/-- Reference model: the outcomes of a sequence of accesses. -/
def refOutcomes (s b E : Nat) : List Nat → RefCache → List Outcome
  | [], _ => []
  | a :: as, c => refOutcomeOf s b E a c :: refOutcomes s b E as (refAccess s b E a c)

/-- Reference model: the tags of the valid lines of each set, in slot order. -/
def refResidentTags (c : RefCache) : List (List Nat) :=
  c.sets.map fun set => (set.filter fun l => l.valid).map fun l => l.tag

/-! ## The observations of `accessData` that are compared with the reference model -/

/-- The outcome of a call of `accessData`, read off the counters. -/
def outcomeOf (cfg : Config) (addr : Nat) (st : Globals) : Outcome :=
  if (accessData cfg addr st).hit_count = st.hit_count + 1 then Outcome.hit
  else if (accessData cfg addr st).eviction_count = st.eviction_count + 1 then
    Outcome.missEvict
  else Outcome.miss

/-- The outcomes of a sequence of calls of `accessData`. -/
def outcomes (cfg : Config) : List Nat → Globals → List Outcome
  | [], _ => []
  | a :: as, st => outcomeOf cfg a st :: outcomes cfg as (accessData cfg a st)

/-- The tags of the valid lines of each set, in slot order. -/
def residentTags (st : Globals) : List (List Nat) :=
  st.cache.map fun set => (set.filter fun l => decide (l.used = 1)).map fun l => l.tag

/-- The line of the reference model that a `cache_block_t` stands for. -/
def absLine (l : cache_block_t) : RefLine :=
  ⟨l.tag, decide (l.used = 1), l.lru_counter⟩

/-- The state of the reference model that the globals of the program stand for. -/
def absCache (st : Globals) : RefCache :=
  { sets := st.cache.map fun set => set.map absLine
    counter := st.g_lru_counter
    hits := st.hit_count
    misses := st.miss_count
    evictions := st.eviction_count }

/-! # Theorems -/


/-! ## Machine arithmetic: lemmas -/

theorem toUInt32_toInt32 (x : Nat) : toUInt32 (toInt32 x) = x % 2 ^ 32 := by
  unfold toUInt32 toInt32
  have h : x % 2 ^ 32 < 2 ^ 32 := Nat.mod_lt _ (by norm_num)
  split <;> omega

theorem bitLength_le (fuel : Nat) : ∀ n k : Nat, n < 2 ^ k → bitLength fuel n ≤ k := by
  induction fuel with
  | zero => intro n k _; simp [bitLength]
  | succ f ih =>
    intro n k h
    unfold bitLength
    split
    · exact Nat.zero_le _
    · rename_i hn
      cases k with
      | zero => simp at h; exact absurd h hn
      | succ k =>
        have : n / 2 < 2 ^ k := by
          rw [Nat.div_lt_iff_lt_mul (by norm_num)]
          rw [pow_succ] at h
          exact h
        have := ih (n / 2) k this
        omega

theorem roundDouble_exact (n : Nat) (h : n < 2 ^ 53) : roundDouble n = n := by
  have hb : bitLength 1024 n - 53 = 0 := by
    have := bitLength_le 1024 n 53 h
    omega
  simp [roundDouble, hb, Nat.mod_one]

theorem maskOf_small (s : Nat) (h : s ≤ 53) : maskOf s = 2 ^ s - 1 := by
  apply roundDouble_exact
  have h1 : 2 ^ s ≤ 2 ^ 53 := Nat.pow_le_pow_right (by norm_num) h
  have h2 : 0 < 2 ^ s := Nat.pow_pos (by norm_num)
  omega

/-- From `s = 54` on, `2 ^ s - 1` is not a `double`: it rounds to `2 ^ s`, and the mask
is a single bit. -/
theorem maskOf_large (s : Nat) (h1 : 54 ≤ s) (h2 : s ≤ 63) : maskOf s = 2 ^ s := by
  interval_cases s <;> decide

theorem setIndexOf_small (cfg : Config) (addr : Nat) (h : cfg.s ≤ 53) :
    setIndexOf cfg addr = (addr >>> cfg.b) % 2 ^ cfg.s := by
  unfold setIndexOf
  rw [maskOf_small _ h, Nat.and_pow_two_sub_one_eq_mod]

/-! ## Reads and writes of lines -/

theorem getD_set_ite {α : Type} (l : List α) (i j : Nat) (a d : α) :
    (l.set i a).getD j d = if i = j ∧ i < l.length then a else l.getD j d := by
  rw [List.getD_eq_getElem?_getD, List.getD_eq_getElem?_getD, List.getElem?_set]
  by_cases hij : i = j
  · subst hij
    by_cases hl : i < l.length
    · rw [if_pos rfl, if_pos hl, if_pos ⟨rfl, hl⟩]
      rfl
    · have h0 : l[i]? = none := List.getElem?_eq_none (by omega)
      rw [if_pos rfl, if_neg hl, if_neg (fun h => hl h.2), h0]
  · rw [if_neg hij, if_neg (fun h => hij h.1)]

theorem lineAt_set (cs : List cache_block_t) (p i : Nat) (x : cache_block_t) :
    lineAt (cs.set p x) i = if p = i ∧ p < cs.length then x else lineAt cs i :=
  getD_set_ite cs p i x zeroBlock

theorem lineAt_of_le (cs : List cache_block_t) (i : Nat) (h : cs.length ≤ i) :
    lineAt cs i = zeroBlock := by
  unfold lineAt
  rw [List.getD_eq_getElem?_getD, List.getElem?_eq_none h]
  rfl

theorem lineAt_nil (i : Nat) : lineAt [] i = zeroBlock :=
  lineAt_of_le [] i (Nat.zero_le _)

/-- The line at slot `i` of set `k` after slot `p` of set `idx` is overwritten. -/
theorem lineAt_update (cache : List (List cache_block_t)) (idx p k i : Nat) (x : cache_block_t) :
    lineAt ((cache.set idx ((cache.getD idx []).set p x)).getD k []) i =
      if (idx = k ∧ idx < cache.length) ∧ (p = i ∧ p < (cache.getD idx []).length) then x
      else lineAt (cache.getD k []) i := by
  rw [getD_set_ite]
  by_cases h1 : idx = k ∧ idx < cache.length
  · rw [if_pos h1, lineAt_set]
    rcases h1 with ⟨rfl, h1⟩
    simp [h1]
  · rw [if_neg h1]
    simp [h1]

theorem length_update (cache : List (List cache_block_t)) (idx p k : Nat) (x : cache_block_t) :
    ((cache.set idx ((cache.getD idx []).set p x)).getD k []).length =
      (cache.getD k []).length := by
  rw [getD_set_ite]
  split
  · rename_i h
    rw [List.length_set, h.1]
  · rfl

/-! ## The three scans -/

theorem hitScan_none_iff (cs : List cache_block_t) (t E : Nat) :
    hitScan cs t E = none ↔
      ∀ i, i < E → ¬((lineAt cs i).tag = t ∧ (lineAt cs i).used = 1) := by
  unfold hitScan
  rw [List.find?_eq_none]
  simp [List.mem_range]

theorem find_range_some (p : Nat → Bool) (E i : Nat) (h : (List.range E).find? p = some i) :
    i < E ∧ p i = true ∧ ∀ j, j < i → p j = false := by
  induction E with
  | zero => simp at h
  | succ n ih =>
    rw [List.range_succ, List.find?_append] at h
    cases hf : (List.range n).find? p with
    | some x =>
      rw [hf] at h
      simp only [Option.or_some, Option.some.injEq] at h
      subst h
      obtain ⟨h1, h2, h3⟩ := ih hf
      exact ⟨by omega, h2, h3⟩
    | none =>
      rw [hf, Option.none_or] at h
      have hn : p n = true := by
        by_contra hc
        simp [List.find?, hc] at h
      have hi : i = n := by
        simp [List.find?, hn] at h
        exact h.symm
      subst hi
      refine ⟨by omega, hn, ?_⟩
      intro j hj
      rw [List.find?_eq_none] at hf
      have := hf j (List.mem_range.mpr hj)
      simpa using this

theorem hitScan_some (cs : List cache_block_t) (t E i : Nat) (h : hitScan cs t E = some i) :
    i < E ∧ (lineAt cs i).tag = t ∧ (lineAt cs i).used = 1 ∧
      ∀ j, j < i → ¬((lineAt cs j).tag = t ∧ (lineAt cs j).used = 1) := by
  obtain ⟨h1, h2, h3⟩ := find_range_some _ E i h
  simp only [Bool.and_eq_true, decide_eq_true_eq] at h2
  refine ⟨h1, h2.1, h2.2, ?_⟩
  intro j hj hc
  have := h3 j hj
  simp [hc.1, hc.2] at this

theorem hitScan_isSome_iff (cs : List cache_block_t) (t E : Nat) :
    (hitScan cs t E).isSome = true ↔
      ∃ i, i < E ∧ (lineAt cs i).tag = t ∧ (lineAt cs i).used = 1 := by
  constructor
  · intro h
    obtain ⟨i, hi⟩ := Option.isSome_iff_exists.mp h
    obtain ⟨h1, h2, h3, _⟩ := hitScan_some cs t E i hi
    exact ⟨i, h1, h2, h3⟩
  · rintro ⟨i, h1, h2, h3⟩
    cases hh : hitScan cs t E with
    | some x => rfl
    | none =>
      rw [hitScan_none_iff] at hh
      exact absurd ⟨h2, h3⟩ (hh i h1)

theorem compulsoryScan_spec (cs : List cache_block_t) (E : Nat) :
    ((compulsoryScan cs E).2 = 0 ∧ (compulsoryScan cs E).1 = 0 ∧
        ∀ i, i < E → (lineAt cs i).used ≠ 0) ∨
      ((compulsoryScan cs E).2 = 1 ∧ (compulsoryScan cs E).1 < E ∧
        (lineAt cs (compulsoryScan cs E).1).used = 0 ∧
        ∀ j, j < (compulsoryScan cs E).1 → (lineAt cs j).used ≠ 0) := by
  induction E with
  | zero => left; simp [compulsoryScan]
  | succ n ih =>
    have hstep : compulsoryScan cs (n + 1) =
        if (compulsoryScan cs n).2 = 0 ∧ (lineAt cs n).used = 0 then (n, 1)
        else compulsoryScan cs n := by
      simp [compulsoryScan, List.range_succ, List.foldl_append]
    rcases ih with ⟨h1, h2, h3⟩ | ⟨h1, h2, h3, h4⟩
    · by_cases hu : (lineAt cs n).used = 0
      · right
        rw [hstep, if_pos ⟨h1, hu⟩]
        exact ⟨rfl, by simp, hu, fun j hj => h3 j hj⟩
      · left
        rw [hstep, if_neg (fun h => hu h.2)]
        refine ⟨h1, h2, ?_⟩
        intro i hi
        rcases Nat.lt_succ_iff_lt_or_eq.mp hi with h | h
        · exact h3 i h
        · subst h; exact hu
    · right
      rw [hstep, if_neg (fun h => by omega)]
      exact ⟨h1, by omega, h3, h4⟩

theorem evictScan_spec (cs : List cache_block_t) (E : Nat) (m : Int) (p0 : Nat) :
    (evictScan cs E m p0 = p0 ∧ ∀ i, i < E → ¬ (lineAt cs i).lru_counter < toUInt32 m) ∨
      (evictScan cs E m p0 < E ∧ (lineAt cs (evictScan cs E m p0)).lru_counter < toUInt32 m ∧
        ∀ j, evictScan cs E m p0 < j → j < E → ¬ (lineAt cs j).lru_counter < toUInt32 m) := by
  induction E with
  | zero => left; simp [evictScan]
  | succ n ih =>
    have hstep : evictScan cs (n + 1) m p0 =
        if (lineAt cs n).lru_counter < toUInt32 m then n else evictScan cs n m p0 := by
      simp [evictScan, List.range_succ, List.foldl_append]
    by_cases hlt : (lineAt cs n).lru_counter < toUInt32 m
    · right
      rw [hstep, if_pos hlt]
      exact ⟨by omega, hlt, fun j h1 h2 => by omega⟩
    · rw [hstep, if_neg hlt]
      rcases ih with ⟨h1, h2⟩ | ⟨h1, h2, h3⟩
      · left
        refine ⟨h1, ?_⟩
        intro i hi
        rcases Nat.lt_succ_iff_lt_or_eq.mp hi with h | h
        · exact h2 i h
        · subst h; exact hlt
      · right
        refine ⟨by omega, h2, ?_⟩
        intro j hj1 hj2
        rcases Nat.lt_succ_iff_lt_or_eq.mp hj2 with h | h
        · exact h3 j hj1 h
        · subst h; exact hlt

/-- The eviction scan returns the last slot whose recency is below that of slot 0, and
slot 0 when there is none. -/
theorem evictSlot_spec (cs : List cache_block_t) (E : Nat)
    (h0 : (lineAt cs 0).lru_counter < 2 ^ 32) :
    (evictSlot cs E = 0 ∧
        ∀ i, i < E → (lineAt cs 0).lru_counter ≤ (lineAt cs i).lru_counter) ∨
      (evictSlot cs E < E ∧
        (lineAt cs (evictSlot cs E)).lru_counter < (lineAt cs 0).lru_counter ∧
        ∀ j, evictSlot cs E < j → j < E →
          (lineAt cs 0).lru_counter ≤ (lineAt cs j).lru_counter) := by
  have hm : toUInt32 (toInt32 (lineAt cs 0).lru_counter) = (lineAt cs 0).lru_counter := by
    rw [toUInt32_toInt32, Nat.mod_eq_of_lt h0]
  unfold evictSlot
  have := evictScan_spec cs E (toInt32 (lineAt cs 0).lru_counter) 0
  rw [hm] at this
  rcases this with ⟨h1, h2⟩ | ⟨h1, h2, h3⟩
  · left
    exact ⟨h1, fun i hi => Nat.le_of_not_lt (h2 i hi)⟩
  · right
    exact ⟨h1, h2, fun j hj1 hj2 => Nat.le_of_not_lt (h3 j hj1 hj2)⟩

theorem evictSlot_lt (cs : List cache_block_t) (E : Nat) (hE : 1 ≤ E) : evictSlot cs E < E := by
  unfold evictSlot
  rcases evictScan_spec cs E (toInt32 (lineAt cs 0).lru_counter) 0 with ⟨h1, _⟩ | ⟨h1, _⟩
  · omega
  · exact h1


/-! ## The branches of `accessData` -/

theorem accessData_hit (cfg : Config) (addr : Nat) (st : Globals) (i : Nat)
    (h : hitScan (curSet cfg st addr) (tagOf cfg addr) cfg.E = some i) :
    accessData cfg addr st =
      { st with
        hit_count := st.hit_count + 1
        cache := st.cache.set (setIndexOf cfg addr)
          ((curSet cfg st addr).set i
            { lineAt (curSet cfg st addr) i with lru_counter := st.g_lru_counter % 2 ^ 32 })
        g_lru_counter := st.g_lru_counter + 1 } := by
  unfold curSet at h
  simp only [accessData, h, curSet]

theorem accessData_fill (cfg : Config) (addr : Nat) (st : Globals)
    (h : hitScan (curSet cfg st addr) (tagOf cfg addr) cfg.E = none)
    (h2 : (compulsoryScan (curSet cfg st addr) cfg.E).2 ≠ 0) :
    accessData cfg addr st =
      insertBlock { st with miss_count := st.miss_count + 1 } (setIndexOf cfg addr)
        (compulsoryScan (curSet cfg st addr) cfg.E).1 (tagOf cfg addr) := by
  have h1 : (compulsoryScan (curSet cfg st addr) cfg.E).2 = 1 := by
    rcases compulsoryScan_spec (curSet cfg st addr) cfg.E with ⟨h', _⟩ | ⟨h', _⟩
    · exact absurd h' h2
    · exact h'
  unfold curSet at h h1 h2
  simp only [accessData, h, curSet, if_neg h2, if_pos h1]

theorem accessData_evict (cfg : Config) (addr : Nat) (st : Globals)
    (h : hitScan (curSet cfg st addr) (tagOf cfg addr) cfg.E = none)
    (h2 : (compulsoryScan (curSet cfg st addr) cfg.E).2 = 0)
    (h3 : (lineAt (curSet cfg st addr) (evictSlot (curSet cfg st addr) cfg.E)).used = 1) :
    accessData cfg addr st =
      insertBlock { st with miss_count := st.miss_count + 1
                            eviction_count := st.eviction_count + 1 }
        (setIndexOf cfg addr) (evictSlot (curSet cfg st addr) cfg.E) (tagOf cfg addr) := by
  have h0 : (compulsoryScan (curSet cfg st addr) cfg.E).1 = 0 := by
    rcases compulsoryScan_spec (curSet cfg st addr) cfg.E with ⟨_, h', _⟩ | ⟨h', _⟩
    · exact h'
    · omega
  unfold curSet at h h0 h2 h3
  unfold evictSlot at h3
  simp only [accessData, h, curSet, evictSlot, if_pos h2, h0, if_pos h3, if_true]

theorem accessData_noinsert (cfg : Config) (addr : Nat) (st : Globals)
    (h : hitScan (curSet cfg st addr) (tagOf cfg addr) cfg.E = none)
    (h2 : (compulsoryScan (curSet cfg st addr) cfg.E).2 = 0)
    (h3 : (lineAt (curSet cfg st addr) (evictSlot (curSet cfg st addr) cfg.E)).used ≠ 1) :
    accessData cfg addr st =
      { st with miss_count := st.miss_count + 1
                eviction_count := st.eviction_count + 1 } := by
  have h0 : (compulsoryScan (curSet cfg st addr) cfg.E).1 = 0 := by
    rcases compulsoryScan_spec (curSet cfg st addr) cfg.E with ⟨_, h', _⟩ | ⟨h', _⟩
    · exact h'
    · omega
  unfold curSet at h h0 h2 h3
  unfold evictSlot at h3
  simp only [accessData, h, curSet, if_pos h2, h0, if_neg h3, h2]
  simp

theorem resident_iff_hitScan (cfg : Config) (st : Globals) (addr : Nat) :
    resident cfg st addr ↔
      (hitScan (curSet cfg st addr) (tagOf cfg addr) cfg.E).isSome = true := by
  rw [hitScan_isSome_iff]
  rfl

theorem not_resident_iff_hitScan (cfg : Config) (st : Globals) (addr : Nat) :
    ¬ resident cfg st addr ↔ hitScan (curSet cfg st addr) (tagOf cfg addr) cfg.E = none := by
  rw [resident_iff_hitScan]
  cases hitScan (curSet cfg st addr) (tagOf cfg addr) cfg.E <;> simp

/-! ## The statistics after one call -/

theorem accessData_counts_hit (cfg : Config) (addr : Nat) (st : Globals)
    (h : resident cfg st addr) :
    (accessData cfg addr st).hit_count = st.hit_count + 1 ∧
      (accessData cfg addr st).miss_count = st.miss_count ∧
      (accessData cfg addr st).eviction_count = st.eviction_count := by
  rw [resident_iff_hitScan] at h
  obtain ⟨i, hi⟩ := Option.isSome_iff_exists.mp h
  rw [accessData_hit cfg addr st i hi]
  exact ⟨rfl, rfl, rfl⟩

theorem accessData_counts_miss (cfg : Config) (addr : Nat) (st : Globals)
    (h : ¬ resident cfg st addr) :
    (accessData cfg addr st).hit_count = st.hit_count ∧
      (accessData cfg addr st).miss_count = st.miss_count + 1 ∧
      (accessData cfg addr st).eviction_count =
        st.eviction_count + (if (compulsoryScan (curSet cfg st addr) cfg.E).2 = 0 then 1 else 0) := by
  rw [not_resident_iff_hitScan] at h
  by_cases h2 : (compulsoryScan (curSet cfg st addr) cfg.E).2 = 0
  · rw [if_pos h2]
    by_cases h3 : (lineAt (curSet cfg st addr) (evictSlot (curSet cfg st addr) cfg.E)).used = 1
    · rw [accessData_evict cfg addr st h h2 h3]
      exact ⟨rfl, rfl, rfl⟩
    · rw [accessData_noinsert cfg addr st h h2 h3]
      exact ⟨rfl, rfl, rfl⟩
  · rw [if_neg h2, accessData_fill cfg addr st h h2]
    exact ⟨rfl, rfl, rfl⟩

theorem accessData_g (cfg : Config) (addr : Nat) (st : Globals) :
    (accessData cfg addr st).g_lru_counter = st.g_lru_counter ∨
      (accessData cfg addr st).g_lru_counter = st.g_lru_counter + 1 := by
  cases h : hitScan (curSet cfg st addr) (tagOf cfg addr) cfg.E with
  | some i => right; rw [accessData_hit cfg addr st i h]
  | none =>
    by_cases h2 : (compulsoryScan (curSet cfg st addr) cfg.E).2 = 0
    · by_cases h3 : (lineAt (curSet cfg st addr) (evictSlot (curSet cfg st addr) cfg.E)).used = 1
      · right; rw [accessData_evict cfg addr st h h2 h3]; rfl
      · left; rw [accessData_noinsert cfg addr st h h2 h3]
    · right; rw [accessData_fill cfg addr st h h2]; rfl

/-! ## The invariant -/

theorem lineAt_initCache (cfg : Config) (k i : Nat) :
    lineAt ((initCache cfg).cache.getD k []) i = zeroBlock := by
  unfold initCache lineAt
  simp only [List.getD_eq_getElem?_getD, List.getElem?_replicate]
  split
  · simp only [Option.getD_some, List.getElem?_replicate]
    split <;> rfl
  · rfl

theorem Inv_initCache (cfg : Config) : Inv cfg (initCache cfg) where
  length_cache := by simp [initCache]
  length_set := by
    intro k hk
    simp [initCache, List.getD_eq_getElem?_getD, List.getElem?_replicate, hk]
  used01 := by
    intro k i
    rw [lineAt_initCache]
    left; rfl
  tags_distinct := by
    intro k i j _ h
    rw [lineAt_initCache] at h
    exact absurd h (by decide)

/-- Overwriting one slot with a line whose `tag` and `used` are those already there
keeps the invariant. -/
theorem Inv_bump (cfg : Config) (st st' : Globals) (idx p : Nat) (x : cache_block_t)
    (hI : Inv cfg st)
    (hc : st'.cache = st.cache.set idx ((st.cache.getD idx []).set p x))
    (hx1 : x.tag = (lineAt (st.cache.getD idx []) p).tag)
    (hx2 : x.used = (lineAt (st.cache.getD idx []) p).used) : Inv cfg st' := by
  have key : ∀ k i, (lineAt (st'.cache.getD k []) i).tag = (lineAt (st.cache.getD k []) i).tag ∧
      (lineAt (st'.cache.getD k []) i).used = (lineAt (st.cache.getD k []) i).used := by
    intro k i
    rw [hc, lineAt_update]
    split
    · rename_i h
      obtain ⟨⟨rfl, _⟩, rfl, _⟩ := h
      exact ⟨hx1, hx2⟩
    · exact ⟨rfl, rfl⟩
  constructor
  · rw [hc, List.length_set]; exact hI.length_cache
  · intro k hk
    rw [hc, length_update]; exact hI.length_set k hk
  · intro k i
    rw [(key k i).2]; exact hI.used01 k i
  · intro k i j hij h1 h2
    rw [(key k i).2] at h1
    rw [(key k j).2] at h2
    rw [(key k i).1, (key k j).1]
    exact hI.tags_distinct k i j hij h1 h2

/-- Overwriting one slot with a valid line whose tag no other valid line of the set
holds keeps the invariant. -/
theorem Inv_insert (cfg : Config) (st st' : Globals) (idx p t g : Nat)
    (hI : Inv cfg st)
    (hc : st'.cache = st.cache.set idx ((st.cache.getD idx []).set p ⟨t, 1, g⟩))
    (hfresh : ∀ j, (lineAt (st.cache.getD idx []) j).used = 1 →
      (lineAt (st.cache.getD idx []) j).tag ≠ t) : Inv cfg st' := by
  constructor
  · rw [hc, List.length_set]; exact hI.length_cache
  · intro k hk
    rw [hc, length_update]; exact hI.length_set k hk
  · intro k i
    rw [hc, lineAt_update]
    split
    · right; rfl
    · exact hI.used01 k i
  · intro k i j hij h1 h2
    rw [hc, lineAt_update] at h1 h2
    rw [hc, lineAt_update, lineAt_update]
    by_cases ci : (idx = k ∧ idx < st.cache.length) ∧ (p = i ∧ p < (st.cache.getD idx []).length)
    · by_cases cj : (idx = k ∧ idx < st.cache.length) ∧ (p = j ∧ p < (st.cache.getD idx []).length)
      · exact absurd (ci.2.1.symm.trans cj.2.1) hij
      · rw [if_pos ci, if_neg cj]
        rw [if_neg cj] at h2
        obtain ⟨⟨rfl, _⟩, _⟩ := ci
        exact (hfresh j h2).symm
    · by_cases cj : (idx = k ∧ idx < st.cache.length) ∧ (p = j ∧ p < (st.cache.getD idx []).length)
      · rw [if_neg ci, if_pos cj]
        rw [if_neg ci] at h1
        obtain ⟨⟨rfl, _⟩, _⟩ := cj
        exact hfresh i h1
      · rw [if_neg ci, if_neg cj]
        rw [if_neg ci] at h1
        rw [if_neg cj] at h2
        exact hI.tags_distinct k i j hij h1 h2

/-- In a state that satisfies the invariant, a line outside the `E` slots is unused. -/
theorem Inv_used_lt (cfg : Config) (st : Globals) (hI : Inv cfg st) (k j : Nat)
    (h : (lineAt (st.cache.getD k []) j).used = 1) : j < cfg.E := by
  by_contra hj
  have hz : lineAt (st.cache.getD k []) j = zeroBlock := by
    by_cases hk : k < cfg.S
    · apply lineAt_of_le
      rw [hI.length_set k hk]; omega
    · have : st.cache.getD k [] = [] := by
        rw [List.getD_eq_getElem?_getD, List.getElem?_eq_none (by rw [hI.length_cache]; omega)]
        rfl
      rw [this, lineAt_nil]
  rw [hz] at h
  exact absurd h (by decide)

theorem Inv_accessData (cfg : Config) (addr : Nat) (st : Globals) (hI : Inv cfg st) :
    Inv cfg (accessData cfg addr st) := by
  cases h : hitScan (curSet cfg st addr) (tagOf cfg addr) cfg.E with
  | some i =>
    rw [accessData_hit cfg addr st i h]
    exact Inv_bump cfg st _ (setIndexOf cfg addr) i _ hI rfl rfl rfl
  | none =>
    have hfresh : ∀ j, (lineAt (st.cache.getD (setIndexOf cfg addr) []) j).used = 1 →
        (lineAt (st.cache.getD (setIndexOf cfg addr) []) j).tag ≠ tagOf cfg addr := by
      intro j hu ht
      have hj := Inv_used_lt cfg st hI _ j hu
      rw [hitScan_none_iff] at h
      exact h j hj ⟨ht, hu⟩
    by_cases h2 : (compulsoryScan (curSet cfg st addr) cfg.E).2 = 0
    · by_cases h3 : (lineAt (curSet cfg st addr) (evictSlot (curSet cfg st addr) cfg.E)).used = 1
      · rw [accessData_evict cfg addr st h h2 h3]
        exact Inv_insert cfg st _ (setIndexOf cfg addr) _ _ _ hI rfl hfresh
      · rw [accessData_noinsert cfg addr st h h2 h3]
        exact ⟨hI.length_cache, hI.length_set, hI.used01, hI.tags_distinct⟩
    · rw [accessData_fill cfg addr st h h2]
      exact Inv_insert cfg st _ (setIndexOf cfg addr) _ _ _ hI rfl hfresh

theorem Inv_accessAll (cfg : Config) (addrs : List Nat) :
    ∀ st, Inv cfg st → Inv cfg (accessAll cfg addrs st) := by
  induction addrs with
  | nil => intro st h; exact h
  | cons a as ih =>
    intro st h
    exact ih _ (Inv_accessData cfg a st h)

theorem Inv_run (cfg : Config) (addrs : List Nat) : Inv cfg (run cfg addrs) :=
  Inv_accessAll cfg addrs _ (Inv_initCache cfg)


/-! ## Valid configurations: every access is in bounds -/

theorem Valid_s_le (cfg : Config) (hv : cfg.Valid) : cfg.s ≤ 30 ∧ cfg.S = 2 ^ cfg.s := by
  have h := hv.2
  unfold numSets at h
  split at h
  · rename_i hs
    exact ⟨hs, (Option.some.inj h).symm⟩
  · exact absurd h (by simp)

theorem setIndexOf_lt (cfg : Config) (hv : cfg.Valid) (addr : Nat) :
    setIndexOf cfg addr < cfg.S := by
  obtain ⟨hs, hS⟩ := Valid_s_le cfg hv
  rw [setIndexOf_small cfg addr (by omega), hS]
  exact Nat.mod_lt _ (Nat.pow_pos (by norm_num))

theorem curSet_length (cfg : Config) (hv : cfg.Valid) (st : Globals) (hI : Inv cfg st)
    (addr : Nat) : (curSet cfg st addr).length = cfg.E :=
  hI.length_set _ (setIndexOf_lt cfg hv addr)

/-- With the invariant, a set without unused line has only valid lines. -/
theorem full_of_scan (cfg : Config) (st : Globals) (hI : Inv cfg st) (addr : Nat)
    (h2 : (compulsoryScan (curSet cfg st addr) cfg.E).2 = 0) : setFull cfg st addr := by
  intro i hi
  rcases compulsoryScan_spec (curSet cfg st addr) cfg.E with ⟨_, _, h⟩ | ⟨h, _⟩
  · rcases hI.used01 (setIndexOf cfg addr) i with h0 | h1
    · exact absurd h0 (h i hi)
    · exact h1
  · omega

theorem scan_of_full (cfg : Config) (st : Globals) (addr : Nat) (hf : setFull cfg st addr) :
    (compulsoryScan (curSet cfg st addr) cfg.E).2 = 0 := by
  rcases compulsoryScan_spec (curSet cfg st addr) cfg.E with ⟨h, _⟩ | ⟨_, h1, h2, _⟩
  · exact h
  · have := hf _ h1
    omega

/-- The line written by `accessData`: after the call, some slot `p < E` of the set of
`addr` holds the tag of `addr`, is valid, and carries the old value of the counter. -/
theorem accessData_line (cfg : Config) (hv : cfg.Valid) (st : Globals) (hI : Inv cfg st)
    (addr : Nat) :
    ∃ p, p < cfg.E ∧
      (lineAt (curSet cfg (accessData cfg addr st) addr) p).tag = tagOf cfg addr ∧
      (lineAt (curSet cfg (accessData cfg addr st) addr) p).used = 1 ∧
      (lineAt (curSet cfg (accessData cfg addr st) addr) p).lru_counter =
        st.g_lru_counter % 2 ^ 32 ∧
      (accessData cfg addr st).g_lru_counter = st.g_lru_counter + 1 := by
  have hidx : setIndexOf cfg addr < st.cache.length := by
    rw [hI.length_cache]; exact setIndexOf_lt cfg hv addr
  have hlen : (st.cache.getD (setIndexOf cfg addr) []).length = cfg.E :=
    curSet_length cfg hv st hI addr
  have hins : ∀ (st0 : Globals) (p : Nat), st0.cache = st.cache → p < cfg.E →
      st0.g_lru_counter = st.g_lru_counter →
      (lineAt (curSet cfg (insertBlock st0 (setIndexOf cfg addr) p (tagOf cfg addr)) addr) p).tag
          = tagOf cfg addr ∧
      (lineAt (curSet cfg (insertBlock st0 (setIndexOf cfg addr) p (tagOf cfg addr)) addr) p).used
          = 1 ∧
      (lineAt (curSet cfg (insertBlock st0 (setIndexOf cfg addr) p
          (tagOf cfg addr)) addr) p).lru_counter = st.g_lru_counter % 2 ^ 32 ∧
      (insertBlock st0 (setIndexOf cfg addr) p (tagOf cfg addr)).g_lru_counter =
        st.g_lru_counter + 1 := by
    intro st0 p hc hp hg
    have hl : lineAt (curSet cfg (insertBlock st0 (setIndexOf cfg addr) p (tagOf cfg addr)) addr) p
        = ⟨tagOf cfg addr, 1, st.g_lru_counter % 2 ^ 32⟩ := by
      unfold curSet insertBlock
      simp only [hc, hg]
      rw [lineAt_update, if_pos ⟨⟨rfl, hidx⟩, rfl, by rw [hlen]; exact hp⟩]
    rw [hl]
    refine ⟨rfl, rfl, rfl, ?_⟩
    unfold insertBlock
    simp only [hg]
  cases h : hitScan (curSet cfg st addr) (tagOf cfg addr) cfg.E with
  | some i =>
    obtain ⟨hi, ht, hu, _⟩ := hitScan_some _ _ _ _ h
    refine ⟨i, hi, ?_⟩
    rw [accessData_hit cfg addr st i h]
    have hl : lineAt (curSet cfg { st with
        hit_count := st.hit_count + 1
        cache := st.cache.set (setIndexOf cfg addr)
          ((curSet cfg st addr).set i
            { lineAt (curSet cfg st addr) i with lru_counter := st.g_lru_counter % 2 ^ 32 })
        g_lru_counter := st.g_lru_counter + 1 } addr) i =
        { lineAt (curSet cfg st addr) i with lru_counter := st.g_lru_counter % 2 ^ 32 } := by
      unfold curSet
      simp only
      rw [lineAt_update, if_pos ⟨⟨rfl, hidx⟩, rfl, by rw [hlen]; exact hi⟩]
    rw [hl]
    exact ⟨ht, hu, rfl, rfl⟩
  | none =>
    by_cases h2 : (compulsoryScan (curSet cfg st addr) cfg.E).2 = 0
    · have hp : evictSlot (curSet cfg st addr) cfg.E < cfg.E := evictSlot_lt _ _ hv.1
      have h3 : (lineAt (curSet cfg st addr) (evictSlot (curSet cfg st addr) cfg.E)).used = 1 :=
        full_of_scan cfg st hI addr h2 _ hp
      refine ⟨_, hp, ?_⟩
      rw [accessData_evict cfg addr st h h2 h3]
      exact hins _ _ rfl hp rfl
    · have hp : (compulsoryScan (curSet cfg st addr) cfg.E).1 < cfg.E := by
        rcases compulsoryScan_spec (curSet cfg st addr) cfg.E with ⟨h', _⟩ | ⟨_, h', _⟩
        · exact absurd h' h2
        · exact h'
      refine ⟨_, hp, ?_⟩
      rw [accessData_fill cfg addr st h h2]
      exact hins _ _ rfl hp rfl

theorem resident_accessData (cfg : Config) (hv : cfg.Valid) (st : Globals) (hI : Inv cfg st)
    (addr : Nat) : resident cfg (accessData cfg addr st) addr := by
  obtain ⟨p, hp, ht, hu, _⟩ := accessData_line cfg hv st hI addr
  exact ⟨p, hp, ht, hu⟩

/-- Repeated accesses to a resident block are all hits. -/
theorem accessAll_replicate_resident (cfg : Config) (hv : cfg.Valid) (addr : Nat) (n : Nat) :
    ∀ st, Inv cfg st → resident cfg st addr →
      (accessAll cfg (List.replicate n addr) st).hit_count = st.hit_count + n ∧
      (accessAll cfg (List.replicate n addr) st).miss_count = st.miss_count ∧
      (accessAll cfg (List.replicate n addr) st).eviction_count = st.eviction_count := by
  induction n with
  | zero => intro st _ _; exact ⟨rfl, rfl, rfl⟩
  | succ n ih =>
    intro st hI hr
    obtain ⟨h1, h2, h3⟩ := accessData_counts_hit cfg addr st hr
    obtain ⟨k1, k2, k3⟩ := ih (accessData cfg addr st) (Inv_accessData cfg addr st hI)
      (resident_accessData cfg hv st hI addr)
    simp only [List.replicate_succ, accessAll, List.foldl_cons] at k1 k2 k3 ⊢
    refine ⟨?_, ?_, ?_⟩
    · rw [k1, h1]; omega
    · rw [k2, h2]
    · rw [k3, h3]

theorem accessAll_append (cfg : Config) (xs ys : List Nat) (st : Globals) :
    accessAll cfg (xs ++ ys) st = accessAll cfg ys (accessAll cfg xs st) := by
  simp [accessAll, List.foldl_append]

theorem accessAll_cons (cfg : Config) (x : Nat) (xs : List Nat) (st : Globals) :
    accessAll cfg (x :: xs) st = accessAll cfg xs (accessData cfg x st) := rfl

theorem accessAll_nil (cfg : Config) (st : Globals) : accessAll cfg [] st = st := rfl

theorem accessData_eviction_le (cfg : Config) (addr : Nat) (st : Globals) :
    st.eviction_count ≤ (accessData cfg addr st).eviction_count ∧
      (accessData cfg addr st).eviction_count ≤ st.eviction_count + 1 ∧
      ((accessData cfg addr st).eviction_count ≠ st.eviction_count →
        (accessData cfg addr st).miss_count = st.miss_count + 1) ∧
      st.miss_count ≤ (accessData cfg addr st).miss_count := by
  by_cases hr : resident cfg st addr
  · obtain ⟨_, h2, h3⟩ := accessData_counts_hit cfg addr st hr
    rw [h2, h3]
    exact ⟨le_refl _, by omega, fun h => absurd rfl h, le_refl _⟩
  · obtain ⟨_, h2, h3⟩ := accessData_counts_miss cfg addr st hr
    rw [h2, h3]
    split <;> exact ⟨by omega, by omega, fun _ => rfl, by omega⟩

theorem accessAll_eviction_le_miss (cfg : Config) (addrs : List Nat) :
    ∀ st, st.eviction_count ≤ st.miss_count →
      (accessAll cfg addrs st).eviction_count ≤ (accessAll cfg addrs st).miss_count := by
  induction addrs with
  | nil => intro st h; exact h
  | cons a as ih =>
    intro st h
    rw [accessAll_cons]
    apply ih
    obtain ⟨h1, h2, h3, h4⟩ := accessData_eviction_le cfg a st
    by_cases he : (accessData cfg a st).eviction_count = st.eviction_count
    · omega
    · have := h3 he
      omega


/-! ## Filling an empty set -/

theorem lineAt_append (pre post : List cache_block_t) (i : Nat) :
    lineAt (pre ++ post) i =
      if i < pre.length then lineAt pre i else lineAt post (i - pre.length) := by
  unfold lineAt
  split
  · rename_i h
    exact List.getD_append _ _ _ _ h
  · rename_i h
    exact List.getD_append_right _ _ _ _ (by omega)

theorem lineAt_mem (l : List cache_block_t) (i : Nat) (h : i < l.length) : lineAt l i ∈ l := by
  unfold lineAt
  rw [List.getD_eq_getElem?_getD, List.getElem?_eq_getElem h]
  exact List.getElem_mem h

theorem lineAt_used_zero (l : List cache_block_t) (h : ∀ x ∈ l, x.used = 0) (i : Nat) :
    (lineAt l i).used = 0 := by
  by_cases hi : i < l.length
  · exact h _ (lineAt_mem l i hi)
  · rw [lineAt_of_le l i (by omega)]
    rfl

/-- An access to another set leaves set `k` as it is and advances the recency counter
by at most one. -/
theorem accessData_other_set (cfg : Config) (k o : Nat) (st : Globals)
    (h : setIndexOf cfg o ≠ k) :
    (accessData cfg o st).cache.getD k [] = st.cache.getD k [] ∧
      (accessData cfg o st).cache.length = st.cache.length ∧
      st.g_lru_counter ≤ (accessData cfg o st).g_lru_counter ∧
      (accessData cfg o st).g_lru_counter ≤ st.g_lru_counter + 1 := by
  have hget : ∀ x : List cache_block_t,
      (st.cache.set (setIndexOf cfg o) x).getD k [] = st.cache.getD k [] := by
    intro x
    rw [getD_set_ite, if_neg (fun hc => h hc.1)]
  cases hh : hitScan (curSet cfg st o) (tagOf cfg o) cfg.E with
  | some i =>
    rw [accessData_hit cfg o st i hh]
    exact ⟨hget _, List.length_set _ _ _, Nat.le_succ _, le_refl _⟩
  | none =>
    by_cases h2 : (compulsoryScan (curSet cfg st o) cfg.E).2 = 0
    · by_cases h3 : (lineAt (curSet cfg st o) (evictSlot (curSet cfg st o) cfg.E)).used = 1
      · rw [accessData_evict cfg o st hh h2 h3]
        exact ⟨hget _, List.length_set _ _ _, Nat.le_succ _, le_refl _⟩
      · rw [accessData_noinsert cfg o st hh h2 h3]
        exact ⟨rfl, rfl, le_refl _, Nat.le_succ _⟩
    · rw [accessData_fill cfg o st hh h2]
      exact ⟨hget _, List.length_set _ _ _, Nat.le_succ _, le_refl _⟩

theorem accessAll_other_sets (cfg : Config) (k : Nat) (os : List Nat) :
    ∀ st, (∀ o ∈ os, setIndexOf cfg o ≠ k) →
      (accessAll cfg os st).cache.getD k [] = st.cache.getD k [] ∧
      (accessAll cfg os st).cache.length = st.cache.length ∧
      st.g_lru_counter ≤ (accessAll cfg os st).g_lru_counter ∧
      (accessAll cfg os st).g_lru_counter ≤ st.g_lru_counter + os.length := by
  induction os with
  | nil => intro st _; exact ⟨rfl, rfl, le_refl _, le_refl _⟩
  | cons o os ih =>
    intro st h
    obtain ⟨a1, a2, a3, a4⟩ := accessData_other_set cfg k o st (h o (List.mem_cons_self _ _))
    obtain ⟨b1, b2, b3, b4⟩ := ih (accessData cfg o st)
      (fun x hx => h x (List.mem_cons_of_mem _ hx))
    rw [accessAll_cons]
    refine ⟨by rw [b1, a1], by rw [b2, a2], by omega, ?_⟩
    simp only [List.length_cons]
    omega

/-- A miss on a set whose valid lines are followed by unused ones fills the first unused
line, without eviction. -/
theorem fill_step (cfg : Config) (k : Nat) (st : Globals) (pre : List cache_block_t)
    (p : cache_block_t) (post : List cache_block_t) (a : Nat)
    (hk : k < st.cache.length) (hset : st.cache.getD k [] = pre ++ p :: post)
    (hlen : pre.length + (p :: post).length = cfg.E)
    (hpre : ∀ l ∈ pre, l.used = 1) (hpost : ∀ l ∈ p :: post, l.used = 0)
    (hidx : setIndexOf cfg a = k) (hfresh : ∀ l ∈ pre, l.tag ≠ tagOf cfg a) :
    (accessData cfg a st).cache.getD k [] =
        (pre ++ [⟨tagOf cfg a, 1, st.g_lru_counter % 2 ^ 32⟩]) ++ post ∧
      (accessData cfg a st).miss_count = st.miss_count + 1 ∧
      (accessData cfg a st).hit_count = st.hit_count ∧
      (accessData cfg a st).eviction_count = st.eviction_count ∧
      (accessData cfg a st).g_lru_counter = st.g_lru_counter + 1 ∧
      (accessData cfg a st).cache.length = st.cache.length := by
  have hcur : curSet cfg st a = pre ++ p :: post := by
    unfold curSet; rw [hidx, hset]
  have hE : pre.length < cfg.E := by simp at hlen; omega
  have hhit : hitScan (curSet cfg st a) (tagOf cfg a) cfg.E = none := by
    rw [hitScan_none_iff, hcur]
    rintro i _ ⟨ht, hu⟩
    rw [lineAt_append] at ht hu
    by_cases hi : i < pre.length
    · rw [if_pos hi] at ht
      exact hfresh _ (lineAt_mem pre i hi) ht
    · rw [if_neg hi, lineAt_used_zero _ hpost] at hu
      exact absurd hu (by decide)
  have hat : ∀ i, i < pre.length → (lineAt (pre ++ p :: post) i).used = 1 := by
    intro i hi
    rw [lineAt_append, if_pos hi]
    exact hpre _ (lineAt_mem pre i hi)
  have hp0 : (lineAt (pre ++ p :: post) pre.length).used = 0 := by
    rw [lineAt_append, if_neg (lt_irrefl _), lineAt_used_zero _ hpost]
  have hscan : (compulsoryScan (curSet cfg st a) cfg.E).2 ≠ 0 ∧
      (compulsoryScan (curSet cfg st a) cfg.E).1 = pre.length := by
    rw [hcur]
    rcases compulsoryScan_spec (pre ++ p :: post) cfg.E with ⟨_, _, h⟩ | ⟨h1, h2, h3, h4⟩
    · exact absurd hp0 (h _ hE)
    · refine ⟨by omega, ?_⟩
      rcases Nat.lt_trichotomy (compulsoryScan (pre ++ p :: post) cfg.E).1 pre.length
        with h | h | h
      · have := hat _ h
        omega
      · exact h
      · exact absurd hp0 (h4 _ h)
  have hstep := accessData_fill cfg a st hhit hscan.1
  rw [hscan.2, hidx] at hstep
  rw [hstep]
  refine ⟨?_, rfl, rfl, rfl, rfl, ?_⟩
  · unfold insertBlock
    simp only
    rw [getD_set_ite, if_pos ⟨rfl, hk⟩, hset]
    simp [List.set_append]
  · simp [insertBlock]

/-- A miss on a full set in which no line is older than the line of slot 0 overwrites
slot 0. -/
theorem evict_step (cfg : Config) (k : Nat) (st : Globals) (l0 : cache_block_t)
    (rest : List cache_block_t) (a : Nat)
    (hk : k < st.cache.length) (hset : st.cache.getD k [] = l0 :: rest)
    (hlen : rest.length + 1 = cfg.E) (hused : ∀ l ∈ l0 :: rest, l.used = 1)
    (hlru : ∀ l ∈ rest, l0.lru_counter ≤ l.lru_counter) (h0 : l0.lru_counter < 2 ^ 32)
    (hidx : setIndexOf cfg a = k) (hfresh : ∀ l ∈ l0 :: rest, l.tag ≠ tagOf cfg a) :
    (accessData cfg a st).cache.getD k [] =
        ⟨tagOf cfg a, 1, st.g_lru_counter % 2 ^ 32⟩ :: rest ∧
      (accessData cfg a st).miss_count = st.miss_count + 1 ∧
      (accessData cfg a st).hit_count = st.hit_count ∧
      (accessData cfg a st).eviction_count = st.eviction_count + 1 := by
  have hcur : curSet cfg st a = l0 :: rest := by
    unfold curSet; rw [hidx, hset]
  have hl : (l0 :: rest).length = cfg.E := by simpa using hlen
  have hhit : hitScan (curSet cfg st a) (tagOf cfg a) cfg.E = none := by
    rw [hitScan_none_iff, hcur]
    rintro i hi ⟨ht, _⟩
    exact hfresh _ (lineAt_mem _ i (by rw [hl]; exact hi)) ht
  have hscan : (compulsoryScan (curSet cfg st a) cfg.E).2 = 0 := by
    rw [hcur]
    rcases compulsoryScan_spec (l0 :: rest) cfg.E with ⟨h, _⟩ | ⟨_, h1, h2, _⟩
    · exact h
    · have := hused _ (lineAt_mem _ _ (by rw [hl]; exact h1))
      omega
  have hz : lineAt (l0 :: rest) 0 = l0 := rfl
  have hslot : evictSlot (curSet cfg st a) cfg.E = 0 := by
    rw [hcur]
    rcases evictSlot_spec (l0 :: rest) cfg.E (by rw [hz]; exact h0) with ⟨h, _⟩ | ⟨h1, h2, _⟩
    · exact h
    · rw [hz] at h2
      have hmem := lineAt_mem (l0 :: rest) _ (by rw [hl]; exact h1)
      rcases List.mem_cons.mp hmem with he | he
      · rw [he] at h2; omega
      · have := hlru _ he
        omega
  have h3 : (lineAt (curSet cfg st a) (evictSlot (curSet cfg st a) cfg.E)).used = 1 := by
    rw [hslot, hcur, hz]
    exact hused l0 (List.mem_cons_self _ _)
  have hstep := accessData_evict cfg a st hhit hscan h3
  rw [hslot, hidx] at hstep
  rw [hstep]
  refine ⟨?_, rfl, rfl, rfl⟩
  unfold insertBlock
  simp only
  rw [getD_set_ite, if_pos ⟨rfl, hk⟩, hset]
  rfl

theorem interleave_cons (p : List Nat × Nat) (ps : List (List Nat × Nat)) :
    interleave (p :: ps) = p.1 ++ p.2 :: interleave ps := rfl

theorem interleave_append (ps qs : List (List Nat × Nat)) :
    interleave (ps ++ qs) = interleave ps ++ interleave qs := by
  induction ps with
  | nil => rfl
  | cons p ps ih => simp [interleave, ih]

/-- The fill phase.  Set `k` holds valid lines followed by unused ones; accesses to
set `k` with new, pairwise different tags, each preceded by accesses to other sets,
are misses without eviction that fill the unused lines in order, with recencies
that are not below `lo`. -/
theorem fill_run (cfg : Config) (k lo : Nat) (fills : List (List Nat × Nat)) :
    ∀ (st : Globals) (pre post : List cache_block_t),
      k < st.cache.length → st.cache.getD k [] = pre ++ post →
      pre.length + post.length = cfg.E →
      (∀ l ∈ pre, l.used = 1) → (∀ l ∈ post, l.used = 0) →
      fills.length ≤ post.length →
      (∀ p ∈ fills, (∀ o ∈ p.1, setIndexOf cfg o ≠ k) ∧ setIndexOf cfg p.2 = k) →
      (fills.map (fun p => tagOf cfg p.2)).Nodup →
      (∀ p ∈ fills, ∀ l ∈ pre, l.tag ≠ tagOf cfg p.2) →
      lo ≤ st.g_lru_counter → st.g_lru_counter + (interleave fills).length < 2 ^ 32 →
      (∀ F1 p F2, fills = F1 ++ p :: F2 →
        (accessData cfg p.2 (accessAll cfg (interleave F1 ++ p.1) st)).miss_count =
            (accessAll cfg (interleave F1 ++ p.1) st).miss_count + 1 ∧
          (accessData cfg p.2 (accessAll cfg (interleave F1 ++ p.1) st)).hit_count =
            (accessAll cfg (interleave F1 ++ p.1) st).hit_count ∧
          (accessData cfg p.2 (accessAll cfg (interleave F1 ++ p.1) st)).eviction_count =
            (accessAll cfg (interleave F1 ++ p.1) st).eviction_count) ∧
      ∃ new : List cache_block_t,
        (accessAll cfg (interleave fills) st).cache.getD k [] =
            pre ++ new ++ post.drop fills.length ∧
          new.map (fun l => (l.tag, l.used)) = fills.map (fun p => (tagOf cfg p.2, 1)) ∧
          (∀ l ∈ new, lo ≤ l.lru_counter ∧ l.lru_counter < 2 ^ 32) ∧
          (accessAll cfg (interleave fills) st).cache.length = st.cache.length ∧
          st.g_lru_counter ≤ (accessAll cfg (interleave fills) st).g_lru_counter ∧
          (accessAll cfg (interleave fills) st).g_lru_counter ≤
            st.g_lru_counter + (interleave fills).length := by
  induction fills with
  | nil =>
    intro st pre post _ hset _ _ _ _ _ _ _ _ _
    refine ⟨?_, [], ?_⟩
    · intro F1 p F2 h
      exact absurd h (by simp)
    · simp only [interleave, accessAll_nil, List.length_nil, List.drop_zero, List.append_nil,
        List.map_nil, List.not_mem_nil, false_implies, implies_true, Nat.add_zero, le_refl,
        and_self, and_true]
      exact hset
  | cons q qs ih =>
    intro st pre post hk hset hlen hpre hpost hle hsteps hnd hfresh hlo hg
    cases post with
    | nil => simp at hle
    | cons p post' =>
      obtain ⟨hq1, hq2⟩ := hsteps q (List.mem_cons_self _ _)
      -- the accesses to other sets
      obtain ⟨o1, o2, o3, o4⟩ := accessAll_other_sets cfg k q.1 st hq1
      have hgl : (interleave (q :: qs)).length = q.1.length + 1 + (interleave qs).length := by
        rw [interleave_cons]; simp; omega
      -- the access to set `k`
      obtain ⟨f1, f2, f3, f4, f5, f6⟩ := fill_step cfg k (accessAll cfg q.1 st) pre p post' q.2
        (by rw [o2]; exact hk) (by rw [o1]; exact hset) hlen hpre hpost hq2
        (fun l hl => hfresh q (List.mem_cons_self _ _) l hl)
      have hnd' : tagOf cfg q.2 ∉ qs.map (fun p => tagOf cfg p.2) ∧
          (qs.map (fun p => tagOf cfg p.2)).Nodup := by
        rw [List.map_cons] at hnd
        exact List.nodup_cons.mp hnd
      have hmod : (accessAll cfg q.1 st).g_lru_counter % 2 ^ 32 =
          (accessAll cfg q.1 st).g_lru_counter := Nat.mod_eq_of_lt (by omega)
      rw [hmod] at f1
      have hrec := ih (accessData cfg q.2 (accessAll cfg q.1 st))
        (pre ++ [⟨tagOf cfg q.2, 1, (accessAll cfg q.1 st).g_lru_counter⟩]) post'
        (by rw [f6, o2]; exact hk) f1 (by simp at hlen ⊢; omega)
        (by
          intro l hl
          rcases List.mem_append.mp hl with h | h
          · exact hpre l h
          · simp only [List.mem_singleton] at h; subst h; rfl)
        (fun l hl => hpost l (List.mem_cons_of_mem _ hl))
        (by simp at hle; exact hle)
        (fun x hx => hsteps x (List.mem_cons_of_mem _ hx))
        hnd'.2
        (by
          intro x hx l hl
          rcases List.mem_append.mp hl with h | h
          · exact hfresh x (List.mem_cons_of_mem _ hx) l h
          · simp only [List.mem_singleton] at h
            subst h
            intro heq
            apply hnd'.1
            simp only at heq
            rw [heq]
            exact List.mem_map_of_mem (fun p => tagOf cfg p.2) hx)
        (by rw [f5]; omega) (by rw [f5]; omega)
      obtain ⟨hout, new, r1, r2, r3, r4, r5, r6⟩ := hrec
      have hshift : ∀ rest : List Nat, accessAll cfg (q.1 ++ q.2 :: rest) st =
          accessAll cfg rest (accessData cfg q.2 (accessAll cfg q.1 st)) := by
        intro rest
        rw [accessAll_append, accessAll_cons]
      constructor
      · intro F1 x F2 hdec
        cases F1 with
        | nil =>
          simp only [List.nil_append, List.cons.injEq] at hdec
          obtain ⟨rfl, _⟩ := hdec
          simp only [interleave, List.nil_append]
          exact ⟨f2, f3, f4⟩
        | cons y F1' =>
          simp only [List.cons_append, List.cons.injEq] at hdec
          obtain ⟨rfl, hqs⟩ := hdec
          have := hout F1' x F2 hqs
          rw [interleave_cons, List.append_assoc, List.cons_append, hshift]
          exact this
      · have hacc : accessAll cfg (interleave (q :: qs)) st =
            accessAll cfg (interleave qs) (accessData cfg q.2 (accessAll cfg q.1 st)) := by
          rw [interleave_cons, hshift]
        rw [f5] at r5 r6
        refine ⟨⟨tagOf cfg q.2, 1, (accessAll cfg q.1 st).g_lru_counter⟩ :: new, ?_, ?_, ?_, ?_,
          ?_, ?_⟩
        · rw [hacc, r1]
          simp
        · simp [r2]
        · intro l hl
          rcases List.mem_cons.mp hl with h | h
          · subst h
            simp only
            omega
          · exact r3 l h
        · rw [hacc, r4, f6, o2]
        · rw [hacc]
          omega
        · rw [hacc, hgl]
          omega

/-! ## `fgets` -/

theorem readLine_short (xs rest : List Char) (hx : ∀ c ∈ xs, c ≠ '\n') :
    ∀ k, xs.length < k → readLine k (xs ++ '\n' :: rest) = ⟨xs ++ ['\n'], rest, false⟩ := by
  induction xs with
  | nil =>
    intro k hk
    obtain ⟨k, rfl⟩ : ∃ j, k = j + 1 := ⟨k - 1, by simp at hk; omega⟩
    simp [readLine]
  | cons x xs ih =>
    intro k hk
    obtain ⟨k, rfl⟩ : ∃ j, k = j + 1 := ⟨k - 1, by simp at hk; omega⟩
    have hx0 : x ≠ '\n' := hx x (List.mem_cons_self _ _)
    have := ih (fun c hc => hx c (List.mem_cons_of_mem _ hc)) k (by simp at hk; omega)
    simp [readLine, hx0, this]

theorem readLine_long (xs rest : List Char) (hx : ∀ c ∈ xs, c ≠ '\n') :
    ∀ k, k ≤ xs.length → readLine k (xs ++ rest) = ⟨xs.take k, xs.drop k ++ rest, false⟩ := by
  induction xs with
  | nil =>
    intro k hk
    have : k = 0 := by simpa using hk
    subst this
    simp [readLine]
  | cons x xs ih =>
    intro k hk
    cases k with
    | zero => simp [readLine]
    | succ k =>
      have hx0 : x ≠ '\n' := hx x (List.mem_cons_self _ _)
      have := ih (fun c hc => hx c (List.mem_cons_of_mem _ hc)) k (by simp at hk; omega)
      simp [readLine, hx0, this]

theorem readLine_eof (xs : List Char) (hx : ∀ c ∈ xs, c ≠ '\n') :
    ∀ k, xs.length < k → readLine k xs = ⟨xs, [], true⟩ := by
  induction xs with
  | nil =>
    intro k hk
    obtain ⟨k, rfl⟩ : ∃ j, k = j + 1 := ⟨k - 1, by simp at hk; omega⟩
    simp [readLine]
  | cons x xs ih =>
    intro k hk
    obtain ⟨k, rfl⟩ : ∃ j, k = j + 1 := ⟨k - 1, by simp at hk; omega⟩
    have hx0 : x ≠ '\n' := hx x (List.mem_cons_self _ _)
    have := ih (fun c hc => hx c (List.mem_cons_of_mem _ hc)) k (by simp at hk; omega)
    simp [readLine, hx0, this]

theorem readLine_length (k : Nat) : ∀ data : List Char,
    (readLine k data).line.length + (readLine k data).rest.length = data.length ∧
      ((readLine k data).line = [] → 0 < k → (readLine k data).hitEof = true) := by
  induction k with
  | zero => intro data; simp [readLine]
  | succ k ih =>
    intro data
    cases data with
    | nil => simp [readLine]
    | cons c data =>
      by_cases hc : c = '\n'
      · simp [readLine, hc]
        omega
      · have := (ih data).1
        simp [readLine, hc]
        omega

/-! ## The loop always terminates within its fuel -/

theorem replayLoop_eof (cfg : Config) (n : Nat) (buffer : List Char) (data : List Char)
    (st : Globals) : replayLoop cfg (n + 1) buffer ⟨data, true⟩ st = some st := by
  simp [replayLoop]

theorem replayLoop_step (cfg : Config) (n : Nat) (buffer : List Char) (data : List Char)
    (st : Globals) :
    replayLoop cfg (n + 1) buffer ⟨data, false⟩ st =
      replayLoop cfg n (processLine cfg (fgets buffer 20 ⟨data, false⟩).1 st).1
        (fgets buffer 20 ⟨data, false⟩).2
        (processLine cfg (fgets buffer 20 ⟨data, false⟩).1 st).2 := by
  simp [replayLoop]

theorem replayLoop_total (cfg : Config) : ∀ (n : Nat) (buffer : List Char) (f : FILE)
    (st : Globals), (f.eof = true → 1 ≤ n) → (f.eof = false → f.data.length + 2 ≤ n) →
    ∃ st', replayLoop cfg n buffer f st = some st' := by
  intro n
  induction n with
  | zero =>
    intro buffer f st h1 h2
    cases he : f.eof with
    | true => have := h1 he; omega
    | false => have := h2 he; omega
  | succ n ih =>
    intro buffer f st h1 h2
    obtain ⟨data, eof⟩ := f
    cases eof with
    | true => exact ⟨st, replayLoop_eof cfg n buffer data st⟩
    | false =>
      rw [replayLoop_step]
      have hlen := readLine_length 19 data
      have h2' : data.length + 2 ≤ n + 1 := h2 rfl
      apply ih
      · intro _; omega
      · intro he
        unfold fgets at he ⊢
        simp only [Nat.add_one_sub_one] at he ⊢
        split
        · rename_i hc
          rw [if_pos hc] at he
          simp at he
        · rename_i hc
          simp only
          have hne : (readLine 19 data).line ≠ [] := by
            intro hnil
            exact hc ⟨hnil, hlen.2 hnil (by norm_num)⟩
          have : 0 < (readLine 19 data).line.length := List.length_pos.mpr hne
          omega

theorem replayTrace_total (cfg : Config) (buffer trace : List Char) (st : Globals) :
    ∃ st', replayTrace cfg buffer trace st = some st' :=
  replayLoop_total cfg _ buffer ⟨trace, false⟩ st (fun h => by simp at h) (fun _ => le_refl _)


/-! ## `strtok` on the shapes that occur -/

theorem takeWhile_all {α : Type} (p : α → Bool) (xs : List α) (h : ∀ x ∈ xs, p x = true) :
    xs.takeWhile p = xs ∧ xs.dropWhile p = [] := by
  induction xs with
  | nil => simp
  | cons x xs ih =>
    have hx := h x (List.mem_cons_self _ _)
    have := ih (fun y hy => h y (List.mem_cons_of_mem _ hy))
    simp [List.takeWhile, List.dropWhile, hx, this]

theorem takeWhile_stop {α : Type} (p : α → Bool) (xs : List α) (y : α) (ys : List α)
    (h : ∀ x ∈ xs, p x = true) (hy : p y = false) :
    (xs ++ y :: ys).takeWhile p = xs ∧ (xs ++ y :: ys).dropWhile p = y :: ys := by
  induction xs with
  | nil => simp [List.takeWhile, List.dropWhile, hy]
  | cons x xs ih =>
    have hx := h x (List.mem_cons_self _ _)
    have := ih (fun z hz => h z (List.mem_cons_of_mem _ hz))
    simp [List.takeWhile, List.dropWhile, hx, this]

theorem isDelim_space (c : Char) : isDelim [' '] c = decide (c = ' ') := by
  by_cases h : c = ' '
  · simp [isDelim, List.contains, List.elem, h]
  · have hb : (c == ' ') = false := by simpa using h
    simp only [isDelim, List.contains, List.elem, hb, h, decide_False]

theorem isDelim_comma (c : Char) : isDelim [','] c = decide (c = ',') := by
  by_cases h : c = ','
  · simp [isDelim, List.contains, List.elem, h]
  · have hb : (c == ',') = false := by simpa using h
    simp only [isDelim, List.contains, List.elem, hb, h, decide_False]

theorem inToken_eq (delim : List Char) (c : Char) :
    inToken delim c = (decide (c ≠ NUL) && !(isDelim delim c)) := by
  by_cases h : c = NUL <;> simp [inToken, isDelim, h]

theorem inToken_NUL (delim : List Char) : inToken delim NUL = false := by
  simp [inToken]

/-- The string is at its end after the delimiters: no token. -/
theorem strtok_none (delim sk rest : List Char) (hsk : ∀ c ∈ sk, isDelim delim c = true)
    (hd : isDelim delim NUL = false) :
    strtok sk delim = ⟨none, sk, []⟩ ∧ strtok (sk ++ NUL :: rest) delim = ⟨none, sk, NUL :: rest⟩ := by
  constructor
  · obtain ⟨h1, h2⟩ := takeWhile_all _ sk hsk
    simp [strtok, h1, h2]
  · obtain ⟨h1, h2⟩ := takeWhile_stop _ sk NUL rest hsk hd
    simp [strtok, h1, h2, List.takeWhile, inToken_NUL]

/-- A token that a delimiter ends: the delimiter is overwritten by `NUL` and the scan
resumes behind it. -/
theorem strtok_delim (delim sk tok : List Char) (d : Char) (rest : List Char)
    (hsk : ∀ c ∈ sk, isDelim delim c = true) (htok : ∀ c ∈ tok, inToken delim c = true)
    (hne : tok ≠ []) (hd : isDelim delim d = true) (hdn : d ≠ NUL) :
    strtok (sk ++ (tok ++ d :: rest)) delim = ⟨some tok, sk ++ tok ++ [NUL], rest⟩ := by
  obtain ⟨t, ts, rfl⟩ := List.exists_cons_of_ne_nil hne
  have ht : isDelim delim t = false := by
    have := htok t (List.mem_cons_self _ _)
    rw [inToken_eq] at this
    simp at this
    exact this.2
  have hdt : inToken delim d = false := by
    rw [inToken_eq]; simp [hd]
  obtain ⟨h1, h2⟩ := takeWhile_stop _ sk t (ts ++ d :: rest) hsk ht
  obtain ⟨h3, h4⟩ := takeWhile_stop _ (t :: ts) d rest htok hdt
  simp only [List.cons_append] at h1 h2 h3 h4 ⊢
  simp [strtok, h1, h2, h3, h4, hdn]

/-- A token that the end of the string ends. -/
theorem strtok_end (delim sk tok : List Char)
    (hsk : ∀ c ∈ sk, isDelim delim c = true) (htok : ∀ c ∈ tok, inToken delim c = true)
    (hne : tok ≠ []) :
    strtok (sk ++ tok) delim = ⟨some tok, sk ++ tok, []⟩ := by
  obtain ⟨t, ts, rfl⟩ := List.exists_cons_of_ne_nil hne
  have ht : isDelim delim t = false := by
    have := htok t (List.mem_cons_self _ _)
    rw [inToken_eq] at this
    simp at this
    exact this.2
  obtain ⟨h1, h2⟩ := takeWhile_stop _ sk t ts hsk ht
  obtain ⟨h3, h4⟩ := takeWhile_all _ (t :: ts) htok
  simp [strtok, h1, h2, h3, h4]

/-- A token that a `NUL` written earlier ends. -/
theorem strtok_stale (delim sk tok rest : List Char)
    (hsk : ∀ c ∈ sk, isDelim delim c = true) (htok : ∀ c ∈ tok, inToken delim c = true)
    (hne : tok ≠ []) :
    strtok (sk ++ (tok ++ NUL :: rest)) delim = ⟨some tok, sk ++ tok, NUL :: rest⟩ := by
  obtain ⟨t, ts, rfl⟩ := List.exists_cons_of_ne_nil hne
  have ht : isDelim delim t = false := by
    have := htok t (List.mem_cons_self _ _)
    rw [inToken_eq] at this
    simp at this
    exact this.2
  obtain ⟨h1, h2⟩ := takeWhile_stop _ sk t (ts ++ NUL :: rest) hsk ht
  obtain ⟨h3, h4⟩ := takeWhile_stop _ (t :: ts) NUL rest htok (inToken_NUL delim)
  simp only [List.cons_append] at h1 h2 h3 h4 ⊢
  simp [strtok, h1, h2, h3, h4]


/-! ## The body of the loop on the buffers that occur -/

theorem strtok_token (s delim : List Char) :
    (strtok s delim).token =
      if (s.dropWhile (isDelim delim)).takeWhile (inToken delim) = [] then none
      else some ((s.dropWhile (isDelim delim)).takeWhile (inToken delim)) := by
  unfold strtok
  simp only
  split
  · rfl
  · split
    · rfl
    · split <;> rfl

theorem processLine_nil (cfg : Config) (st : Globals) : processLine cfg [] st = ([], st) := by
  simp [processLine, strtok]

theorem singleton_ne_of_ne {a b : Char} (h : a ≠ b) : [a] ≠ [b] := by
  intro hc
  exact h (List.head_eq_of_cons_eq hc)

theorem Quiet_inToken_space {c : Char} (h : Quiet c) : inToken [' '] c = true := by
  rw [inToken_eq, isDelim_space]
  simp [h.1, h.2.1]

/-- A chunk without space, `NUL` and operation letter after its first byte is skipped
and left as it is. -/
theorem processLine_quiet (cfg : Config) (c0 : Char) (xs : List Char)
    (h : ∀ c ∈ xs, Quiet c) : Benign cfg (c0 :: xs) := by
  intro st
  cases xs with
  | nil => simp [processLine, strtok]
  | cons x xs =>
    have ht := strtok_end [' '] [] (x :: xs) (by simp)
      (fun c hc => Quiet_inToken_space (h c hc)) (by simp)
    simp only [List.nil_append] at ht
    have hx := h x (List.mem_cons_self _ _)
    have hS : x :: xs ≠ ['S'] := fun hc => hx.2.2.1 (List.head_eq_of_cons_eq hc)
    have hL : x :: xs ≠ ['L'] := fun hc => hx.2.2.2.1 (List.head_eq_of_cons_eq hc)
    have hM : x :: xs ≠ ['M'] := fun hc => hx.2.2.2.2 (List.head_eq_of_cons_eq hc)
    simp [processLine, ht, hS, hL, hM]

/-- The buffer a processed record leaves behind is skipped when it is seen again. -/
theorem processLine_stale (cfg : Config) (c0 op : Char) (w : List Char)
    (h1 : op ≠ ' ') (h2 : op ≠ NUL) : Benign cfg (c0 :: op :: NUL :: w) := by
  intro st
  have hop : inToken [' '] op = true := by
    rw [inToken_eq, isDelim_space]; simp [h1, h2]
  have ht := strtok_stale [' '] [] [op] w (by simp) (by simpa using hop) (by simp)
  simp only [List.nil_append, List.singleton_append] at ht
  have ht2 := (strtok_none [','] [] w (by simp) (by rw [isDelim_comma]; decide)).2
  simp only [List.nil_append] at ht2
  simp only [processLine, List.drop_succ_cons, List.drop_zero, ht, List.take_succ_cons,
    List.take_zero, ht2]
  split <;> simp

/-- The body of the loop on a buffer that holds an operation letter, a space and the
bytes `z`. -/
theorem processLine_record (cfg : Config) (c0 op : Char) (z : List Char)
    (h1 : op ≠ ' ') (h2 : op ≠ NUL) :
    ∃ w, ∀ st, processLine cfg (c0 :: op :: ' ' :: z) st =
      (c0 :: op :: NUL :: w, lineEffect cfg op z st) := by
  have hop : inToken [' '] op = true := by
    rw [inToken_eq, isDelim_space]; simp [h1, h2]
  have ht := strtok_delim [' '] [] [op] ' ' z (by simp) (by simpa using hop) (by simp)
    (by rw [isDelim_space]; simp) (by decide)
  simp only [List.nil_append, List.singleton_append] at ht
  have htok := strtok_token z [',']
  unfold lineEffect addrField
  simp only [processLine, List.drop_succ_cons, List.drop_zero, ht, List.take_succ_cons,
    List.take_zero]
  by_cases hS : op = 'S'
  · subst hS
    by_cases hf : (z.dropWhile (isDelim [','])).takeWhile (inToken [',']) = []
    · rw [if_pos hf] at htok
      refine ⟨(strtok z [',']).before ++ (strtok z [',']).save, fun st => ?_⟩
      simp [htok, hf]
    · rw [if_neg hf] at htok
      refine ⟨(strtok z [',']).before ++ (strtok z [',']).save, fun st => ?_⟩
      simp [htok, hf, accessTwice]
  · by_cases hL : op = 'L'
    · subst hL
      by_cases hf : (z.dropWhile (isDelim [','])).takeWhile (inToken [',']) = []
      · rw [if_pos hf] at htok
        refine ⟨(strtok z [',']).before ++ (strtok z [',']).save, fun st => ?_⟩
        simp [htok, hf]
      · rw [if_neg hf] at htok
        refine ⟨(strtok z [',']).before ++ (strtok z [',']).save, fun st => ?_⟩
        simp [htok, hf, accessTwice]
    · by_cases hM : op = 'M'
      · subst hM
        by_cases hf : (z.dropWhile (isDelim [','])).takeWhile (inToken [',']) = []
        · rw [if_pos hf] at htok
          refine ⟨(strtok z [',']).before ++ (strtok z [',']).save, fun st => ?_⟩
          simp [htok, hf]
        · rw [if_neg hf] at htok
          refine ⟨(strtok z [',']).before ++ (strtok z [',']).save, fun st => ?_⟩
          simp [htok, hf, accessTwice]
      · refine ⟨z, fun st => ?_⟩
        simp [hS, hL, hM]


/-! ## One iteration of the loop -/

/-- A line that fits the buffer is read whole. -/
theorem replayLoop_line (cfg : Config) (n : Nat) (buffer xs rest : List Char) (st : Globals)
    (hx : ∀ c ∈ xs, c ≠ '\n') (hl : xs.length < 19) :
    replayLoop cfg (n + 1) buffer ⟨xs ++ '\n' :: rest, false⟩ st =
      replayLoop cfg n (processLine cfg (xs ++ ['\n']) st).1 ⟨rest, false⟩
        (processLine cfg (xs ++ ['\n']) st).2 := by
  rw [replayLoop_step]
  have hf : fgets buffer 20 ⟨xs ++ '\n' :: rest, false⟩ = (xs ++ ['\n'], ⟨rest, false⟩) := by
    unfold fgets
    simp only [Nat.add_one_sub_one]
    rw [readLine_short xs rest hx 19 hl]
    simp
  rw [hf]

/-- Of a longer line the first 19 bytes are read. -/
theorem replayLoop_long (cfg : Config) (n : Nat) (buffer xs rest : List Char) (st : Globals)
    (hx : ∀ c ∈ xs, c ≠ '\n') (hl : 19 ≤ xs.length) :
    replayLoop cfg (n + 1) buffer ⟨xs ++ rest, false⟩ st =
      replayLoop cfg n (processLine cfg (xs.take 19) st).1 ⟨xs.drop 19 ++ rest, false⟩
        (processLine cfg (xs.take 19) st).2 := by
  rw [replayLoop_step]
  have hf : fgets buffer 20 ⟨xs ++ rest, false⟩ = (xs.take 19, ⟨xs.drop 19 ++ rest, false⟩) := by
    unfold fgets
    simp only [Nat.add_one_sub_one]
    rw [readLine_long xs rest hx 19 hl]
    have : xs.take 19 ≠ [] := by
      intro h
      have h' := congrArg List.length h
      rw [List.length_take, List.length_nil] at h'
      have : min 19 xs.length = 19 := Nat.min_eq_left hl
      omega
    simp [this]
  rw [hf]

/-- At the end of the file, when the last read did not hit it: `fgets` fails, the
buffer is processed once more as it stands, and the loop ends. -/
theorem replayLoop_end (cfg : Config) (n : Nat) (buffer : List Char) (st : Globals) :
    replayLoop cfg (n + 2) buffer ⟨[], false⟩ st = some (processLine cfg buffer st).2 := by
  rw [replayLoop_step]
  have hf : fgets buffer 20 ⟨[], false⟩ = (buffer, ⟨[], true⟩) := by
    simp [fgets, readLine]
  rw [hf]
  exact replayLoop_eof cfg n _ [] _

/-- A last line without newline that fits the buffer: reading it hits the end of the
file, and the loop ends after it is processed. -/
theorem replayLoop_last (cfg : Config) (n : Nat) (buffer xs : List Char) (st : Globals)
    (hx : ∀ c ∈ xs, c ≠ '\n') (hne : xs ≠ []) (hl : xs.length < 19) :
    replayLoop cfg (n + 2) buffer ⟨xs, false⟩ st = some (processLine cfg xs st).2 := by
  rw [replayLoop_step]
  have hf : fgets buffer 20 ⟨xs, false⟩ = (xs, ⟨[], true⟩) := by
    unfold fgets
    simp only [Nat.add_one_sub_one]
    rw [readLine_eof xs hx 19 hl]
    simp [hne]
  rw [hf]
  exact replayLoop_eof cfg n _ [] _

/-- When the file is not empty, the initial content of the buffer is irrelevant. -/
theorem replayLoop_buffer (cfg : Config) (n : Nat) (buffer buffer' : List Char) (c : Char)
    (data : List Char) (st : Globals) :
    replayLoop cfg n buffer ⟨c :: data, false⟩ st =
      replayLoop cfg n buffer' ⟨c :: data, false⟩ st := by
  cases n with
  | zero => rfl
  | succ n =>
    rw [replayLoop_step, replayLoop_step]
    have hne : (readLine 19 (c :: data)).line ≠ [] := by
      by_cases hc : c = '\n' <;> simp [readLine, hc]
    have hf : ∀ b, fgets b 20 ⟨c :: data, false⟩ =
        ((readLine 19 (c :: data)).line,
          ⟨(readLine 19 (c :: data)).rest, false || (readLine 19 (c :: data)).hitEof⟩) := by
      intro b
      unfold fgets
      simp only [Nat.add_one_sub_one]
      rw [if_neg (fun h => hne h.1)]
    rw [hf buffer, hf buffer']

/-! ## The rest of a line that is longer than the buffer -/

/-- The bytes of a line that follow its first 19 bytes are read in further chunks, none
of which causes an access. -/
theorem replayLoop_tail (cfg : Config) (m : Nat) : ∀ (xs rest : List Char),
    xs.length ≤ m → (∀ c ∈ xs, Plain c) →
    ∃ k buffer', k ≤ xs.length + 1 ∧ Benign cfg buffer' ∧
      ∀ n buffer st, replayLoop cfg (n + k) buffer ⟨xs ++ '\n' :: rest, false⟩ st =
        replayLoop cfg n buffer' ⟨rest, false⟩ st := by
  induction m using Nat.strong_induction_on with
  | _ m ih =>
    intro xs rest hm hp
    have hnl : ∀ c ∈ xs, c ≠ '\n' := fun c hc => (hp c hc).2
    by_cases hl : xs.length < 19
    · -- the rest fits: one chunk `xs ++ "\n"`
      have hq : ∀ c ∈ (xs ++ ['\n']).tail, Quiet c := by
        intro c hc
        cases xs with
        | nil => simp at hc
        | cons x xs' =>
          simp only [List.cons_append, List.tail_cons, List.mem_append,
            List.mem_singleton] at hc
          rcases hc with hc | hc
          · exact (hp c (List.mem_cons_of_mem _ hc)).1
          · subst hc; exact ⟨by decide, by decide, by decide, by decide, by decide⟩
      obtain ⟨c0, ys, hys⟩ : ∃ c0 ys, xs ++ ['\n'] = c0 :: ys := by
        cases xs with
        | nil => exact ⟨_, _, rfl⟩
        | cons x xs' => exact ⟨_, _, rfl⟩
      have hben : Benign cfg (xs ++ ['\n']) := by
        rw [hys] at hq ⊢
        exact processLine_quiet cfg c0 ys hq
      refine ⟨1, xs ++ ['\n'], by omega, hben, ?_⟩
      intro n buffer st
      rw [replayLoop_line cfg n buffer xs rest st hnl hl, hben st]
    · -- the rest does not fit: a chunk of 19 bytes, then the remainder
      have hl' : 19 ≤ xs.length := by omega
      have hlen : (xs.drop 19).length < xs.length := by
        rw [List.length_drop]; omega
      obtain ⟨k, buffer', hk, hben, hrun⟩ := ih (xs.drop 19).length (by omega) (xs.drop 19)
        rest (le_refl _) (fun c hc => hp c (List.mem_of_mem_drop hc))
      have hben1 : Benign cfg (xs.take 19) := by
        obtain ⟨c0, ys, hys⟩ : ∃ c0 ys, xs.take 19 = c0 :: ys := by
          cases xs with
          | nil => simp at hl'
          | cons x xs' => exact ⟨x, xs'.take 18, by simp [List.take]⟩
        rw [hys]
        apply processLine_quiet
        intro c hc
        have : c ∈ xs.take 19 := by rw [hys]; exact List.mem_cons_of_mem _ hc
        exact (hp c (List.mem_of_mem_take this)).1
      refine ⟨k + 1, buffer', by rw [List.length_drop] at hk; omega, hben, ?_⟩
      intro n buffer st
      have := replayLoop_long cfg (n + k) buffer xs ('\n' :: rest) st hnl hl'
      rw [show n + (k + 1) = n + k + 1 by omega, this, hben1 st]
      exact hrun n _ st


/-! ## Bytes of a well-formed record -/

theorem isHexDigit_plain {c : Char} (h : isHexDigit c) : Plain c ∧ c ≠ ',' := by
  refine ⟨⟨⟨?_, ?_, ?_, ?_, ?_⟩, ?_⟩, ?_⟩ <;> (rintro rfl; revert h; decide)

theorem isDecDigit_plain {c : Char} (h : isDecDigit c) : Plain c := by
  refine ⟨⟨?_, ?_, ?_, ?_, ?_⟩, ?_⟩ <;> (rintro rfl; revert h; decide)

theorem isLetter_ne {c : Char} (h : isLetter c) : c ≠ ' ' ∧ c ≠ NUL ∧ c ≠ '\n' := by
  refine ⟨?_, ?_, ?_⟩ <;> (rintro rfl; revert h; decide)

theorem comma_plain : Plain ',' := by
  refine ⟨⟨?_, ?_, ?_, ?_, ?_⟩, ?_⟩ <;> decide

theorem isHexDigit_inToken_comma {c : Char} (h : isHexDigit c) : inToken [','] c = true := by
  rw [inToken_eq, isDelim_comma]
  simp [(isHexDigit_plain h).1.1.2.1, (isHexDigit_plain h).2]

theorem isHexDigit_not_delim {c : Char} (h : isHexDigit c) : isDelim [','] c = false := by
  rw [isDelim_comma]
  simp [(isHexDigit_plain h).2]

/-- The payload of a record line consists of plain bytes. -/
theorem payload_plain {r : Record} (h : r.WellFormed) :
    ∀ c ∈ r.addr ++ ',' :: r.len, Plain c := by
  intro c hc
  rcases List.mem_append.mp hc with hc | hc
  · exact (isHexDigit_plain (h.2.2.1 c hc)).1
  · rcases List.mem_cons.mp hc with hc | hc
    · subst hc; exact comma_plain
    · exact isDecDigit_plain (h.2.2.2.2 c hc)

/-! ## The address token -/

theorem addrField_hex (addr rest : List Char) (hne : addr ≠ [])
    (hhex : ∀ c ∈ addr, isHexDigit c) : addrField (addr ++ ',' :: rest) = addr := by
  obtain ⟨a, as, rfl⟩ := List.exists_cons_of_ne_nil hne
  have ha := isHexDigit_not_delim (hhex a (List.mem_cons_self _ _))
  have hstop := takeWhile_stop (inToken [',']) (a :: as) ',' rest
    (fun c hc => isHexDigit_inToken_comma (hhex c hc)) (by rw [inToken_eq, isDelim_comma]; simp)
  unfold addrField
  simp only [List.cons_append, List.dropWhile, ha] at hstop ⊢
  exact hstop.1

theorem addrField_hex_all (addr : List Char) (hhex : ∀ c ∈ addr, isHexDigit c) :
    addrField addr = addr := by
  cases addr with
  | nil => rfl
  | cons a as =>
    have ha := isHexDigit_not_delim (hhex a (List.mem_cons_self _ _))
    have hall := takeWhile_all (inToken [',']) (a :: as)
      (fun c hc => isHexDigit_inToken_comma (hhex c hc))
    unfold addrField
    simp only [List.dropWhile, ha]
    exact hall.1

/-- The address token of a record line, whether the line fits the buffer or not, is
the address field cut to 16 bytes. -/
theorem addrField_take (addr len : List Char) (hne : addr ≠ [])
    (hhex : ∀ c ∈ addr, isHexDigit c) :
    addrField ((addr ++ ',' :: len).take 16) = addr.take 16 := by
  rw [List.take_append_eq_append_take]
  by_cases hl : 16 ≤ addr.length
  · have : 16 - addr.length = 0 := by omega
    rw [this, List.take_zero, List.append_nil]
    exact addrField_hex_all _ (fun c hc => hhex c (List.mem_of_mem_take hc))
  · obtain ⟨j, hj⟩ : ∃ j, 16 - addr.length = j + 1 := ⟨15 - addr.length, by omega⟩
    rw [hj, List.take_succ_cons, List.take_of_length_le (by omega)]
    exact addrField_hex addr _ hne hhex

theorem take_ne_nil {α : Type} (l : List α) (h : l ≠ []) : l.take 16 ≠ [] := by
  cases l with
  | nil => exact absurd rfl h
  | cons a l => simp [List.take]

/-! ## A record line -/

theorem lineEffect_record (cfg : Config) (r : Record) (z : List Char) (st : Globals)
    (hz : addrField z = r.addr.take 16) (hne : r.addr ≠ []) :
    lineEffect cfg r.op z st = accessAll cfg (List.replicate r.accesses r.address) st := by
  have hf : addrField z ≠ [] := by rw [hz]; exact take_ne_nil _ hne
  unfold lineEffect Record.accesses Record.address accessTwice
  rw [if_neg hf, hz]
  by_cases hS : r.op = 'S'
  · simp [hS, accessAll]
  · by_cases hL : r.op = 'L'
    · simp [hL, accessAll]
    · by_cases hM : r.op = 'M'
      · simp [hM, accessAll]
      · simp [hS, hL, hM, accessAll]

/-- Replaying one well-formed record line: after at most as many iterations as the line
has bytes, the loop stands at the start of the next line, the accesses of the record
are made, and the buffer left behind is skipped if it is processed again. -/
theorem replayLoop_record (cfg : Config) (r : Record) (hr : r.WellFormed) (rest : List Char) :
    ∃ k buffer', k ≤ r.render.length ∧ Benign cfg buffer' ∧
      ∀ n buffer st, replayLoop cfg (n + k) buffer ⟨r.render ++ rest, false⟩ st =
        replayLoop cfg n buffer' ⟨rest, false⟩
          (accessAll cfg (List.replicate r.accesses r.address) st) := by
  obtain ⟨hop1, hop2, hop3⟩ := isLetter_ne hr.1
  have hpl := payload_plain hr
  have hrender : r.render = (' ' :: r.op :: ' ' :: (r.addr ++ ',' :: r.len)) ++ ['\n'] := by
    simp [Record.render]
  have hnl : ∀ c ∈ ' ' :: r.op :: ' ' :: (r.addr ++ ',' :: r.len), c ≠ '\n' := by
    intro c hc
    simp only [List.mem_cons] at hc
    rcases hc with rfl | rfl | rfl | hc
    · decide
    · exact hop3
    · decide
    · exact (hpl c (by simpa using hc)).2
  have hlen : r.render.length = (r.addr ++ ',' :: r.len).length + 4 := by
    rw [hrender]; simp only [List.length_append, List.length_cons, List.length_nil]
  by_cases hl : (' ' :: r.op :: ' ' :: (r.addr ++ ',' :: r.len)).length < 19
  · -- the line fits the buffer
    have hl16 : (r.addr ++ ',' :: r.len).length < 16 := by
      simp only [List.length_cons] at hl; omega
    have hz : addrField ((r.addr ++ ',' :: r.len) ++ ['\n']) = r.addr.take 16 := by
      rw [List.append_assoc, List.cons_append, addrField_hex _ _ hr.2.1 hr.2.2.1]
      rw [List.take_of_length_le]
      simp only [List.length_append, List.length_cons] at hl16
      omega
    obtain ⟨w, hw⟩ := processLine_record cfg ' ' r.op ((r.addr ++ ',' :: r.len) ++ ['\n'])
      hop1 hop2
    refine ⟨1, ' ' :: r.op :: NUL :: w, by omega, processLine_stale cfg _ _ _ hop1 hop2, ?_⟩
    intro n buffer st
    rw [hrender, List.append_assoc, List.singleton_append,
      replayLoop_line cfg n buffer _ rest st hnl hl]
    simp only [List.cons_append] at hw ⊢
    rw [hw st, lineEffect_record cfg r _ st hz hr.2.1]
  · -- the line is longer than the buffer
    have hl19 : 19 ≤ (' ' :: r.op :: ' ' :: (r.addr ++ ',' :: r.len)).length := by omega
    have hl16 : 16 ≤ (r.addr ++ ',' :: r.len).length := by
      simp only [List.length_cons] at hl19; omega
    have htake : (' ' :: r.op :: ' ' :: (r.addr ++ ',' :: r.len)).take 19 =
        ' ' :: r.op :: ' ' :: (r.addr ++ ',' :: r.len).take 16 := by
      simp [List.take]
    have hdrop : (' ' :: r.op :: ' ' :: (r.addr ++ ',' :: r.len)).drop 19 =
        (r.addr ++ ',' :: r.len).drop 16 := by
      simp [List.drop]
    have hz := addrField_take r.addr r.len hr.2.1 hr.2.2.1
    obtain ⟨w, hw⟩ := processLine_record cfg ' ' r.op ((r.addr ++ ',' :: r.len).take 16)
      hop1 hop2
    obtain ⟨k, buffer', hk, hben, hrun⟩ := replayLoop_tail cfg _
      ((r.addr ++ ',' :: r.len).drop 16) rest (le_refl _)
      (fun c hc => hpl c (List.mem_of_mem_drop hc))
    refine ⟨k + 1, buffer', ?_, hben, ?_⟩
    · rw [List.length_drop] at hk; omega
    · intro n buffer st
      have h1 := replayLoop_long cfg (n + k) buffer _ ('\n' :: rest) st hnl hl19
      rw [hrender, List.append_assoc, List.singleton_append,
        show n + (k + 1) = n + k + 1 by omega, h1, htake, hdrop, hw st,
        lineEffect_record cfg r _ st hz hr.2.1]
      exact hrun n _ _

/-! ## A whole trace -/

theorem length_traceOf_cons (r : Record) (rs : List Record) :
    (traceOf (r :: rs)).length = r.render.length + (traceOf rs).length := by
  simp [traceOf]

/-- The bytes that follow the first 19 bytes of a last line without newline are read in
further chunks, none of which causes an access, and the loop ends. -/
theorem replayLoop_tail_eof (cfg : Config) (m : Nat) : ∀ (t : List Char),
    t.length ≤ m → (∀ c ∈ t, Plain c) → ∀ (n : Nat) (buffer : List Char) (st : Globals),
    Benign cfg buffer → t.length + 2 ≤ n →
    replayLoop cfg n buffer ⟨t, false⟩ st = some st := by
  induction m using Nat.strong_induction_on with
  | _ m ih =>
    intro t hm hp n buffer st hben hn
    have hnl : ∀ c ∈ t, c ≠ '\n' := fun c hc => (hp c hc).2
    cases t with
    | nil =>
      obtain ⟨n, rfl⟩ : ∃ j, n = j + 2 := ⟨n - 2, by omega⟩
      rw [replayLoop_end, hben st]
    | cons c0 t' =>
      by_cases hl : (c0 :: t').length < 19
      · obtain ⟨n, rfl⟩ : ∃ j, n = j + 2 := ⟨n - 2, by omega⟩
        rw [replayLoop_last cfg n buffer _ st hnl (by simp) hl,
          processLine_quiet cfg c0 t' (fun c hc => (hp c (List.mem_cons_of_mem _ hc)).1) st]
      · have hl' : 19 ≤ (c0 :: t').length := by omega
        obtain ⟨n, rfl⟩ : ∃ j, n = j + 1 := ⟨n - 1, by omega⟩
        have hstep := replayLoop_long cfg n buffer (c0 :: t') [] st hnl hl'
        rw [List.append_nil, List.append_nil] at hstep
        have hben1 : Benign cfg ((c0 :: t').take 19) := by
          simp only [List.take_succ_cons]
          apply processLine_quiet
          intro c hc
          exact (hp c (List.mem_cons_of_mem _ (List.mem_of_mem_take hc))).1
        rw [hstep, hben1 st]
        have hlen : ((c0 :: t').drop 19).length < (c0 :: t').length := by
          rw [List.length_drop]; omega
        exact ih ((c0 :: t').drop 19).length (by omega) _ (le_refl _)
          (fun c hc => hp c (List.mem_of_mem_drop hc)) n _ st hben1 (by omega)

theorem render_dropLast (r : Record) :
    r.render.dropLast = ' ' :: r.op :: ' ' :: (r.addr ++ ',' :: r.len) := by
  have h : r.render = (' ' :: r.op :: ' ' :: (r.addr ++ ',' :: r.len)) ++ ['\n'] := by
    simp [Record.render]
  rw [h, List.dropLast_concat]

/-- Replaying a last record line that is not ended by a newline: the accesses of the
record are made and the loop ends. -/
theorem replayLoop_record_open (cfg : Config) (r : Record) (hr : r.WellFormed) (n : Nat)
    (buffer : List Char) (st : Globals) (hn : r.render.dropLast.length + 2 ≤ n) :
    replayLoop cfg n buffer ⟨r.render.dropLast, false⟩ st =
      some (accessAll cfg (List.replicate r.accesses r.address) st) := by
  obtain ⟨hop1, hop2, hop3⟩ := isLetter_ne hr.1
  have hpl := payload_plain hr
  rw [render_dropLast] at hn ⊢
  have hnl : ∀ c ∈ ' ' :: r.op :: ' ' :: (r.addr ++ ',' :: r.len), c ≠ '\n' := by
    intro c hc
    simp only [List.mem_cons] at hc
    rcases hc with rfl | rfl | rfl | hc
    · decide
    · exact hop3
    · decide
    · exact (hpl c (by simpa using hc)).2
  by_cases hl : (' ' :: r.op :: ' ' :: (r.addr ++ ',' :: r.len)).length < 19
  · have hl16 : (r.addr ++ ',' :: r.len).length < 16 := by
      simp only [List.length_cons] at hl; omega
    have hz : addrField (r.addr ++ ',' :: r.len) = r.addr.take 16 := by
      rw [addrField_hex _ _ hr.2.1 hr.2.2.1, List.take_of_length_le]
      simp only [List.length_append, List.length_cons] at hl16
      omega
    obtain ⟨w, hw⟩ := processLine_record cfg ' ' r.op (r.addr ++ ',' :: r.len) hop1 hop2
    obtain ⟨n, rfl⟩ : ∃ j, n = j + 2 := ⟨n - 2, by omega⟩
    rw [replayLoop_last cfg n buffer _ st hnl (by simp) hl, hw st,
      lineEffect_record cfg r _ st hz hr.2.1]
  · have hl19 : 19 ≤ (' ' :: r.op :: ' ' :: (r.addr ++ ',' :: r.len)).length := by omega
    have htake : (' ' :: r.op :: ' ' :: (r.addr ++ ',' :: r.len)).take 19 =
        ' ' :: r.op :: ' ' :: (r.addr ++ ',' :: r.len).take 16 := by
      simp [List.take]
    have hdrop : (' ' :: r.op :: ' ' :: (r.addr ++ ',' :: r.len)).drop 19 =
        (r.addr ++ ',' :: r.len).drop 16 := by
      simp [List.drop]
    have hz := addrField_take r.addr r.len hr.2.1 hr.2.2.1
    obtain ⟨w, hw⟩ := processLine_record cfg ' ' r.op ((r.addr ++ ',' :: r.len).take 16)
      hop1 hop2
    obtain ⟨n, rfl⟩ : ∃ j, n = j + 1 := ⟨n - 1, by omega⟩
    have hstep := replayLoop_long cfg n buffer _ [] st hnl hl19
    rw [List.append_nil, List.append_nil] at hstep
    rw [hstep, htake, hdrop, hw st, lineEffect_record cfg r _ st hz hr.2.1]
    apply replayLoop_tail_eof cfg _ _ (le_refl _) (fun c hc => hpl c (List.mem_of_mem_drop hc))
      n _ _ (processLine_stale cfg _ _ _ hop1 hop2)
    rw [List.length_drop]
    simp only [List.length_cons] at hn
    omega

/-- Replaying well-formed record lines and then the rest of the file: the accesses of
the records are made, in order, before the rest is replayed. -/
theorem replayLoop_records_then (cfg : Config) (rest : List Char) (F : Globals → Globals)
    (Q : List Char → Prop) (hQ : ∀ buffer, Benign cfg buffer → Q buffer)
    (hrest : ∀ (n : Nat) (buffer : List Char) (st : Globals), Q buffer →
      rest.length + 2 ≤ n → replayLoop cfg n buffer ⟨rest, false⟩ st = some (F st)) :
    ∀ (rs : List Record), (∀ r ∈ rs, r.WellFormed) →
    ∀ (n : Nat) (buffer : List Char) (st : Globals),
    (traceOf rs ++ rest).length + 2 ≤ n → (rs = [] → Q buffer) →
    replayLoop cfg n buffer ⟨traceOf rs ++ rest, false⟩ st =
      some (F (accessAll cfg (accessList rs) st)) := by
  intro rs
  induction rs with
  | nil =>
    intro _ n buffer st hn hb
    simp only [traceOf, accessList, accessAll_nil, List.nil_append] at hn ⊢
    exact hrest n buffer st (hb rfl) hn
  | cons r rs ih =>
    intro hwf n buffer st hn _
    obtain ⟨k, buffer', hk, hben, hrun⟩ :=
      replayLoop_record cfg r (hwf r (List.mem_cons_self _ _)) (traceOf rs ++ rest)
    simp only [traceOf, List.append_assoc, List.length_append] at hn
    obtain ⟨n, rfl⟩ : ∃ j, n = j + k := ⟨n - k, by omega⟩
    simp only [traceOf, accessList, accessAll_append, List.append_assoc]
    rw [hrun n buffer st]
    exact ih (fun x hx => hwf x (List.mem_cons_of_mem _ hx)) n buffer' _
      (by simp only [List.length_append]; omega) (fun _ => hQ _ hben)

/-- Replaying a trace of well-formed records makes exactly the accesses of the records,
in order. -/
theorem replayLoop_records (cfg : Config) (rs : List Record)
    (hwf : ∀ r ∈ rs, r.WellFormed) (n : Nat) (buffer : List Char) (st : Globals)
    (hn : (traceOf rs).length + 2 ≤ n) (hb : rs = [] → Benign cfg buffer) :
    replayLoop cfg n buffer ⟨traceOf rs, false⟩ st = some (accessAll cfg (accessList rs) st) := by
  have h := replayLoop_records_then cfg [] id (Benign cfg) (fun _ h => h)
    (fun n buffer st hben hn => by
      obtain ⟨n, rfl⟩ : ∃ j, n = j + 2 := ⟨n - 2, by simp at hn; omega⟩
      rw [replayLoop_end, hben st]; rfl)
    rs hwf n buffer st (by simpa using hn) hb
  simpa using h

theorem replayTrace_records (cfg : Config) (buffer : List Char) (rs : List Record)
    (st : Globals) (hwf : ∀ r ∈ rs, r.WellFormed) (hb : rs = [] → Benign cfg buffer) :
    replayTrace cfg buffer (traceOf rs) st = some (accessAll cfg (accessList rs) st) :=
  replayLoop_records cfg rs hwf _ buffer st (le_refl _) hb

theorem traceOf_append (rs rs' : List Record) :
    traceOf (rs ++ rs') = traceOf rs ++ traceOf rs' := by
  induction rs with
  | nil => rfl
  | cons r rs ih => simp [traceOf, ih]

theorem accessList_append (rs rs' : List Record) :
    accessList (rs ++ rs') = accessList rs ++ accessList rs' := by
  induction rs with
  | nil => rfl
  | cons r rs ih => simp [accessList, ih]

/-- Replaying a trace of well-formed records, whether or not the last line is ended by
a newline, makes exactly the accesses of the records, in order. -/
theorem replayTrace_text (cfg : Config) (buffer : List Char) (rs : List Record)
    (finalNewline : Bool) (st : Globals) (hwf : ∀ r ∈ rs, r.WellFormed)
    (hb : rs = [] → Benign cfg buffer) :
    replayTrace cfg buffer (traceText rs finalNewline) st =
      some (accessAll cfg (accessList rs) st) := by
  cases finalNewline with
  | true => exact replayTrace_records cfg buffer rs st hwf hb
  | false =>
    simp only [traceText, Bool.false_eq_true, if_false]
    rcases List.eq_nil_or_concat rs with rfl | ⟨rs', r, hrs⟩
    · exact replayTrace_records cfg buffer [] st hwf hb
    · rw [List.concat_eq_append] at hrs
      subst hrs
      have hr : r.WellFormed := hwf r (by simp)
      have hne : r.render ≠ [] := by simp [Record.render]
      have htxt : (traceOf (rs' ++ [r])).dropLast = traceOf rs' ++ r.render.dropLast := by
        rw [traceOf_append]
        simp only [traceOf, List.append_nil]
        exact List.dropLast_append_of_ne_nil _ hne
      have hacc : accessList (rs' ++ [r]) =
          accessList rs' ++ List.replicate r.accesses r.address := by
        rw [accessList_append]
        simp [accessList]
      rw [htxt, hacc, accessAll_append]
      unfold replayTrace
      exact replayLoop_records_then cfg r.render.dropLast
        (accessAll cfg (List.replicate r.accesses r.address)) (fun _ => True)
        (fun _ _ => trivial)
        (fun n buffer st _ hn => replayLoop_record_open cfg r hr n buffer st hn)
        rs' (fun x hx => hwf x (List.mem_append_left _ hx)) _ buffer st (le_refl _)
        (fun _ => trivial)

/-! ## Counting accesses -/

theorem accessData_count (cfg : Config) (addr : Nat) (st : Globals) :
    (accessData cfg addr st).hit_count + (accessData cfg addr st).miss_count =
      st.hit_count + st.miss_count + 1 := by
  by_cases hr : resident cfg st addr
  · obtain ⟨h1, h2, _⟩ := accessData_counts_hit cfg addr st hr
    rw [h1, h2]; omega
  · obtain ⟨h1, h2, _⟩ := accessData_counts_miss cfg addr st hr
    rw [h1, h2]; omega

theorem accessAll_count (cfg : Config) (addrs : List Nat) : ∀ st,
    (accessAll cfg addrs st).hit_count + (accessAll cfg addrs st).miss_count =
      st.hit_count + st.miss_count + addrs.length := by
  induction addrs with
  | nil => intro st; rfl
  | cons a as ih =>
    intro st
    rw [accessAll_cons, ih, accessData_count, List.length_cons]
    omega

theorem length_accessList (rs : List Record) :
    (accessList rs).length =
      rs.countP (fun r => decide (r.op = 'L')) + rs.countP (fun r => decide (r.op = 'S')) +
        2 * rs.countP (fun r => decide (r.op = 'M')) := by
  induction rs with
  | nil => rfl
  | cons r rs ih =>
    simp only [accessList, List.length_append, List.length_replicate, ih, List.countP_cons,
      Record.accesses]
    by_cases hL : r.op = 'L'
    · simp [hL]; omega
    · by_cases hS : r.op = 'S'
      · simp [hS]; omega
      · by_cases hM : r.op = 'M'
        · simp [hM]; omega
        · simp [hL, hS, hM]


/-! ## C1 : the slot chosen for eviction -/

/-- C1: the eviction scan does not return the least recently used line.  With `s = 1`,
`b = 1`, `E = 3`, after the accesses `0x0, 0x4, 0x8, 0x0` set 0 is full with recencies
`3, 1, 2`; the access `0xc` misses, and the scan of lines 160-175 returns slot 2
(recency 2) although slot 1 holds the minimum recency 1: the line of tag 2 is
overwritten and the least recently used line of tag 1 stays. -/
theorem C1_eviction_scan_misses_minimum :
    (Config.mk 1 1 3 2).Valid ∧
      setFull ⟨1, 1, 3, 2⟩ (run ⟨1, 1, 3, 2⟩ [0, 4, 8, 0]) 12 ∧
      ¬ resident ⟨1, 1, 3, 2⟩ (run ⟨1, 1, 3, 2⟩ [0, 4, 8, 0]) 12 ∧
      curSet ⟨1, 1, 3, 2⟩ (run ⟨1, 1, 3, 2⟩ [0, 4, 8, 0]) 12 =
        [⟨0, 1, 3⟩, ⟨1, 1, 1⟩, ⟨2, 1, 2⟩] ∧
      evictSlot (curSet ⟨1, 1, 3, 2⟩ (run ⟨1, 1, 3, 2⟩ [0, 4, 8, 0]) 12) 3 = 2 ∧
      curSet ⟨1, 1, 3, 2⟩ (run ⟨1, 1, 3, 2⟩ [0, 4, 8, 0, 12]) 12 =
        [⟨0, 1, 3⟩, ⟨1, 1, 1⟩, ⟨3, 1, 4⟩] := by
  decide

/-! ## C2 : `E + 1` distinct tags into an empty set -/

/-- C2: let set `k` be empty (all its `E` lines unused), and let it receive `E + 1`
accesses with pairwise distinct tags, `first`, `mid` and `last` (so
`E = mid.length + 1 ≥ 1`), each of them preceded by any accesses to other sets.
Provided the recency counter stays in the range of `int`, the first `E` of these
accesses are misses without eviction, which fill slots `0 .. E - 1` in order; the last
one is a miss with one eviction; and afterwards slot 0, which held the tag of `first`,
holds the tag of `last`, while the other slots still hold the tags of `mid`. -/
theorem C2_distinct_tags_evict_first (cfg : Config) (st : Globals) (k : Nat)
    (hk : k < st.cache.length) (hset : (st.cache.getD k []).length = cfg.E)
    (hempty : ∀ l ∈ st.cache.getD k [], l.used = 0)
    (first : List Nat × Nat) (mid : List (List Nat × Nat)) (last : List Nat × Nat)
    (hlen : mid.length + 1 = cfg.E)
    (hsteps : ∀ p ∈ first :: mid ++ [last],
      (∀ o ∈ p.1, setIndexOf cfg o ≠ k) ∧ setIndexOf cfg p.2 = k)
    (hnd : ((first :: mid ++ [last]).map (fun p => tagOf cfg p.2)).Nodup)
    (hg : st.g_lru_counter + (interleave (first :: mid ++ [last])).length < 2 ^ 31) :
    (∀ F1 p F2, first :: mid = F1 ++ p :: F2 →
        (accessData cfg p.2 (accessAll cfg (interleave F1 ++ p.1) st)).miss_count =
            (accessAll cfg (interleave F1 ++ p.1) st).miss_count + 1 ∧
          (accessData cfg p.2 (accessAll cfg (interleave F1 ++ p.1) st)).hit_count =
            (accessAll cfg (interleave F1 ++ p.1) st).hit_count ∧
          (accessData cfg p.2 (accessAll cfg (interleave F1 ++ p.1) st)).eviction_count =
            (accessAll cfg (interleave F1 ++ p.1) st).eviction_count) ∧
      ((accessAll cfg (interleave (first :: mid)) st).cache.getD k []).map
          (fun l => (l.tag, l.used)) =
        (first :: mid).map (fun p => (tagOf cfg p.2, 1)) ∧
      ((accessData cfg last.2
            (accessAll cfg (interleave (first :: mid) ++ last.1) st)).miss_count =
          (accessAll cfg (interleave (first :: mid) ++ last.1) st).miss_count + 1 ∧
        (accessData cfg last.2
            (accessAll cfg (interleave (first :: mid) ++ last.1) st)).hit_count =
          (accessAll cfg (interleave (first :: mid) ++ last.1) st).hit_count ∧
        (accessData cfg last.2
            (accessAll cfg (interleave (first :: mid) ++ last.1) st)).eviction_count =
          (accessAll cfg (interleave (first :: mid) ++ last.1) st).eviction_count + 1) ∧
      ((accessAll cfg (interleave (first :: mid ++ [last])) st).cache.getD k []).map
          (fun l => (l.tag, l.used)) =
        (last :: mid).map (fun p => (tagOf cfg p.2, 1)) := by
  have hsplit : first :: mid ++ [last] = (first :: mid) ++ [last] := rfl
  have hnd1 : ((first :: mid).map (fun p => tagOf cfg p.2)).Nodup := by
    rw [hsplit, List.map_append] at hnd
    exact (List.nodup_append.mp hnd).1
  have hnd2 : tagOf cfg first.2 ∉ mid.map (fun p => tagOf cfg p.2) ∧
      (mid.map (fun p => tagOf cfg p.2)).Nodup := by
    rw [List.map_cons] at hnd1
    exact List.nodup_cons.mp hnd1
  have hfirst := hsteps first (List.mem_cons_self _ _)
  have hmid : ∀ p ∈ mid, (∀ o ∈ p.1, setIndexOf cfg o ≠ k) ∧ setIndexOf cfg p.2 = k :=
    fun p hp => hsteps p (List.mem_cons_of_mem _ (List.mem_append_left _ hp))
  have hlast := hsteps last (by rw [hsplit]; exact List.mem_append_right _ (by simp))
  have hgl : (interleave (first :: mid ++ [last])).length =
      first.1.length + 1 + (interleave mid).length + (last.1.length + 1) := by
    rw [hsplit, interleave_append, interleave_cons]
    simp only [interleave, List.length_append, List.length_cons, List.length_nil]
    omega
  have hshift : ∀ rest : List Nat, accessAll cfg (interleave (first :: mid) ++ rest) st =
      accessAll cfg (interleave mid ++ rest)
        (accessData cfg first.2 (accessAll cfg first.1 st)) := by
    intro rest
    rw [interleave_cons, List.append_assoc, List.cons_append, accessAll_append,
      accessAll_cons]
  -- the set at the start: `E ≥ 1` unused lines
  obtain ⟨p0, post, hpost⟩ : ∃ p0 post, st.cache.getD k [] = p0 :: post := by
    cases hc : st.cache.getD k [] with
    | nil => rw [hc] at hset; simp at hset; omega
    | cons p0 post => exact ⟨p0, post, rfl⟩
  have hpostlen : post.length = mid.length := by
    rw [hpost] at hset
    simp only [List.length_cons] at hset
    omega
  -- the accesses to other sets, then the first access to set `k`
  obtain ⟨o1, o2, o3, o4⟩ := accessAll_other_sets cfg k first.1 st hfirst.1
  obtain ⟨f1, f2, f3, f4, f5, f6⟩ := fill_step cfg k (accessAll cfg first.1 st) [] p0 post
    first.2 (by rw [o2]; exact hk) (by rw [o1, hpost]; rfl)
    (by rw [hpost] at hset; simpa using hset) (by simp)
    (by rw [← hpost]; exact hempty) hfirst.2 (by simp)
  have hmod : (accessAll cfg first.1 st).g_lru_counter % 2 ^ 32 =
      (accessAll cfg first.1 st).g_lru_counter := Nat.mod_eq_of_lt (by omega)
  rw [hmod] at f1
  simp only [List.nil_append] at f1
  -- the other accesses of the fill phase
  obtain ⟨hout, new, r1, r2, r3, r4, r5, r6⟩ := fill_run cfg k
    (accessAll cfg first.1 st).g_lru_counter mid
    (accessData cfg first.2 (accessAll cfg first.1 st))
    [⟨tagOf cfg first.2, 1, (accessAll cfg first.1 st).g_lru_counter⟩] post
    (by rw [f6, o2]; exact hk) f1
    (by rw [hpost] at hset; simpa [Nat.add_comm] using hset)
    (by intro l hl; simp only [List.mem_singleton] at hl; subst hl; rfl)
    (fun l hl => hempty l (by rw [hpost]; exact List.mem_cons_of_mem _ hl))
    (by rw [hpostlen]) hmid hnd2.2
    (by
      intro p hp l hl
      simp only [List.mem_singleton] at hl
      subst hl
      intro heq
      apply hnd2.1
      simp only at heq
      rw [heq]
      exact List.mem_map_of_mem (fun p => tagOf cfg p.2) hp)
    (by rw [f5]; omega) (by rw [f5]; omega)
  rw [← hpostlen, List.drop_length, List.append_nil, List.singleton_append] at r1
  have hfills : accessAll cfg (interleave (first :: mid)) st =
      accessAll cfg (interleave mid) (accessData cfg first.2 (accessAll cfg first.1 st)) := by
    have := hshift []
    simpa using this
  have hnewlen : new.length = mid.length := by
    have := congrArg List.length r2
    simpa using this
  have hused : ∀ l ∈ new, l.used = 1 ∧ l.tag ∈ mid.map (fun p => tagOf cfg p.2) := by
    intro l hl
    have hmem : (l.tag, l.used) ∈ new.map (fun l => (l.tag, l.used)) :=
      List.mem_map_of_mem (fun l => (l.tag, l.used)) hl
    rw [r2] at hmem
    obtain ⟨p, hp1, hp⟩ := List.mem_map.mp hmem
    simp only [Prod.mk.injEq] at hp
    refine ⟨hp.2.symm, ?_⟩
    rw [← hp.1]
    exact List.mem_map_of_mem (fun p => tagOf cfg p.2) hp1
  refine ⟨?_, ?_, ?_, ?_⟩
  · -- each of the first `E` accesses to set `k`
    intro F1 p F2 hdec
    cases F1 with
    | nil =>
      simp only [List.nil_append, List.cons.injEq] at hdec
      obtain ⟨rfl, _⟩ := hdec
      simp only [interleave, List.nil_append]
      exact ⟨f2, f3, f4⟩
    | cons y F1' =>
      simp only [List.cons_append, List.cons.injEq] at hdec
      obtain ⟨rfl, hqs⟩ := hdec
      have := hout F1' p F2 hqs
      rw [interleave_cons, List.append_assoc, List.cons_append, accessAll_append,
        accessAll_cons]
      exact this
  · -- the set after the fill phase
    rw [hfills, r1]
    simp [r2]
  · -- the last access to set `k`
    obtain ⟨q1, q2, q3, q4⟩ := accessAll_other_sets cfg k last.1
      (accessAll cfg (interleave (first :: mid)) st) hlast.1
    have hstate : accessAll cfg (interleave (first :: mid) ++ last.1) st =
        accessAll cfg last.1 (accessAll cfg (interleave (first :: mid)) st) :=
      accessAll_append cfg _ _ st
    rw [hstate]
    have hev := evict_step cfg k (accessAll cfg last.1 (accessAll cfg (interleave (first :: mid)) st))
      ⟨tagOf cfg first.2, 1, (accessAll cfg first.1 st).g_lru_counter⟩ new last.2
      (by rw [q2, hfills, r4, f6, o2]; exact hk) (by rw [q1, hfills, r1])
      (by rw [hnewlen]; exact hlen)
      (by
        intro l hl
        rcases List.mem_cons.mp hl with h | h
        · subst h; rfl
        · exact (hused l h).1)
      (fun l hl => (r3 l hl).1) (by simp only; omega) hlast.2
      (by
        intro l hl heq
        rw [hsplit, List.map_append] at hnd
        apply (List.nodup_append.mp hnd).2.2 _ (by simp : tagOf cfg last.2 ∈ [last].map _)
        rcases List.mem_cons.mp hl with h | h
        · subst h
          simp only at heq
          rw [← heq]
          simp
        · rw [← heq]
          exact List.mem_cons_of_mem _ (hused l h).2)
    exact ⟨hev.2.1, hev.2.2.1, hev.2.2.2⟩
  · -- the set at the end
    obtain ⟨q1, q2, q3, q4⟩ := accessAll_other_sets cfg k last.1
      (accessAll cfg (interleave (first :: mid)) st) hlast.1
    have hall : accessAll cfg (interleave (first :: mid ++ [last])) st =
        accessData cfg last.2
          (accessAll cfg last.1 (accessAll cfg (interleave (first :: mid)) st)) := by
      rw [hsplit, interleave_append, accessAll_append]
      simp only [interleave, List.append_nil]
      rw [accessAll_append, accessAll_cons, accessAll_nil]
    have hev := evict_step cfg k (accessAll cfg last.1 (accessAll cfg (interleave (first :: mid)) st))
      ⟨tagOf cfg first.2, 1, (accessAll cfg first.1 st).g_lru_counter⟩ new last.2
      (by rw [q2, hfills, r4, f6, o2]; exact hk) (by rw [q1, hfills, r1])
      (by rw [hnewlen]; exact hlen)
      (by
        intro l hl
        rcases List.mem_cons.mp hl with h | h
        · subst h; rfl
        · exact (hused l h).1)
      (fun l hl => (r3 l hl).1) (by simp only; omega) hlast.2
      (by
        intro l hl heq
        rw [hsplit, List.map_append] at hnd
        apply (List.nodup_append.mp hnd).2.2 _ (by simp : tagOf cfg last.2 ∈ [last].map _)
        rcases List.mem_cons.mp hl with h | h
        · subst h
          simp only at heq
          rw [← heq]
          simp
        · rw [← heq]
          exact List.mem_cons_of_mem _ (hused l h).2)
    rw [hall, hev.1]
    simp [r2]

theorem C2_distinct_tags_evict_first_witness :
    ((accessData ⟨1, 1, 2, 2⟩ (([6], 8) : List Nat × Nat).2
          (accessAll ⟨1, 1, 2, 2⟩ (interleave (([2], 0) :: [([], 4)]) ++
            (([6], 8) : List Nat × Nat).1) (initCache ⟨1, 1, 2, 2⟩))).miss_count =
        (accessAll ⟨1, 1, 2, 2⟩ (interleave (([2], 0) :: [([], 4)]) ++
          (([6], 8) : List Nat × Nat).1) (initCache ⟨1, 1, 2, 2⟩)).miss_count + 1 ∧
      (accessData ⟨1, 1, 2, 2⟩ (([6], 8) : List Nat × Nat).2
          (accessAll ⟨1, 1, 2, 2⟩ (interleave (([2], 0) :: [([], 4)]) ++
            (([6], 8) : List Nat × Nat).1) (initCache ⟨1, 1, 2, 2⟩))).hit_count =
        (accessAll ⟨1, 1, 2, 2⟩ (interleave (([2], 0) :: [([], 4)]) ++
          (([6], 8) : List Nat × Nat).1) (initCache ⟨1, 1, 2, 2⟩)).hit_count ∧
      (accessData ⟨1, 1, 2, 2⟩ (([6], 8) : List Nat × Nat).2
          (accessAll ⟨1, 1, 2, 2⟩ (interleave (([2], 0) :: [([], 4)]) ++
            (([6], 8) : List Nat × Nat).1) (initCache ⟨1, 1, 2, 2⟩))).eviction_count =
        (accessAll ⟨1, 1, 2, 2⟩ (interleave (([2], 0) :: [([], 4)]) ++
          (([6], 8) : List Nat × Nat).1) (initCache ⟨1, 1, 2, 2⟩)).eviction_count + 1) ∧
      ((accessAll ⟨1, 1, 2, 2⟩ (interleave (([2], 0) :: [([], 4)] ++ [([6], 8)]))
          (initCache ⟨1, 1, 2, 2⟩)).cache.getD 0 []).map (fun l => (l.tag, l.used)) =
        ((([6], 8) : List Nat × Nat) :: [([], 4)]).map
          (fun p => (tagOf ⟨1, 1, 2, 2⟩ p.2, 1)) :=
  (C2_distinct_tags_evict_first ⟨1, 1, 2, 2⟩ (initCache ⟨1, 1, 2, 2⟩) 0
    (by decide) (by decide) (by decide) ([2], 0) [([], 4)] ([6], 8) (by decide) (by decide)
    (by decide) (by decide)).2.2

/-! ## C3 : hits plus misses count the accesses -/

/-- C3: replaying a trace of well-formed records (space, operation letter, space,
hexadecimal address, comma, decimal length; one record per line, the last line with or
without its newline) from the freshly initialised cache returns, and ends with
`hit_count + miss_count` equal to the number of `L` records plus the number of `S`
records plus twice the number of `M` records; records with another letter add nothing.
Every call of `accessData` adds exactly one to `hit_count + miss_count`.  (For the
empty trace the buffer, which the program reads before writing it, must not hold a
record.) -/
theorem C3_hits_plus_misses (cfg : Config) (buffer : List Char) (rs : List Record)
    (finalNewline : Bool) (hwf : ∀ r ∈ rs, r.WellFormed) (hb : rs = [] → Benign cfg buffer) :
    (replayTrace cfg buffer (traceText rs finalNewline) (initCache cfg)).map
        (fun st => st.hit_count + st.miss_count) =
      some (rs.countP (fun r => decide (r.op = 'L')) + rs.countP (fun r => decide (r.op = 'S')) +
        2 * rs.countP (fun r => decide (r.op = 'M'))) ∧
    ∀ (st : Globals) (addr : Nat),
      (accessData cfg addr st).hit_count + (accessData cfg addr st).miss_count =
        st.hit_count + st.miss_count + 1 := by
  refine ⟨?_, fun st addr => accessData_count cfg addr st⟩
  rw [replayTrace_text cfg buffer rs finalNewline _ hwf hb, Option.map_some', accessAll_count,
    length_accessList]
  simp [initCache]

theorem C3_hits_plus_misses_witness :
    (∀ r ∈ [Record.mk 'L' ['1', '0'] ['4'], Record.mk 'I' ['0', '4', '0', '0'] ['8'],
        Record.mk 'M' ['2', '0'] ['1']], r.WellFormed) ∧
      (replayTrace ⟨1, 1, 1, 2⟩ []
          (traceText [Record.mk 'L' ['1', '0'] ['4'], Record.mk 'I' ['0', '4', '0', '0'] ['8'],
            Record.mk 'M' ['2', '0'] ['1']] true) (initCache ⟨1, 1, 1, 2⟩)).map
          (fun st => st.hit_count + st.miss_count) =
        some ([Record.mk 'L' ['1', '0'] ['4'], Record.mk 'I' ['0', '4', '0', '0'] ['8'],
            Record.mk 'M' ['2', '0'] ['1']].countP (fun r => decide (r.op = 'L')) +
          [Record.mk 'L' ['1', '0'] ['4'], Record.mk 'I' ['0', '4', '0', '0'] ['8'],
            Record.mk 'M' ['2', '0'] ['1']].countP (fun r => decide (r.op = 'S')) +
          2 * [Record.mk 'L' ['1', '0'] ['4'], Record.mk 'I' ['0', '4', '0', '0'] ['8'],
            Record.mk 'M' ['2', '0'] ['1']].countP (fun r => decide (r.op = 'M'))) :=
  ⟨by decide, (C3_hits_plus_misses ⟨1, 1, 1, 2⟩ [] _ true (by decide) (by simp)).1⟩

/-! ## C4 : shape of the sets -/

/-- C4: in every state reached from `initCache` by `accessData` calls, for every `E` and
so for `E ≥ 1`, every set has at most `E` valid lines, and two different valid lines of
one set never hold the same tag. -/
theorem C4_valid_lines_bounded_and_distinct (cfg : Config) (addrs : List Nat) :
    ∀ set ∈ (run cfg addrs).cache,
      (set.filter (fun l => decide (l.used = 1))).length ≤ cfg.E ∧
      ∀ (i j : Nat) (x y : cache_block_t), i ≠ j → set[i]? = some x → set[j]? = some y →
        x.used = 1 → y.used = 1 → x.tag ≠ y.tag := by
  intro set hset
  have hI := Inv_run cfg addrs
  obtain ⟨k, hk, hget⟩ := List.getElem_of_mem hset
  have hgd : (run cfg addrs).cache.getD k [] = set := by
    rw [List.getD_eq_getElem?_getD, List.getElem?_eq_getElem hk, hget]
    rfl
  have hlen : set.length = cfg.E := by
    rw [← hgd]
    exact hI.length_set k (by rw [← hI.length_cache]; exact hk)
  constructor
  · calc (set.filter (fun l => decide (l.used = 1))).length ≤ set.length :=
        List.length_filter_le _ _
      _ = cfg.E := hlen
  · intro i j x y hij hx hy hux huy
    have hxi : lineAt set i = x := by
      unfold lineAt; rw [List.getD_eq_getElem?_getD, hx]; rfl
    have hyj : lineAt set j = y := by
      unfold lineAt; rw [List.getD_eq_getElem?_getD, hy]; rfl
    have := hI.tags_distinct k i j hij
    rw [hgd, hxi, hyj] at this
    exact this hux huy

theorem C4_valid_lines_bounded_and_distinct_witness :
    [⟨3, 1, 4⟩, ⟨0, 1, 3⟩] ∈ (run ⟨1, 1, 2, 2⟩ [0, 4, 8, 0, 12]).cache ∧
      ([(⟨3, 1, 4⟩ : cache_block_t), ⟨0, 1, 3⟩].filter (fun l => decide (l.used = 1))).length ≤
        (Config.mk 1 1 2 2).E ∧
      (cache_block_t.mk 3 1 4).tag ≠ (cache_block_t.mk 0 1 3).tag :=
  ⟨by decide,
    (C4_valid_lines_bounded_and_distinct ⟨1, 1, 2, 2⟩ [0, 4, 8, 0, 12] _ (by decide)).1,
    (C4_valid_lines_bounded_and_distinct ⟨1, 1, 2, 2⟩ [0, 4, 8, 0, 12]
      [⟨3, 1, 4⟩, ⟨0, 1, 3⟩] (by decide)).2 0 1 ⟨3, 1, 4⟩ ⟨0, 1, 3⟩ (by decide) rfl rfl rfl rfl⟩

/-! ## C5 : evictions and misses -/

/-- C5: in every state reached from `initCache` by `accessData` calls,
`eviction_count ≤ miss_count`; and a call of `accessData` that changes `eviction_count`
adds exactly one to it and exactly one to `miss_count`. -/
theorem C5_evictions_le_misses (cfg : Config) (addrs : List Nat) :
    (run cfg addrs).eviction_count ≤ (run cfg addrs).miss_count ∧
      ∀ (st : Globals) (addr : Nat),
        (accessData cfg addr st).eviction_count ≠ st.eviction_count →
          (accessData cfg addr st).eviction_count = st.eviction_count + 1 ∧
          (accessData cfg addr st).miss_count = st.miss_count + 1 := by
  constructor
  · exact accessAll_eviction_le_miss cfg addrs _ (le_refl _)
  · intro st addr hne
    obtain ⟨h1, h2, h3, _⟩ := accessData_eviction_le cfg addr st
    exact ⟨by omega, h3 hne⟩

theorem C5_evictions_le_misses_witness :
    (run ⟨1, 1, 1, 2⟩ [0, 1, 2, 8]).eviction_count ≤ (run ⟨1, 1, 1, 2⟩ [0, 1, 2, 8]).miss_count ∧
      ((accessData ⟨1, 1, 1, 2⟩ 8 (run ⟨1, 1, 1, 2⟩ [0, 1, 2])).eviction_count ≠
          (run ⟨1, 1, 1, 2⟩ [0, 1, 2]).eviction_count ∧
        (accessData ⟨1, 1, 1, 2⟩ 8 (run ⟨1, 1, 1, 2⟩ [0, 1, 2])).eviction_count =
          (run ⟨1, 1, 1, 2⟩ [0, 1, 2]).eviction_count + 1 ∧
        (accessData ⟨1, 1, 1, 2⟩ 8 (run ⟨1, 1, 1, 2⟩ [0, 1, 2])).miss_count =
          (run ⟨1, 1, 1, 2⟩ [0, 1, 2]).miss_count + 1) :=
  ⟨(C5_evictions_le_misses ⟨1, 1, 1, 2⟩ [0, 1, 2, 8]).1, by decide,
    (C5_evictions_le_misses ⟨1, 1, 1, 2⟩ [0, 1, 2, 8]).2 _ 8 (by decide)⟩

/-! ## C6 : repeated accesses to one address -/

/-- C6: from a state reached from `initCache` (valid configuration), `N ≥ 1` consecutive
calls `accessData(a)` add `N` hits and no miss when the block of `a` is resident, and
one miss and `N - 1` hits when it is not; the calls after the first add no eviction,
and when the set of `a` is not full (or the block is resident) the whole sequence
adds none. -/
theorem C6_repeated_access (cfg : Config) (hv : cfg.Valid) (addrs : List Nat) (a N : Nat)
    (hN : 1 ≤ N) :
    (resident cfg (run cfg addrs) a →
        (accessAll cfg (List.replicate N a) (run cfg addrs)).miss_count =
          (run cfg addrs).miss_count ∧
        (accessAll cfg (List.replicate N a) (run cfg addrs)).hit_count =
          (run cfg addrs).hit_count + N ∧
        (accessAll cfg (List.replicate N a) (run cfg addrs)).eviction_count =
          (run cfg addrs).eviction_count) ∧
      (¬ resident cfg (run cfg addrs) a →
        (accessAll cfg (List.replicate N a) (run cfg addrs)).miss_count =
          (run cfg addrs).miss_count + 1 ∧
        (accessAll cfg (List.replicate N a) (run cfg addrs)).hit_count =
          (run cfg addrs).hit_count + (N - 1)) ∧
      (accessAll cfg (List.replicate N a) (run cfg addrs)).eviction_count =
        (accessData cfg a (run cfg addrs)).eviction_count ∧
      (¬ setFull cfg (run cfg addrs) a →
        (accessAll cfg (List.replicate N a) (run cfg addrs)).eviction_count =
          (run cfg addrs).eviction_count) := by
  have hI := Inv_run cfg addrs
  obtain ⟨n, rfl⟩ : ∃ n, N = n + 1 := ⟨N - 1, by omega⟩
  have hrest := accessAll_replicate_resident cfg hv a n (accessData cfg a (run cfg addrs))
    (Inv_accessData cfg a _ hI) (resident_accessData cfg hv _ hI a)
  rw [List.replicate_succ, accessAll_cons]
  obtain ⟨k1, k2, k3⟩ := hrest
  refine ⟨?_, ?_, k3, ?_⟩
  · intro hr
    obtain ⟨h1, h2, h3⟩ := accessData_counts_hit cfg a _ hr
    exact ⟨by rw [k2, h2], by rw [k1, h1]; omega, by rw [k3, h3]⟩
  · intro hr
    obtain ⟨h1, h2, _⟩ := accessData_counts_miss cfg a _ hr
    exact ⟨by rw [k2, h2], by rw [k1, h1]; simp⟩
  · intro hnf
    rw [k3]
    by_cases hr : resident cfg (run cfg addrs) a
    · exact (accessData_counts_hit cfg a _ hr).2.2
    · obtain ⟨_, _, h3⟩ := accessData_counts_miss cfg a _ hr
      rw [h3, if_neg]
      · rfl
      · intro h2
        exact hnf (full_of_scan cfg _ hI a h2)

theorem C6_repeated_access_witness :
    (¬ resident ⟨1, 1, 1, 2⟩ (run ⟨1, 1, 1, 2⟩ [0]) 8) ∧
      (accessAll ⟨1, 1, 1, 2⟩ (List.replicate 3 8) (run ⟨1, 1, 1, 2⟩ [0])).miss_count =
        (run ⟨1, 1, 1, 2⟩ [0]).miss_count + 1 ∧
      (accessAll ⟨1, 1, 1, 2⟩ (List.replicate 3 8) (run ⟨1, 1, 1, 2⟩ [0])).hit_count =
        (run ⟨1, 1, 1, 2⟩ [0]).hit_count + (3 - 1) :=
  ⟨by decide, (C6_repeated_access ⟨1, 1, 1, 2⟩ (by decide) [0] 8 3 (by decide)).2.1 (by decide)⟩

/-! ## C7 : address decoding -/

/-- C7, counterexample: with `s = 54`, `b = 1` (so `s ≥ 1`, `b ≥ 1`, `s + b < 64`) the
mask `(mem_addr_t)(pow(2, 54) - 1)` is `2 ^ 54`, because `2 ^ 54 - 1` is not a `double`.
Address `2` gets set index `0` instead of `(2 >> 1) mod 2 ^ 54 = 1`, address `2 ^ 55`
gets set index `2 ^ 54`, which is not below `2 ^ 54`, and addresses `0` and `2`, which
lie in different blocks, decode to the same pair. -/
theorem C7_counterexample :
    (1 ≤ 54 ∧ 1 ≤ 1 ∧ 54 + 1 < 64 ∧ 2 < 2 ^ 64 ∧ 2 ^ 55 < 2 ^ 64) ∧
      maskOf 54 = 2 ^ 54 ∧
      setIndexOf ⟨54, 1, 1, 0⟩ 2 = 0 ∧ (2 >>> 1) % 2 ^ 54 = 1 ∧
      ¬ setIndexOf ⟨54, 1, 1, 0⟩ (2 ^ 55) < 2 ^ 54 ∧
      (tagOf ⟨54, 1, 1, 0⟩ 0, setIndexOf ⟨54, 1, 1, 0⟩ 0) =
        (tagOf ⟨54, 1, 1, 0⟩ 2, setIndexOf ⟨54, 1, 1, 0⟩ 2) ∧
      0 >>> 1 ≠ 2 >>> 1 := by
  decide

/-- C7, amended: for `s ≤ 53` the set index computed on line 116 is
`(addr >> b) mod 2 ^ s` and the tag of line 117 is `addr >> (s + b)`; the set index is
below `2 ^ s`, hence below `S` as `main` computes it; and two addresses decode to
the same (tag, set index) pair exactly when they agree on `addr >> b`. -/
theorem C7_decode (cfg : Config) (addr addr' : Nat) (hs : cfg.s ≤ 53) :
    setIndexOf cfg addr = (addr >>> cfg.b) % 2 ^ cfg.s ∧
      tagOf cfg addr = addr >>> (cfg.s + cfg.b) ∧
      setIndexOf cfg addr < 2 ^ cfg.s ∧
      (∀ S, numSets cfg.s = some S → setIndexOf cfg addr < S) ∧
      ((tagOf cfg addr, setIndexOf cfg addr) = (tagOf cfg addr', setIndexOf cfg addr') ↔
        addr >>> cfg.b = addr' >>> cfg.b) := by
  have hidx := setIndexOf_small cfg addr hs
  have hidx' := setIndexOf_small cfg addr' hs
  have hlt : setIndexOf cfg addr < 2 ^ cfg.s := by
    rw [hidx]; exact Nat.mod_lt _ (Nat.pow_pos (by norm_num))
  have htag : ∀ x, tagOf cfg x = (x >>> cfg.b) / 2 ^ cfg.s := by
    intro x
    unfold tagOf
    rw [Nat.add_comm, Nat.shiftRight_add, Nat.shiftRight_eq_div_pow (x >>> cfg.b)]
  refine ⟨hidx, rfl, hlt, ?_, ?_⟩
  · intro S hS
    unfold numSets at hS
    split at hS
    · rw [← Option.some.inj hS]; exact hlt
    · exact absurd hS (by simp)
  · rw [Prod.mk.injEq, htag, htag, hidx, hidx']
    constructor
    · rintro ⟨h1, h2⟩
      rw [← Nat.div_add_mod (addr >>> cfg.b) (2 ^ cfg.s),
        ← Nat.div_add_mod (addr' >>> cfg.b) (2 ^ cfg.s), h1, h2]
    · intro h
      rw [h]
      exact ⟨rfl, rfl⟩

theorem C7_decode_witness :
    (Config.mk 4 4 1 16).s ≤ 53 ∧
      setIndexOf ⟨4, 4, 1, 16⟩ 0x123 = (0x123 >>> 4) % 2 ^ 4 ∧
      tagOf ⟨4, 4, 1, 16⟩ 0x123 = 0x123 >>> (4 + 4) ∧
      setIndexOf ⟨4, 4, 1, 16⟩ 0x123 < 2 ^ 4 ∧
      setIndexOf ⟨4, 4, 1, 16⟩ 0x123 < 16 ∧
      ((tagOf ⟨4, 4, 1, 16⟩ 0x123, setIndexOf ⟨4, 4, 1, 16⟩ 0x123) =
          (tagOf ⟨4, 4, 1, 16⟩ 0x12f, setIndexOf ⟨4, 4, 1, 16⟩ 0x12f) ↔
        0x123 >>> 4 = 0x12f >>> 4) :=
  ⟨by decide, (C7_decode ⟨4, 4, 1, 16⟩ 0x123 0x12f (by decide)).1,
    (C7_decode ⟨4, 4, 1, 16⟩ 0x123 0x12f (by decide)).2.1,
    (C7_decode ⟨4, 4, 1, 16⟩ 0x123 0x12f (by decide)).2.2.1,
    (C7_decode ⟨4, 4, 1, 16⟩ 0x123 0x12f (by decide)).2.2.2.1 16 (by decide),
    (C7_decode ⟨4, 4, 1, 16⟩ 0x123 0x12f (by decide)).2.2.2.2⟩

/-! ## C8 : the direct-mapped scenario -/

theorem replayTrace_buffer (cfg : Config) (buffer buffer' : List Char) (c : Char)
    (data : List Char) (st : Globals) :
    replayTrace cfg buffer (c :: data) st = replayTrace cfg buffer' (c :: data) st :=
  replayLoop_buffer cfg _ buffer buffer' c data st

/-- C8: with `s = 1`, `b = 1`, `E = 1`, replaying the four lines ` L 0,1`, ` L 1,1`,
` L 2,1`, ` L 8,1` (the last one with or without its newline) from the initialised
cache makes the calls `accessData` on `0x0, 0x1, 0x2, 0x8`; these are a miss, a hit,
a miss and a miss with eviction, and the run ends with `hit_count = 1`,
`miss_count = 3`, `eviction_count = 1`. -/
theorem C8_direct_mapped_scenario (buffer : List Char) :
    replayTrace ⟨1, 1, 1, 2⟩ buffer " L 0,1\n L 1,1\n L 2,1\n L 8,1\n".toList
        (initCache ⟨1, 1, 1, 2⟩) = some (run ⟨1, 1, 1, 2⟩ [0, 1, 2, 8]) ∧
      replayTrace ⟨1, 1, 1, 2⟩ buffer " L 0,1\n L 1,1\n L 2,1\n L 8,1".toList
        (initCache ⟨1, 1, 1, 2⟩) = some (run ⟨1, 1, 1, 2⟩ [0, 1, 2, 8]) ∧
      ((run ⟨1, 1, 1, 2⟩ [0]).hit_count, (run ⟨1, 1, 1, 2⟩ [0]).miss_count,
        (run ⟨1, 1, 1, 2⟩ [0]).eviction_count) = (0, 1, 0) ∧
      ((run ⟨1, 1, 1, 2⟩ [0, 1]).hit_count, (run ⟨1, 1, 1, 2⟩ [0, 1]).miss_count,
        (run ⟨1, 1, 1, 2⟩ [0, 1]).eviction_count) = (1, 1, 0) ∧
      ((run ⟨1, 1, 1, 2⟩ [0, 1, 2]).hit_count, (run ⟨1, 1, 1, 2⟩ [0, 1, 2]).miss_count,
        (run ⟨1, 1, 1, 2⟩ [0, 1, 2]).eviction_count) = (1, 2, 0) ∧
      ((run ⟨1, 1, 1, 2⟩ [0, 1, 2, 8]).hit_count, (run ⟨1, 1, 1, 2⟩ [0, 1, 2, 8]).miss_count,
        (run ⟨1, 1, 1, 2⟩ [0, 1, 2, 8]).eviction_count) = (1, 3, 1) := by
  refine ⟨?_, ?_, by decide, by decide, by decide, by decide⟩
  · have h : replayTrace ⟨1, 1, 1, 2⟩ [] " L 0,1\n L 1,1\n L 2,1\n L 8,1\n".toList
        (initCache ⟨1, 1, 1, 2⟩) = some (run ⟨1, 1, 1, 2⟩ [0, 1, 2, 8]) := by
      decide
    rw [← h]
    exact replayTrace_buffer _ buffer [] ' ' _ _
  · have h : replayTrace ⟨1, 1, 1, 2⟩ [] " L 0,1\n L 1,1\n L 2,1\n L 8,1".toList
        (initCache ⟨1, 1, 1, 2⟩) = some (run ⟨1, 1, 1, 2⟩ [0, 1, 2, 8]) := by
      decide
    rw [← h]
    exact replayTrace_buffer _ buffer [] ' ' _ _

/-! ## C9 : modify records -/

/-- The first access to an address in the freshly initialised cache is a miss
without eviction. -/
theorem accessData_initCache (cfg : Config) (hE : 1 ≤ cfg.E) (addr : Nat) :
    (accessData cfg addr (initCache cfg)).hit_count = 0 ∧
      (accessData cfg addr (initCache cfg)).miss_count = 1 ∧
      (accessData cfg addr (initCache cfg)).eviction_count = 0 := by
  have hnr : ¬ resident cfg (initCache cfg) addr := by
    rintro ⟨i, _, _, hu⟩
    unfold curSet at hu
    rw [lineAt_initCache] at hu
    exact absurd hu (by decide)
  obtain ⟨h1, h2, h3⟩ := accessData_counts_miss cfg addr _ hnr
  refine ⟨h1, h2, ?_⟩
  rw [h3, if_neg]
  · rfl
  · intro hs
    have := full_of_scan cfg _ (Inv_initCache cfg) addr hs 0 (by omega)
    unfold curSet at this
    rw [lineAt_initCache] at this
    exact absurd this (by decide)

theorem isHexDigit_not_sign {c : Char} (h : isHexDigit c) :
    isspace c = false ∧ c ≠ '-' ∧ c ≠ '+' ∧ c ≠ 'x' ∧ c ≠ 'X' := by
  refine ⟨?_, ?_, ?_, ?_, ?_⟩
  · unfold isHexDigit at h
    unfold isspace
    simp only [Bool.or_eq_false_iff, Bool.and_eq_false_iff, decide_eq_false_iff_not]
    omega
  all_goals (rintro rfl; revert h; decide)

/-- On a non-empty run of hexadecimal digits `strtol` returns its value in base 16,
or `LONG_MAX` when the value is above it. -/
theorem strtol16_hex (s : List Char) (hne : s ≠ []) (hhex : ∀ c ∈ s, isHexDigit c) :
    strtol16 s = if 2 ^ 63 - 1 < hexValue s 0 then (2 ^ 63 - 1 : Int) else (hexValue s 0 : Int) := by
  obtain ⟨c, cs, rfl⟩ := List.exists_cons_of_ne_nil hne
  obtain ⟨hsp, hm, hp, _, _⟩ := isHexDigit_not_sign (hhex c (List.mem_cons_self _ _))
  have hd : (c :: cs).dropWhile isspace = c :: cs := by simp [List.dropWhile, hsp]
  have h3 : (match c :: cs with
      | z :: x :: h :: r =>
        if z = '0' ∧ (x = 'x' ∨ x = 'X') ∧ (hexDigit h).isSome then h :: r else c :: cs
      | _ => c :: cs) = c :: cs := by
    cases cs with
    | nil => rfl
    | cons x cs' =>
      cases cs' with
      | nil => rfl
      | cons h r =>
        obtain ⟨_, _, _, hx, hX⟩ :=
          isHexDigit_not_sign (hhex x (List.mem_cons_of_mem _ (List.mem_cons_self _ _)))
        simp [hx, hX]
  unfold strtol16
  simp only [hd, List.head?_cons, Option.some.injEq, hm, hp, or_self, if_false,
    decide_False, Bool.false_eq_true, h3]

/-- The address that `replayTrace` passes to `accessData` is the number the address
field denotes when the field has at most 16 digits and the number is below `2 ^ 63`. -/
theorem address_eq_value (r : Record) (hr : r.WellFormed) (hl : r.addr.length ≤ 16)
    (hv : r.value < 2 ^ 63) : r.address = r.value := by
  unfold Record.address Record.value at *
  rw [List.take_of_length_le hl, strtol16_hex _ hr.2.1 hr.2.2.1, if_neg (by omega)]
  unfold toUInt64
  omega

/-- C9, counterexample: the record `M 0,1` written without a leading space makes no
call of `accessData`, with or without its newline: the counters stay `0`.  And the
record ` M ffffffffffffffff,1` makes its two calls on `2 ^ 63 - 1`, the largest `long`,
not on the address `2 ^ 64 - 1` it denotes, whose block is not resident afterwards. -/
theorem C9_counterexample :
    (replayTrace ⟨1, 1, 1, 2⟩ [] "M 0,1\n".toList (initCache ⟨1, 1, 1, 2⟩)).map
          (fun st => (st.hit_count, st.miss_count, st.eviction_count)) = some (0, 0, 0) ∧
      (replayTrace ⟨1, 1, 1, 2⟩ [] "M 0,1".toList (initCache ⟨1, 1, 1, 2⟩)).map
          (fun st => (st.hit_count, st.miss_count, st.eviction_count)) = some (0, 0, 0) ∧
      (Record.mk 'M' "ffffffffffffffff".toList ['1']).value = 2 ^ 64 - 1 ∧
      replayTrace ⟨1, 1, 1, 2⟩ [] " M ffffffffffffffff,1\n".toList (initCache ⟨1, 1, 1, 2⟩) =
        some (accessData ⟨1, 1, 1, 2⟩ (2 ^ 63 - 1)
          (accessData ⟨1, 1, 1, 2⟩ (2 ^ 63 - 1) (initCache ⟨1, 1, 1, 2⟩))) ∧
      ¬ resident ⟨1, 1, 1, 2⟩ (accessData ⟨1, 1, 1, 2⟩ (2 ^ 63 - 1)
        (accessData ⟨1, 1, 1, 2⟩ (2 ^ 63 - 1) (initCache ⟨1, 1, 1, 2⟩))) (2 ^ 64 - 1) := by
  decide

/-- C9, amended: in a state reached from `initCache` (valid configuration), replaying a
well-formed `M` record written with its leading space (its line with or without the
newline) makes exactly two calls of `accessData`, both on the same address, the value
that `strtol` reads from the first 16 bytes of the address field; the second call is a
hit, so the record adds either two hits, or one miss and one hit with at most one
eviction.  On the freshly initialised cache the record ` M 0,1` gives one miss, one hit
and no eviction.  The address of the two calls is the number the address field denotes
whenever the field has at most 16 digits and the number is below `2 ^ 63`. -/
theorem C9_modify_record (cfg : Config) (hv : cfg.Valid) (addrs : List Nat)
    (buffer : List Char) (r : Record) (finalNewline : Bool) (hr : r.WellFormed)
    (hop : r.op = 'M') :
    replayTrace cfg buffer (traceText [r] finalNewline) (run cfg addrs) =
        some (accessData cfg r.address (accessData cfg r.address (run cfg addrs))) ∧
      ((accessData cfg r.address (accessData cfg r.address (run cfg addrs))).hit_count =
          (accessData cfg r.address (run cfg addrs)).hit_count + 1 ∧
        (accessData cfg r.address (accessData cfg r.address (run cfg addrs))).miss_count =
          (accessData cfg r.address (run cfg addrs)).miss_count ∧
        (accessData cfg r.address (accessData cfg r.address (run cfg addrs))).eviction_count =
          (accessData cfg r.address (run cfg addrs)).eviction_count) ∧
      (((accessData cfg r.address (accessData cfg r.address (run cfg addrs))).hit_count =
            (run cfg addrs).hit_count + 2 ∧
          (accessData cfg r.address (accessData cfg r.address (run cfg addrs))).miss_count =
            (run cfg addrs).miss_count ∧
          (accessData cfg r.address (accessData cfg r.address (run cfg addrs))).eviction_count =
            (run cfg addrs).eviction_count) ∨
        ((accessData cfg r.address (accessData cfg r.address (run cfg addrs))).hit_count =
            (run cfg addrs).hit_count + 1 ∧
          (accessData cfg r.address (accessData cfg r.address (run cfg addrs))).miss_count =
            (run cfg addrs).miss_count + 1 ∧
          (run cfg addrs).eviction_count ≤
            (accessData cfg r.address (accessData cfg r.address (run cfg addrs))).eviction_count ∧
          (accessData cfg r.address (accessData cfg r.address (run cfg addrs))).eviction_count ≤
            (run cfg addrs).eviction_count + 1)) ∧
      (replayTrace cfg buffer " M 0,1\n".toList (initCache cfg)).map
          (fun st => (st.hit_count, st.miss_count, st.eviction_count)) = some (1, 1, 0) ∧
      (replayTrace cfg buffer " M 0,1".toList (initCache cfg)).map
          (fun st => (st.hit_count, st.miss_count, st.eviction_count)) = some (1, 1, 0) ∧
      (r.addr.length ≤ 16 → r.value < 2 ^ 63 → r.address = r.value) := by
  have hI := Inv_run cfg addrs
  have hres := resident_accessData cfg hv _ hI r.address
  obtain ⟨s1, s2, s3⟩ := accessData_counts_hit cfg r.address _ hres
  have hreplay : ∀ (r' : Record) (nl : Bool), r'.WellFormed → r'.op = 'M' → ∀ st,
      replayTrace cfg buffer (traceText [r'] nl) st =
        some (accessData cfg r'.address (accessData cfg r'.address st)) := by
    intro r' nl hr' hop' st
    have := replayTrace_text cfg buffer [r'] nl st
      (by intro x hx; rw [List.mem_singleton.mp hx]; exact hr') (by simp)
    simp only [accessList, Record.accesses, hop'] at this
    rw [this]
    rfl
  have hinit : (accessData cfg 0 (accessData cfg 0 (initCache cfg))).hit_count = 1 ∧
      (accessData cfg 0 (accessData cfg 0 (initCache cfg))).miss_count = 1 ∧
      (accessData cfg 0 (accessData cfg 0 (initCache cfg))).eviction_count = 0 := by
    obtain ⟨i1, i2, i3⟩ := accessData_initCache cfg hv.1 0
    have hres0 := resident_accessData cfg hv _ (Inv_initCache cfg) 0
    obtain ⟨j1, j2, j3⟩ := accessData_counts_hit cfg 0 _ hres0
    rw [j1, j2, j3, i1, i2, i3]
    exact ⟨rfl, rfl, rfl⟩
  have ha : (Record.mk 'M' ['0'] ['1']).address = 0 := by decide
  refine ⟨hreplay r finalNewline hr hop _, ⟨s1, s2, s3⟩, ?_, ?_, ?_,
    address_eq_value r hr⟩
  · by_cases h0 : resident cfg (run cfg addrs) r.address
    · left
      obtain ⟨f1, f2, f3⟩ := accessData_counts_hit cfg r.address _ h0
      exact ⟨by rw [s1, f1], by rw [s2, f2], by rw [s3, f3]⟩
    · right
      obtain ⟨f1, f2, f3⟩ := accessData_counts_miss cfg r.address _ h0
      refine ⟨by rw [s1, f1], by rw [s2, f2], ?_, ?_⟩
      · rw [s3, f3]; omega
      · rw [s3, f3]; split <;> omega
  · have h := hreplay ⟨'M', ['0'], ['1']⟩ true (by decide) rfl (initCache cfg)
    have hrd : traceText [Record.mk 'M' ['0'] ['1']] true = " M 0,1\n".toList := by decide
    rw [ha, hrd] at h
    rw [h, Option.map_some', hinit.1, hinit.2.1, hinit.2.2]
  · have h := hreplay ⟨'M', ['0'], ['1']⟩ false (by decide) rfl (initCache cfg)
    have hrd : traceText [Record.mk 'M' ['0'] ['1']] false = " M 0,1".toList := by decide
    rw [ha, hrd] at h
    rw [h, Option.map_some', hinit.1, hinit.2.1, hinit.2.2]

theorem C9_modify_record_witness :
    (Config.mk 1 1 1 2).Valid ∧ (Record.mk 'M' ['8'] ['1']).WellFormed ∧
      replayTrace ⟨1, 1, 1, 2⟩ [] (traceText [Record.mk 'M' ['8'] ['1']] true)
          (run ⟨1, 1, 1, 2⟩ [0]) =
        some (accessData ⟨1, 1, 1, 2⟩ (Record.mk 'M' ['8'] ['1']).address
          (accessData ⟨1, 1, 1, 2⟩ (Record.mk 'M' ['8'] ['1']).address (run ⟨1, 1, 1, 2⟩ [0]))) ∧
      (replayTrace ⟨1, 1, 1, 2⟩ [] " M 0,1\n".toList (initCache ⟨1, 1, 1, 2⟩)).map
          (fun st => (st.hit_count, st.miss_count, st.eviction_count)) = some (1, 1, 0) ∧
      (Record.mk 'M' ['8'] ['1']).address = (Record.mk 'M' ['8'] ['1']).value ∧
      (Record.mk 'M' ['8'] ['1']).value = 8 :=
  ⟨by decide, by decide,
    (C9_modify_record ⟨1, 1, 1, 2⟩ (by decide) [0] [] ⟨'M', ['8'], ['1']⟩ true
      (by decide) rfl).1,
    (C9_modify_record ⟨1, 1, 1, 2⟩ (by decide) [0] [] ⟨'M', ['8'], ['1']⟩ true
      (by decide) rfl).2.2.2.1,
    (C9_modify_record ⟨1, 1, 1, 2⟩ (by decide) [0] [] ⟨'M', ['8'], ['1']⟩ true
      (by decide) rfl).2.2.2.2.2 (by decide) (by decide),
    by decide⟩

/-! ## C10 : lines without a proper address field -/

/-- The address token is missing exactly when only commas follow the operation letter and
its space. -/
theorem addrField_eq_nil_iff (z : List Char) (hz : ∀ c ∈ z, c ≠ NUL) :
    addrField z = [] ↔ ∀ c ∈ z, c = ',' := by
  induction z with
  | nil => simp [addrField]
  | cons c z ih =>
    have hc := hz c (List.mem_cons_self _ _)
    have ih' := ih (fun x hx => hz x (List.mem_cons_of_mem _ hx))
    by_cases hcomma : c = ','
    · have hd : isDelim [','] c = true := by rw [isDelim_comma]; simp [hcomma]
      have : addrField (c :: z) = addrField z := by
        unfold addrField
        simp only [List.dropWhile, hd]
      rw [this, ih']
      simp [hcomma]
    · have hd : isDelim [','] c = false := by rw [isDelim_comma]; simp [hcomma]
      have ht : inToken [','] c = true := by
        rw [inToken_eq, hd]; simp [hc]
      constructor
      · intro h
        unfold addrField at h
        simp [List.dropWhile, List.takeWhile, hd, ht] at h
      · intro h
        exact absurd (h c (List.mem_cons_self _ _)) hcomma

theorem accessTwice_count (cfg : Config) (modify : Bool) (addr : Nat) (st : Globals) :
    (accessTwice cfg modify addr st).hit_count + (accessTwice cfg modify addr st).miss_count =
      st.hit_count + st.miss_count + (if modify then 2 else 1) := by
  unfold accessTwice
  cases modify
  · simp [accessData_count]
  · simp only [if_true, accessData_count]

/-- A file that consists of one line with an operation letter and a space, short enough
for the buffer: the loop processes that line once. -/
theorem replayTrace_single (cfg : Config) (buffer : List Char) (st : Globals) (op : Char)
    (y : List Char) (nl : Bool) (h1 : op ≠ ' ') (h2 : op ≠ NUL) (h3 : op ≠ '\n')
    (hy : ∀ c ∈ y, c ≠ '\n') (hlen : y.length < 16) :
    replayTrace cfg buffer (' ' :: op :: ' ' :: (y ++ if nl then ['\n'] else [])) st =
      some (lineEffect cfg op (y ++ if nl then ['\n'] else []) st) := by
  have hnl : ∀ c ∈ ' ' :: op :: ' ' :: y, c ≠ '\n' := by
    intro c hc
    simp only [List.mem_cons] at hc
    rcases hc with rfl | rfl | rfl | hc
    · decide
    · exact h3
    · decide
    · exact hy c hc
  have hl : (' ' :: op :: ' ' :: y).length < 19 := by
    simp only [List.length_cons]; omega
  cases nl with
  | true =>
    simp only [if_true]
    obtain ⟨w, hw⟩ := processLine_record cfg ' ' op (y ++ ['\n']) h1 h2
    unfold replayTrace
    have e : ' ' :: op :: ' ' :: (y ++ ['\n']) = (' ' :: op :: ' ' :: y) ++ '\n' :: [] := by simp
    have ef : (' ' :: op :: ' ' :: (y ++ ['\n'])).length + 2 = (y.length + 4) + 1 + 1 := by
      simp only [List.length_cons, List.length_append, List.length_nil]
    rw [ef, e, replayLoop_line cfg _ buffer _ [] st hnl hl]
    simp only [List.cons_append] at hw ⊢
    rw [hw st, show y.length + 4 + 1 = (y.length + 3) + 2 by omega, replayLoop_end,
      processLine_stale cfg ' ' op w h1 h2]
  | false =>
    simp only [Bool.false_eq_true, if_false, List.append_nil]
    obtain ⟨w, hw⟩ := processLine_record cfg ' ' op y h1 h2
    unfold replayTrace
    have ef : (' ' :: op :: ' ' :: y).length + 2 = (y.length + 3) + 2 := by
      simp only [List.length_cons]
    rw [ef, replayLoop_last cfg _ buffer _ st hnl (by simp) hl, hw st]

/-- C10, counterexample: the lines ` L zz,4` and ` L ` followed by a newline are not
skipped; each makes the call `accessData(0)`, a miss that fills a line. -/
theorem C10_counterexample :
    replayTrace ⟨1, 1, 1, 2⟩ [] " L zz,4\n".toList (initCache ⟨1, 1, 1, 2⟩) =
        some (accessData ⟨1, 1, 1, 2⟩ 0 (initCache ⟨1, 1, 1, 2⟩)) ∧
      replayTrace ⟨1, 1, 1, 2⟩ [] " L \n".toList (initCache ⟨1, 1, 1, 2⟩) =
        some (accessData ⟨1, 1, 1, 2⟩ 0 (initCache ⟨1, 1, 1, 2⟩)) ∧
      (accessData ⟨1, 1, 1, 2⟩ 0 (initCache ⟨1, 1, 1, 2⟩)).miss_count = 1 ∧
      (accessData ⟨1, 1, 1, 2⟩ 0 (initCache ⟨1, 1, 1, 2⟩)).cache ≠
        (initCache ⟨1, 1, 1, 2⟩).cache := by
  decide

/-- C10, amended: let a trace consist of one line that fits the line buffer: a space, an
operation letter `L`, `S` or `M`, a space, at most 15 further bytes other than `NUL`,
and then possibly the newline.  The line is skipped, with the globals unchanged,
exactly when every byte after the letter and its space, the newline included, is a
comma; a line that ends with its newline is therefore never skipped.  In every other
case `replayTrace` calls `accessData` once (twice for `M`) on the value that `strtol`
reads in base 16 from the address token, whether or not that token is a hexadecimal
number, and `hit_count + miss_count` grows accordingly.  That value is `0` for the
token `zz` of the line ` L zz,4` and for the newline that is the token of ` L `
followed by a newline. -/
theorem C10_line_without_address (cfg : Config) (buffer : List Char) (st : Globals)
    (op : Char) (y : List Char) (nl : Bool) (hop : op = 'L' ∨ op = 'S' ∨ op = 'M')
    (hy : ∀ c ∈ y, c ≠ '\n' ∧ c ≠ NUL) (hlen : y.length < 16) :
    ((∀ c ∈ y ++ (if nl then ['\n'] else []), c = ',') →
        replayTrace cfg buffer (' ' :: op :: ' ' :: (y ++ if nl then ['\n'] else [])) st =
          some st) ∧
      (¬ (∀ c ∈ y ++ (if nl then ['\n'] else []), c = ',') →
        replayTrace cfg buffer (' ' :: op :: ' ' :: (y ++ if nl then ['\n'] else [])) st =
            some (accessTwice cfg (decide (op = 'M'))
              (toUInt64 (strtol16 (addrField (y ++ if nl then ['\n'] else [])))) st) ∧
          (accessTwice cfg (decide (op = 'M'))
              (toUInt64 (strtol16 (addrField (y ++ if nl then ['\n'] else [])))) st).hit_count +
            (accessTwice cfg (decide (op = 'M'))
              (toUInt64 (strtol16 (addrField (y ++ if nl then ['\n'] else [])))) st).miss_count =
            st.hit_count + st.miss_count + (if op = 'M' then 2 else 1)) ∧
      (nl = true → ¬ (∀ c ∈ y ++ (if nl then ['\n'] else []), c = ',')) ∧
      (toUInt64 (strtol16 (addrField "zz,4\n".toList)) = 0 ∧
        toUInt64 (strtol16 (addrField "\n".toList)) = 0) := by
  have hopne : op ≠ ' ' ∧ op ≠ NUL ∧ op ≠ '\n' := by
    rcases hop with rfl | rfl | rfl <;> decide
  have hrun := replayTrace_single cfg buffer st op y nl hopne.1 hopne.2.1 hopne.2.2
    (fun c hc => (hy c hc).1) hlen
  have hz : ∀ c ∈ y ++ (if nl then ['\n'] else []), c ≠ NUL := by
    intro c hc
    rcases List.mem_append.mp hc with h | h
    · exact (hy c h).2
    · cases nl
      · simp at h
      · simp only [if_true, List.mem_singleton] at h
        subst h; decide
  have hiff := addrField_eq_nil_iff _ hz
  have hop' : op = 'S' ∨ op = 'L' ∨ op = 'M' := by
    rcases hop with h | h | h
    · exact Or.inr (Or.inl h)
    · exact Or.inl h
    · exact Or.inr (Or.inr h)
  refine ⟨?_, ?_, ?_, by decide⟩
  · intro hall
    rw [hrun]
    unfold lineEffect
    rw [if_pos hop', if_pos (hiff.mpr hall)]
  · intro hnot
    have hne : addrField (y ++ if nl then ['\n'] else []) ≠ [] := fun h => hnot (hiff.mp h)
    constructor
    · rw [hrun]
      unfold lineEffect
      rw [if_pos hop', if_neg hne]
    · rw [accessTwice_count]
      by_cases hM : op = 'M' <;> simp [hM]
  · intro hnl hall
    subst hnl
    have := hall '\n' (by simp)
    exact absurd this (by decide)

theorem C10_line_without_address_witness :
    (('L' : Char) = 'L' ∨ ('L' : Char) = 'S' ∨ ('L' : Char) = 'M') ∧
      (∀ c ∈ ['z', 'z', ',', '4'], c ≠ '\n' ∧ c ≠ NUL) ∧
      ¬ (∀ c ∈ ['z', 'z', ',', '4'] ++ (if true then ['\n'] else []), c = ',') ∧
      replayTrace ⟨1, 1, 1, 2⟩ []
          (' ' :: 'L' :: ' ' :: (['z', 'z', ',', '4'] ++ if true then ['\n'] else []))
          (initCache ⟨1, 1, 1, 2⟩) =
        some (accessTwice ⟨1, 1, 1, 2⟩ (decide (('L' : Char) = 'M'))
          (toUInt64 (strtol16 (addrField (['z', 'z', ',', '4'] ++ if true then ['\n'] else []))))
          (initCache ⟨1, 1, 1, 2⟩)) ∧
      replayTrace ⟨1, 1, 1, 2⟩ []
          (' ' :: 'L' :: ' ' :: ([',', ','] ++ if false then ['\n'] else []))
          (initCache ⟨1, 1, 1, 2⟩) = some (initCache ⟨1, 1, 1, 2⟩) :=
  ⟨by decide, by decide, by decide,
    ((C10_line_without_address ⟨1, 1, 1, 2⟩ [] (initCache ⟨1, 1, 1, 2⟩) 'L' ['z', 'z', ',', '4']
      true (by decide) (by decide) (by decide)).2.1 (by decide)).1,
    (C10_line_without_address ⟨1, 1, 1, 2⟩ [] (initCache ⟨1, 1, 1, 2⟩) 'L' [',', ',']
      false (by decide) (by decide) (by decide)).1 (by decide)⟩

/-! ## C11 : leading spaces of a record line -/

/-- The body of the loop when the first `strtok` call returns a one-byte token. -/
theorem processLine_token (cfg : Config) (buffer bf z : List Char) (op : Char)
    (h : strtok (buffer.drop 1) [' '] = ⟨some [op], bf, z⟩) :
    ∃ w, ∀ st, processLine cfg buffer st =
      (buffer.take 1 ++ bf ++ w, lineEffect cfg op z st) := by
  have htok := strtok_token z [',']
  unfold lineEffect addrField
  simp only [processLine, h]
  by_cases hS : op = 'S'
  · subst hS
    by_cases hf : (z.dropWhile (isDelim [','])).takeWhile (inToken [',']) = []
    · rw [if_pos hf] at htok
      refine ⟨(strtok z [',']).before ++ (strtok z [',']).save, fun st => ?_⟩
      simp [htok, hf]
    · rw [if_neg hf] at htok
      refine ⟨(strtok z [',']).before ++ (strtok z [',']).save, fun st => ?_⟩
      simp [htok, hf, accessTwice]
  · by_cases hL : op = 'L'
    · subst hL
      by_cases hf : (z.dropWhile (isDelim [','])).takeWhile (inToken [',']) = []
      · rw [if_pos hf] at htok
        refine ⟨(strtok z [',']).before ++ (strtok z [',']).save, fun st => ?_⟩
        simp [htok, hf]
      · rw [if_neg hf] at htok
        refine ⟨(strtok z [',']).before ++ (strtok z [',']).save, fun st => ?_⟩
        simp [htok, hf, accessTwice]
    · by_cases hM : op = 'M'
      · subst hM
        by_cases hf : (z.dropWhile (isDelim [','])).takeWhile (inToken [',']) = []
        · rw [if_pos hf] at htok
          refine ⟨(strtok z [',']).before ++ (strtok z [',']).save, fun st => ?_⟩
          simp [htok, hf]
        · rw [if_neg hf] at htok
          refine ⟨(strtok z [',']).before ++ (strtok z [',']).save, fun st => ?_⟩
          simp [htok, hf, accessTwice]
      · refine ⟨z, fun st => ?_⟩
        simp [hS, hL, hM]

theorem isDelim_spaces (sk : List Char) (hsk : ∀ c ∈ sk, c = ' ') :
    ∀ c ∈ sk, isDelim [' '] c = true := by
  intro c hc
  rw [isDelim_space]
  simp [hsk c hc]

/-- The body of the loop on a buffer that holds one byte, any number of spaces, an
operation letter, a space and the bytes `z`: the first byte is skipped whatever it
is, and `strtok` skips the spaces. -/
theorem processLine_spaces_record (cfg : Config) (c0 : Char) (sk : List Char) (op : Char)
    (z : List Char) (hsk : ∀ c ∈ sk, c = ' ') (h1 : op ≠ ' ') (h2 : op ≠ NUL) :
    ∃ w, (∀ st, processLine cfg (c0 :: (sk ++ op :: ' ' :: z)) st =
        (c0 :: (sk ++ op :: NUL :: w), lineEffect cfg op z st)) ∧
      Benign cfg (c0 :: (sk ++ op :: NUL :: w)) := by
  have hop : inToken [' '] op = true := by
    rw [inToken_eq, isDelim_space]; simp [h1, h2]
  have ht := strtok_delim [' '] sk [op] ' ' z (isDelim_spaces sk hsk) (by simpa using hop)
    (by simp) (by rw [isDelim_space]; simp) (by decide)
  obtain ⟨w, hw⟩ := processLine_token cfg (c0 :: (sk ++ op :: ' ' :: z)) _ z op
    (by simpa using ht)
  refine ⟨w, fun st => ?_, ?_⟩
  · rw [hw st]; simp
  · intro st
    have hs := strtok_stale [' '] sk [op] w (isDelim_spaces sk hsk) (by simpa using hop)
      (by simp)
    have ht2 := (strtok_none [','] [] w (by simp) (by rw [isDelim_comma]; decide)).2
    simp only [List.nil_append] at ht2
    have hs' : strtok (sk ++ op :: NUL :: w) [' '] = ⟨some [op], sk ++ [op], NUL :: w⟩ := by
      simpa using hs
    simp only [processLine, List.drop_succ_cons, List.drop_zero, hs', List.take_succ_cons,
      List.take_zero, ht2]
    split <;> simp

/-- A chunk that holds, after its first byte, spaces and then neither space, `NUL` nor
a lone operation letter is skipped and left as it is. -/
theorem processLine_spaces_quiet (cfg : Config) (c0 : Char) (sk xs : List Char)
    (hsk : ∀ c ∈ sk, c = ' ') (h : ∀ c ∈ xs, Quiet c) : Benign cfg (c0 :: (sk ++ xs)) := by
  intro st
  cases xs with
  | nil =>
    have ht := (strtok_none [' '] sk [] (isDelim_spaces sk hsk)
      (by rw [isDelim_space]; decide)).1
    simp [processLine, ht]
  | cons x xs =>
    have ht := strtok_end [' '] sk (x :: xs) (isDelim_spaces sk hsk)
      (fun c hc => Quiet_inToken_space (h c hc)) (by simp)
    have hx := h x (List.mem_cons_self _ _)
    have hS : x :: xs ≠ ['S'] := fun hc => hx.2.2.1 (List.head_eq_of_cons_eq hc)
    have hL : x :: xs ≠ ['L'] := fun hc => hx.2.2.2.1 (List.head_eq_of_cons_eq hc)
    have hM : x :: xs ≠ ['M'] := fun hc => hx.2.2.2.2 (List.head_eq_of_cons_eq hc)
    simp [processLine, ht, hS, hL, hM]

/-- A file that consists of one line that fits the buffer, with or without its newline:
the body of the loop runs on it once, and once more on the buffer it leaves behind when
the newline is there. -/
theorem replayTrace_line (cfg : Config) (buffer : List Char) (st : Globals)
    (xs : List Char) (nl : Bool) (w : List Char) (g : Globals)
    (hx : ∀ c ∈ xs, c ≠ '\n') (hne : xs ≠ []) (hl : xs.length < 19)
    (hp : processLine cfg (xs ++ if nl then ['\n'] else []) st = (w, g))
    (hw : Benign cfg w) :
    replayTrace cfg buffer (xs ++ if nl then ['\n'] else []) st = some g := by
  unfold replayTrace
  cases nl with
  | true =>
    simp only [if_true] at hp ⊢
    have ef : (xs ++ ['\n']).length + 2 = (xs.length + 1) + 1 + 1 := by
      simp only [List.length_append, List.length_cons, List.length_nil]
    have e : xs ++ ['\n'] = xs ++ '\n' :: [] := rfl
    rw [ef, e, replayLoop_line cfg _ buffer _ [] st hx hl]
    rw [show xs ++ '\n' :: [] = xs ++ ['\n'] from rfl, hp,
      show xs.length + 1 + 1 = xs.length + 2 by omega, replayLoop_end, hw]
  | false =>
    simp only [Bool.false_eq_true, if_false, List.append_nil] at hp ⊢
    rw [replayLoop_last cfg _ buffer _ st hx hne hl, hp]

theorem indented_succ (r : Record) (j : Nat) (nl : Bool) :
    r.indented (j + 1) nl =
      (' ' :: (List.replicate j ' ' ++ r.op :: ' ' :: (r.addr ++ ',' :: r.len))) ++
        if nl then ['\n'] else [] := by
  simp [Record.indented, List.replicate_succ]

theorem indented_zero (r : Record) (nl : Bool) :
    r.indented 0 nl =
      (r.op :: ([' '] ++ (r.addr ++ ',' :: r.len))) ++ if nl then ['\n'] else [] := by
  simp [Record.indented]

/-- C11, counterexample: the line `L 10,4` without a leading space makes no access,
with or without its newline, while ` L 10,4` makes the access to `0x10`, a miss. -/
theorem C11_counterexample :
    replayTrace ⟨1, 1, 1, 2⟩ [] "L 10,4\n".toList (initCache ⟨1, 1, 1, 2⟩) =
        some (initCache ⟨1, 1, 1, 2⟩) ∧
      replayTrace ⟨1, 1, 1, 2⟩ [] "L 10,4".toList (initCache ⟨1, 1, 1, 2⟩) =
        some (initCache ⟨1, 1, 1, 2⟩) ∧
      replayTrace ⟨1, 1, 1, 2⟩ [] " L 10,4\n".toList (initCache ⟨1, 1, 1, 2⟩) =
        some (accessData ⟨1, 1, 1, 2⟩ 0x10 (initCache ⟨1, 1, 1, 2⟩)) ∧
      (accessData ⟨1, 1, 1, 2⟩ 0x10 (initCache ⟨1, 1, 1, 2⟩)).miss_count = 1 ∧
      (initCache ⟨1, 1, 1, 2⟩).miss_count = 0 := by
  decide

/-- C11, amended: let a trace consist of the line of one well-formed record behind `k`
spaces, short enough for the line buffer, with or without its newline.  With one or
more leading spaces the record is classified by its operation letter, however many
spaces there are: `S` and `L` make one access to the address, `M` makes two, any other
letter none.  With no leading space the record makes no access, whatever its letter:
`strtok` starts at the second byte of the line. -/
theorem C11_leading_spaces (cfg : Config) (buffer : List Char) (st : Globals) (r : Record)
    (k : Nat) (nl : Bool) (hr : r.WellFormed)
    (hfit : k + r.addr.length + r.len.length + 3 < 19) :
    (1 ≤ k → replayTrace cfg buffer (r.indented k nl) st =
        some (accessAll cfg (List.replicate r.accesses r.address) st)) ∧
      (k = 0 → replayTrace cfg buffer (r.indented k nl) st = some st) := by
  obtain ⟨hop1, hop2, hop3⟩ := isLetter_ne hr.1
  have hpl := payload_plain hr
  constructor
  · intro hk
    obtain ⟨j, rfl⟩ : ∃ j, k = j + 1 := ⟨k - 1, by omega⟩
    have hsk : ∀ c ∈ List.replicate j ' ', c = ' ' := fun c hc => (List.mem_replicate.mp hc).2
    rw [indented_succ]
    obtain ⟨w, hw, hben⟩ := processLine_spaces_record cfg ' ' (List.replicate j ' ') r.op
      ((r.addr ++ ',' :: r.len) ++ if nl then ['\n'] else []) hsk hop1 hop2
    have hz : addrField ((r.addr ++ ',' :: r.len) ++ if nl then ['\n'] else []) =
        r.addr.take 16 := by
      rw [List.append_assoc, List.cons_append, addrField_hex _ _ hr.2.1 hr.2.2.1,
        List.take_of_length_le (by omega)]
    refine replayTrace_line cfg buffer st _ nl _ _ ?_ (by simp) ?_ ?_ hben
    · intro c hc
      simp only [List.mem_cons, List.mem_append] at hc
      rcases hc with rfl | hc | rfl | rfl | hc
      · decide
      · rw [hsk c hc]; decide
      · exact hop3
      · decide
      · exact (hpl c (by simpa using hc)).2
    · simp only [List.length_cons, List.length_append, List.length_replicate]
      omega
    · have e : (' ' :: (List.replicate j ' ' ++ r.op :: ' ' :: (r.addr ++ ',' :: r.len))) ++
          (if nl then ['\n'] else []) =
          ' ' :: (List.replicate j ' ' ++ r.op :: ' ' ::
            ((r.addr ++ ',' :: r.len) ++ if nl then ['\n'] else [])) := by simp
      rw [e, hw st, lineEffect_record cfg r _ st hz hr.2.1]
  · intro hk
    subst hk
    rw [indented_zero]
    have hq : ∀ c ∈ (r.addr ++ ',' :: r.len) ++ (if nl then ['\n'] else []), Quiet c := by
      intro c hc
      rcases List.mem_append.mp hc with h | h
      · exact (hpl c h).1
      · cases nl
        · simp at h
        · simp only [if_true, List.mem_singleton] at h
          subst h
          refine ⟨?_, ?_, ?_, ?_, ?_⟩ <;> decide
    have hben := processLine_spaces_quiet cfg r.op [' ']
      ((r.addr ++ ',' :: r.len) ++ if nl then ['\n'] else []) (by simp) hq
    have e : (r.op :: ([' '] ++ (r.addr ++ ',' :: r.len))) ++ (if nl then ['\n'] else []) =
        r.op :: ([' '] ++ ((r.addr ++ ',' :: r.len) ++ if nl then ['\n'] else [])) := by simp
    refine replayTrace_line cfg buffer st _ nl _ _ ?_ (by simp) ?_ ?_ hben
    · intro c hc
      simp only [List.mem_cons, List.mem_append, List.not_mem_nil, or_false] at hc
      rcases hc with rfl | rfl | hc
      · exact hop3
      · decide
      · exact (hpl c (by simpa using hc)).2
    · simp only [List.length_cons, List.length_append, List.length_nil]
      omega
    · rw [e]; exact hben st

theorem C11_leading_spaces_witness :
    (⟨'L', ['1', '0'], ['4']⟩ : Record).WellFormed ∧
      3 + (⟨'L', ['1', '0'], ['4']⟩ : Record).addr.length +
        (⟨'L', ['1', '0'], ['4']⟩ : Record).len.length + 3 < 19 ∧
      (⟨'L', ['1', '0'], ['4']⟩ : Record).indented 3 true = "   L 10,4\n".toList ∧
      (⟨'L', ['1', '0'], ['4']⟩ : Record).accesses = 1 ∧
      (⟨'L', ['1', '0'], ['4']⟩ : Record).address = 0x10 ∧
      replayTrace ⟨1, 1, 1, 2⟩ [] ((⟨'L', ['1', '0'], ['4']⟩ : Record).indented 3 true)
          (initCache ⟨1, 1, 1, 2⟩) =
        some (accessAll ⟨1, 1, 1, 2⟩
          (List.replicate (⟨'L', ['1', '0'], ['4']⟩ : Record).accesses
            (⟨'L', ['1', '0'], ['4']⟩ : Record).address) (initCache ⟨1, 1, 1, 2⟩)) :=
  ⟨by decide, by decide, by decide, by decide, by decide,
    (C11_leading_spaces ⟨1, 1, 1, 2⟩ [] (initCache ⟨1, 1, 1, 2⟩) ⟨'L', ['1', '0'], ['4']⟩ 3 true
      (by decide) (by decide)).1 (by decide)⟩

/-! ## C12 : the test of the command line arguments -/

/-- C12, counterexample: with `s = -1`, or with all of `s`, `E`, `b` negative, and a
trace file given, `main` does not stop at the test of its arguments. -/
theorem C12_counterexample :
    missingArgument (-1) 1 1 (some ['t']) = false ∧
      missingArgument (-1) (-2) (-3) (some ['t']) = false := by
  decide

/-- C12, amended: the test in `main` rejects exactly the configurations in which one of
`s`, `E`, `b` is zero or the trace file is missing.  It accepts all others: those with
all three positive and a trace file given, and also those in which some of the three
are negative. -/
theorem C12_config_check (s E b : Int) (trace_file : Option (List Char)) :
    (missingArgument s E b trace_file = true ↔
        s = 0 ∨ E = 0 ∨ b = 0 ∨ trace_file = none) ∧
      (missingArgument s E b trace_file = false ↔
        (s < 0 ∨ 0 < s) ∧ (E < 0 ∨ 0 < E) ∧ (b < 0 ∨ 0 < b) ∧ trace_file.isSome = true) := by
  have hne : ∀ x : Int, (x < 0 ∨ 0 < x) ↔ x ≠ 0 := fun x => by omega
  constructor
  · cases trace_file <;> simp [missingArgument, or_assoc]
  · rw [hne, hne, hne]
    cases trace_file <;> simp [missingArgument, not_or, and_assoc]

/-! ## The one line that `accessData` writes -/

/-- The miss path of `accessData` in terms of the values of `page_to_insert` and
`is_found` at line 179. -/
theorem accessData_miss (cfg : Config) (addr : Nat) (st : Globals)
    (h : hitScan (curSet cfg st addr) (tagOf cfg addr) cfg.E = none) :
    accessData cfg addr st =
      if isFound cfg addr st = 1 then
        insertBlock (missCounted cfg addr st) (setIndexOf cfg addr) (pageToInsert cfg addr st)
          (tagOf cfg addr)
      else missCounted cfg addr st := by
  unfold curSet at h
  unfold isFound pageToInsert missCounted
  simp only [accessData, h]
  by_cases h2 : (compulsoryScan (st.cache.getD (setIndexOf cfg addr) []) cfg.E).2 = 0
  · simp only [if_pos h2]
  · simp only [if_neg h2, Nat.add_zero]

theorem pageToInsert_eq (cfg : Config) (addr : Nat) (st : Globals) :
    pageToInsert cfg addr st =
      if (compulsoryScan (curSet cfg st addr) cfg.E).2 = 0 then evictSlot (curSet cfg st addr) cfg.E
      else (compulsoryScan (curSet cfg st addr) cfg.E).1 := by
  unfold pageToInsert curSet evictSlot
  simp only
  split
  · rcases compulsoryScan_spec (st.cache.getD (setIndexOf cfg addr) []) cfg.E with
      ⟨_, h', _⟩ | ⟨h', _⟩
    · rw [h']
    · omega
  · rfl

/-- In every state a call of `accessData` either overwrites one line, with a valid line
that holds the tag of the address and the value of the counter, and increments the
counter, or leaves cache and counter as they are. -/
theorem accessData_write (cfg : Config) (addr : Nat) (st : Globals) :
    (∃ p, (p < cfg.E ∨ p = 0) ∧
        (accessData cfg addr st).cache = st.cache.set (setIndexOf cfg addr)
          ((st.cache.getD (setIndexOf cfg addr) []).set p
            ⟨tagOf cfg addr, 1, st.g_lru_counter % 2 ^ 32⟩) ∧
        (accessData cfg addr st).g_lru_counter = st.g_lru_counter + 1) ∨
      ((accessData cfg addr st).cache = st.cache ∧
        (accessData cfg addr st).g_lru_counter = st.g_lru_counter) := by
  cases h : hitScan (curSet cfg st addr) (tagOf cfg addr) cfg.E with
  | some i =>
    obtain ⟨hi, ht, hu, _⟩ := hitScan_some _ _ _ _ h
    left
    refine ⟨i, Or.inl hi, ?_, ?_⟩
    · rw [accessData_hit cfg addr st i h]
      have e : ({ lineAt (curSet cfg st addr) i with
          lru_counter := st.g_lru_counter % 2 ^ 32 } : cache_block_t) =
          ⟨tagOf cfg addr, 1, st.g_lru_counter % 2 ^ 32⟩ := by
        rw [← ht, ← hu]
      simp only [e]
      rfl
    · rw [accessData_hit cfg addr st i h]
  | none =>
    by_cases h2 : (compulsoryScan (curSet cfg st addr) cfg.E).2 = 0
    · by_cases h3 : (lineAt (curSet cfg st addr) (evictSlot (curSet cfg st addr) cfg.E)).used = 1
      · left
        refine ⟨evictSlot (curSet cfg st addr) cfg.E, ?_, ?_, ?_⟩
        · by_cases hE : 1 ≤ cfg.E
          · exact Or.inl (evictSlot_lt _ _ hE)
          · right
            have : cfg.E = 0 := by omega
            rw [this]
            simp [evictSlot, evictScan]
        · rw [accessData_evict cfg addr st h h2 h3]; rfl
        · rw [accessData_evict cfg addr st h h2 h3]; rfl
      · right
        rw [accessData_noinsert cfg addr st h h2 h3]
        exact ⟨rfl, rfl⟩
    · left
      refine ⟨(compulsoryScan (curSet cfg st addr) cfg.E).1, ?_, ?_, ?_⟩
      · rcases compulsoryScan_spec (curSet cfg st addr) cfg.E with ⟨h', _⟩ | ⟨_, h', _⟩
        · exact absurd h' h2
        · exact Or.inl h'
      · rw [accessData_fill cfg addr st h h2]; rfl
      · rw [accessData_fill cfg addr st h h2]; rfl

/-- With at least one line per set and the invariant, every call increments the
counter. -/
theorem accessData_g_succ (cfg : Config) (hE : 1 ≤ cfg.E) (st : Globals) (hI : Inv cfg st)
    (addr : Nat) : (accessData cfg addr st).g_lru_counter = st.g_lru_counter + 1 := by
  cases h : hitScan (curSet cfg st addr) (tagOf cfg addr) cfg.E with
  | some i => rw [accessData_hit cfg addr st i h]
  | none =>
    by_cases h2 : (compulsoryScan (curSet cfg st addr) cfg.E).2 = 0
    · have h3 : (lineAt (curSet cfg st addr) (evictSlot (curSet cfg st addr) cfg.E)).used = 1 :=
        full_of_scan cfg st hI addr h2 _ (evictSlot_lt _ _ hE)
      rw [accessData_evict cfg addr st h h2 h3]; rfl
    · rw [accessData_fill cfg addr st h h2]; rfl

/-- With at least one line per set and the invariant, every call overwrites one line. -/
theorem accessData_cache (cfg : Config) (hE : 1 ≤ cfg.E) (st : Globals) (hI : Inv cfg st)
    (addr : Nat) :
    ∃ p, p < cfg.E ∧
      (accessData cfg addr st).cache = st.cache.set (setIndexOf cfg addr)
        ((st.cache.getD (setIndexOf cfg addr) []).set p
          ⟨tagOf cfg addr, 1, st.g_lru_counter % 2 ^ 32⟩) := by
  rcases accessData_write cfg addr st with ⟨p, hp, hc, _⟩ | ⟨_, hg⟩
  · exact ⟨p, by omega, hc⟩
  · rw [accessData_g_succ cfg hE st hI addr] at hg
    omega

/-! ## The recency invariant -/

theorem RecInv_initCache (cfg : Config) : RecInv (initCache cfg) where
  lru_lt := by
    intro k i h
    rw [lineAt_initCache] at h
    exact absurd h (by decide)
  lru_distinct := by
    intro k i k' i' _ h
    rw [lineAt_initCache] at h
    exact absurd h (by decide)

/-- While the counter is below `2 ^ 32`, a call of `accessData` keeps the recency
invariant: the line it writes carries the old value of the counter, which is above the
recency of every valid line. -/
theorem RecInv_accessData (cfg : Config) (addr : Nat) (st : Globals) (hR : RecInv st)
    (hg : st.g_lru_counter < 2 ^ 32) : RecInv (accessData cfg addr st) := by
  rcases accessData_write cfg addr st with ⟨p, _, hc, hg'⟩ | ⟨hc, hg'⟩
  · have hmod : st.g_lru_counter % 2 ^ 32 = st.g_lru_counter := Nat.mod_eq_of_lt hg
    rw [hmod] at hc
    constructor
    · intro k i h
      rw [hc, lineAt_update] at h ⊢
      rw [hg']
      split
      · exact Nat.lt_succ_self _
      · rename_i hn
        rw [if_neg hn] at h
        exact Nat.lt_succ_of_lt (hR.lru_lt k i h)
    · intro k i k' i' hne h1 h2
      rw [hc, lineAt_update] at h1 h2 ⊢
      rw [lineAt_update]
      by_cases c1 : (setIndexOf cfg addr = k ∧ setIndexOf cfg addr < st.cache.length) ∧
          (p = i ∧ p < (st.cache.getD (setIndexOf cfg addr) []).length)
      · by_cases c2 : (setIndexOf cfg addr = k' ∧ setIndexOf cfg addr < st.cache.length) ∧
            (p = i' ∧ p < (st.cache.getD (setIndexOf cfg addr) []).length)
        · exfalso
          rcases hne with hk | hi
          · exact hk (c1.1.1.symm.trans c2.1.1)
          · exact hi (c1.2.1.symm.trans c2.2.1)
        · rw [if_pos c1, if_neg c2]
          rw [if_neg c2] at h2
          exact Nat.ne_of_gt (hR.lru_lt k' i' h2)
      · by_cases c2 : (setIndexOf cfg addr = k' ∧ setIndexOf cfg addr < st.cache.length) ∧
            (p = i' ∧ p < (st.cache.getD (setIndexOf cfg addr) []).length)
        · rw [if_neg c1, if_pos c2]
          rw [if_neg c1] at h1
          exact Nat.ne_of_lt (hR.lru_lt k i h1)
        · rw [if_neg c1, if_neg c2]
          rw [if_neg c1] at h1
          rw [if_neg c2] at h2
          exact hR.lru_distinct k i k' i' hne h1 h2
  · constructor
    · intro k i h
      rw [hc] at h ⊢
      rw [hg']
      exact hR.lru_lt k i h
    · intro k i k' i' hne h1 h2
      rw [hc] at h1 h2 ⊢
      exact hR.lru_distinct k i k' i' hne h1 h2

theorem accessAll_g_le (cfg : Config) (addrs : List Nat) : ∀ st,
    (accessAll cfg addrs st).g_lru_counter ≤ st.g_lru_counter + addrs.length := by
  induction addrs with
  | nil => intro st; exact le_refl _
  | cons a as ih =>
    intro st
    rw [accessAll_cons, List.length_cons]
    have h1 := ih (accessData cfg a st)
    rcases accessData_g cfg a st with h | h <;> omega

theorem RecInv_accessAll (cfg : Config) (addrs : List Nat) : ∀ st, RecInv st →
    st.g_lru_counter + addrs.length ≤ 2 ^ 32 → RecInv (accessAll cfg addrs st) := by
  induction addrs with
  | nil => intro st h _; exact h
  | cons a as ih =>
    intro st hR hlen
    rw [List.length_cons] at hlen
    rw [accessAll_cons]
    apply ih _ (RecInv_accessData cfg a st hR (by omega))
    rcases accessData_g cfg a st with h | h <;> omega

theorem run_g_le (cfg : Config) (addrs : List Nat) :
    (run cfg addrs).g_lru_counter ≤ addrs.length := by
  have := accessAll_g_le cfg addrs (initCache cfg)
  simpa [run, initCache] using this

theorem RecInv_run (cfg : Config) (addrs : List Nat) (h : addrs.length ≤ 2 ^ 32) :
    RecInv (run cfg addrs) :=
  RecInv_accessAll cfg addrs _ (RecInv_initCache cfg) (by simpa [initCache] using h)

/-- With at least one line per set, the counter counts the calls of `accessData`. -/
theorem run_g (cfg : Config) (hE : 1 ≤ cfg.E) (addrs : List Nat) :
    (run cfg addrs).g_lru_counter = addrs.length := by
  have key : ∀ (as : List Nat) (st : Globals), Inv cfg st →
      (accessAll cfg as st).g_lru_counter = st.g_lru_counter + as.length := by
    intro as
    induction as with
    | nil => intro st _; rfl
    | cons a as ih =>
      intro st hI
      rw [accessAll_cons, ih _ (Inv_accessData cfg a st hI), accessData_g_succ cfg hE st hI a,
        List.length_cons]
      omega
  have := key addrs (initCache cfg) (Inv_initCache cfg)
  simpa [run, initCache] using this

/-! ## C13 : a slot is always found -/

/-- C13: in every state reached from `initCache` in a valid configuration (`E >= 1`,
`S = 2 ^ s` as `main` computes it for `s <= 30`; the counter inside the range of `int`)
and for every address, the slot that the miss path selects is below `E`; on a miss
`is_found` is `1` at line 179, so the insert step is taken; and after the call some
slot of the set of the address holds a valid line with the tag of the address whose
recency is strictly above that of every other valid line of the cache. -/
theorem C13_slot_always_found (cfg : Config) (hv : cfg.Valid) (addrs : List Nat) (a : Nat)
    (hlen : addrs.length + 1 < 2 ^ 31) :
    pageToInsert cfg a (run cfg addrs) < cfg.E ∧
      (¬ resident cfg (run cfg addrs) a →
        isFound cfg a (run cfg addrs) = 1 ∧
        accessData cfg a (run cfg addrs) =
          insertBlock (missCounted cfg a (run cfg addrs)) (setIndexOf cfg a)
            (pageToInsert cfg a (run cfg addrs)) (tagOf cfg a)) ∧
      ∃ p, p < cfg.E ∧
        (lineAt (curSet cfg (accessData cfg a (run cfg addrs)) a) p).tag = tagOf cfg a ∧
        (lineAt (curSet cfg (accessData cfg a (run cfg addrs)) a) p).used = 1 ∧
        ∀ k i, (k ≠ setIndexOf cfg a ∨ i ≠ p) →
          (lineAt ((accessData cfg a (run cfg addrs)).cache.getD k []) i).used = 1 →
          (lineAt ((accessData cfg a (run cfg addrs)).cache.getD k []) i).lru_counter <
            (lineAt (curSet cfg (accessData cfg a (run cfg addrs)) a) p).lru_counter := by
  have hI := Inv_run cfg addrs
  have hR := RecInv_run cfg addrs (by omega)
  have hg : (run cfg addrs).g_lru_counter < 2 ^ 32 := by
    have := run_g_le cfg addrs
    omega
  have hfound : (compulsoryScan (curSet cfg (run cfg addrs) a) cfg.E).2 = 0 →
      (lineAt (curSet cfg (run cfg addrs) a)
        (evictSlot (curSet cfg (run cfg addrs) a) cfg.E)).used = 1 :=
    fun h2 => full_of_scan cfg _ hI a h2 _ (evictSlot_lt _ _ hv.1)
  refine ⟨?_, ?_, ?_⟩
  · rw [pageToInsert_eq]
    split
    · exact evictSlot_lt _ _ hv.1
    · rename_i h2
      rcases compulsoryScan_spec (curSet cfg (run cfg addrs) a) cfg.E with ⟨h', _⟩ | ⟨_, h', _⟩
      · exact absurd h' h2
      · exact h'
  · intro hnr
    rw [not_resident_iff_hitScan] at hnr
    have hf : isFound cfg a (run cfg addrs) = 1 := by
      have hp := pageToInsert_eq cfg a (run cfg addrs)
      unfold isFound
      simp only
      by_cases h2 : (compulsoryScan (curSet cfg (run cfg addrs) a) cfg.E).2 = 0
      · have h2' := h2
        unfold curSet at h2'
        rw [if_pos h2] at hp
        have h3 := hfound h2
        rw [← hp] at h3
        unfold curSet at h3
        rw [if_pos h2', if_pos h3]
      · have h2' := h2
        unfold curSet at h2'
        rw [if_neg h2']
        rcases compulsoryScan_spec (curSet cfg (run cfg addrs) a) cfg.E with ⟨h', _⟩ | ⟨h', _⟩
        · exact absurd h' h2
        · exact h'
    refine ⟨hf, ?_⟩
    rw [accessData_miss cfg a _ hnr, if_pos hf]
  · obtain ⟨p, hp, hc⟩ := accessData_cache cfg hv.1 _ hI a
    have hidx : setIndexOf cfg a < (run cfg addrs).cache.length := by
      rw [hI.length_cache]; exact setIndexOf_lt cfg hv a
    have hl : ((run cfg addrs).cache.getD (setIndexOf cfg a) []).length = cfg.E :=
      curSet_length cfg hv _ hI a
    have hline : lineAt (curSet cfg (accessData cfg a (run cfg addrs)) a) p =
        ⟨tagOf cfg a, 1, (run cfg addrs).g_lru_counter % 2 ^ 32⟩ := by
      unfold curSet
      rw [hc, lineAt_update, if_pos ⟨⟨rfl, hidx⟩, rfl, by rw [hl]; exact hp⟩]
    refine ⟨p, hp, ?_, ?_, ?_⟩
    · rw [hline]
    · rw [hline]
    · intro k i hne hu
      rw [hline, Nat.mod_eq_of_lt hg]
      rw [hc, lineAt_update] at hu ⊢
      have hn : ¬ ((setIndexOf cfg a = k ∧ setIndexOf cfg a < (run cfg addrs).cache.length) ∧
          (p = i ∧ p < ((run cfg addrs).cache.getD (setIndexOf cfg a) []).length)) := by
        rintro ⟨⟨h1, _⟩, h2, _⟩
        rcases hne with h | h
        · exact h h1.symm
        · exact h h2.symm
      rw [if_neg hn] at hu ⊢
      exact hR.lru_lt k i hu

theorem C13_slot_always_found_witness :
    (⟨1, 1, 2, 2⟩ : Config).Valid ∧ [0, 4].length + 1 < 2 ^ 31 ∧
      ¬ resident ⟨1, 1, 2, 2⟩ (run ⟨1, 1, 2, 2⟩ [0, 4]) 8 ∧
      pageToInsert ⟨1, 1, 2, 2⟩ 8 (run ⟨1, 1, 2, 2⟩ [0, 4]) < 2 ∧
      isFound ⟨1, 1, 2, 2⟩ 8 (run ⟨1, 1, 2, 2⟩ [0, 4]) = 1 :=
  ⟨by decide, by decide, by decide,
    (C13_slot_always_found ⟨1, 1, 2, 2⟩ (by decide) [0, 4] 8 (by decide)).1,
    ((C13_slot_always_found ⟨1, 1, 2, 2⟩ (by decide) [0, 4] 8 (by decide)).2.1
      (by decide)).1⟩

/-! ## Valid lines are inside the arrays -/

theorem used_in_bounds (cache : List (List cache_block_t)) (k i : Nat)
    (h : (lineAt (cache.getD k []) i).used = 1) :
    k < cache.length ∧ i < (cache.getD k []).length := by
  have hi : i < (cache.getD k []).length := by
    by_contra hc
    rw [lineAt_of_le _ i (by omega)] at h
    exact absurd h (by decide)
  refine ⟨?_, hi⟩
  by_contra hc
  have : cache.getD k [] = [] := by
    rw [List.getD_eq_getElem?_getD, List.getElem?_eq_none (by omega)]
    rfl
  rw [this] at hi
  exact absurd hi (by simp)

/-! ## C15 : a hit is a recency bump -/

/-- C15: when the block of the address is resident, `accessData` increments `hit_count`
by one and leaves `miss_count` and `eviction_count` as they are; the first matching
line of the set gets the old value of the global counter as its recency (stored in an
`unsigned int`), and the counter is incremented by one; tag and valid flag of every
line of every set are unchanged, every other line is unchanged altogether, and the
arrays keep their sizes. -/
theorem C15_hit_is_recency_bump (cfg : Config) (a : Nat) (st : Globals)
    (h : resident cfg st a) :
    ∃ i, i < cfg.E ∧
      ((lineAt (curSet cfg st a) i).tag = tagOf cfg a ∧ (lineAt (curSet cfg st a) i).used = 1) ∧
      (∀ j, j < i →
        ¬ ((lineAt (curSet cfg st a) j).tag = tagOf cfg a ∧
          (lineAt (curSet cfg st a) j).used = 1)) ∧
      (accessData cfg a st).hit_count = st.hit_count + 1 ∧
      (accessData cfg a st).miss_count = st.miss_count ∧
      (accessData cfg a st).eviction_count = st.eviction_count ∧
      (accessData cfg a st).g_lru_counter = st.g_lru_counter + 1 ∧
      (lineAt (curSet cfg (accessData cfg a st) a) i).lru_counter = st.g_lru_counter % 2 ^ 32 ∧
      (st.g_lru_counter < 2 ^ 32 →
        (lineAt (curSet cfg (accessData cfg a st) a) i).lru_counter = st.g_lru_counter) ∧
      (∀ k j, (lineAt ((accessData cfg a st).cache.getD k []) j).tag =
          (lineAt (st.cache.getD k []) j).tag ∧
        (lineAt ((accessData cfg a st).cache.getD k []) j).used =
          (lineAt (st.cache.getD k []) j).used) ∧
      (∀ k j, (k ≠ setIndexOf cfg a ∨ j ≠ i) →
        lineAt ((accessData cfg a st).cache.getD k []) j = lineAt (st.cache.getD k []) j) ∧
      (accessData cfg a st).cache.length = st.cache.length ∧
      ∀ k, ((accessData cfg a st).cache.getD k []).length = (st.cache.getD k []).length := by
  rw [resident_iff_hitScan] at h
  obtain ⟨i, hi⟩ := Option.isSome_iff_exists.mp h
  obtain ⟨hiE, ht, hu, hmin⟩ := hitScan_some _ _ _ _ hi
  have hb := used_in_bounds st.cache (setIndexOf cfg a) i hu
  have hst := accessData_hit cfg a st i hi
  have hc : (accessData cfg a st).cache = st.cache.set (setIndexOf cfg a)
      ((st.cache.getD (setIndexOf cfg a) []).set i
        { lineAt (curSet cfg st a) i with lru_counter := st.g_lru_counter % 2 ^ 32 }) := by
    rw [hst]; rfl
  have hline : lineAt (curSet cfg (accessData cfg a st) a) i =
      { lineAt (curSet cfg st a) i with lru_counter := st.g_lru_counter % 2 ^ 32 } := by
    unfold curSet
    rw [hc, lineAt_update, if_pos ⟨⟨rfl, hb.1⟩, rfl, hb.2⟩]
    rfl
  refine ⟨i, hiE, ⟨ht, hu⟩, hmin, by rw [hst], by rw [hst], by rw [hst], by rw [hst],
    by rw [hline], ?_, ?_, ?_, ?_, ?_⟩
  · intro hg
    rw [hline]
    exact Nat.mod_eq_of_lt hg
  · intro k j
    rw [hc, lineAt_update]
    split
    · rename_i hcond
      obtain ⟨⟨rfl, _⟩, rfl, _⟩ := hcond
      exact ⟨rfl, rfl⟩
    · exact ⟨rfl, rfl⟩
  · intro k j hne
    rw [hc, lineAt_update, if_neg]
    rintro ⟨⟨h1, _⟩, h2, _⟩
    rcases hne with hk | hj
    · exact hk h1.symm
    · exact hj h2.symm
  · rw [hc, List.length_set]
  · intro k
    rw [hc, length_update]

theorem C15_hit_is_recency_bump_witness :
    resident ⟨1, 1, 2, 2⟩ (run ⟨1, 1, 2, 2⟩ [0, 4]) 0 ∧
      ∃ i, i < 2 ∧
        (accessData ⟨1, 1, 2, 2⟩ 0 (run ⟨1, 1, 2, 2⟩ [0, 4])).hit_count =
          (run ⟨1, 1, 2, 2⟩ [0, 4]).hit_count + 1 ∧
        (lineAt (curSet ⟨1, 1, 2, 2⟩ (accessData ⟨1, 1, 2, 2⟩ 0 (run ⟨1, 1, 2, 2⟩ [0, 4])) 0)
          i).lru_counter = (run ⟨1, 1, 2, 2⟩ [0, 4]).g_lru_counter % 2 ^ 32 :=
  ⟨by decide, by
    obtain ⟨i, h1, _, _, h2, _, _, _, h3, _⟩ :=
      C15_hit_is_recency_bump ⟨1, 1, 2, 2⟩ 0 (run ⟨1, 1, 2, 2⟩ [0, 4]) (by decide)
    exact ⟨i, h1, h2, h3⟩⟩

/-! ## C16 : a miss in a set with an unused line -/

/-- C16: in a state reached from `initCache` (valid configuration), an access that
misses in a set with a line that is not valid fills the unused slot of lowest index:
all slots below it are valid, it receives the tag of the address, the valid flag and the
value of the counter; `miss_count` grows by one, `eviction_count` and `hit_count` stay;
every other line of the cache is unchanged, in particular every line that was valid, so
every block that was resident remains resident. -/
theorem C16_fill_lowest_invalid (cfg : Config) (hv : cfg.Valid) (addrs : List Nat) (a : Nat)
    (hnr : ¬ resident cfg (run cfg addrs) a) (hnf : ¬ setFull cfg (run cfg addrs) a) :
    ∃ p, p < cfg.E ∧
      (lineAt (curSet cfg (run cfg addrs) a) p).used = 0 ∧
      (∀ j, j < p → (lineAt (curSet cfg (run cfg addrs) a) j).used = 1) ∧
      lineAt (curSet cfg (accessData cfg a (run cfg addrs)) a) p =
        ⟨tagOf cfg a, 1, (run cfg addrs).g_lru_counter % 2 ^ 32⟩ ∧
      (accessData cfg a (run cfg addrs)).miss_count = (run cfg addrs).miss_count + 1 ∧
      (accessData cfg a (run cfg addrs)).eviction_count = (run cfg addrs).eviction_count ∧
      (accessData cfg a (run cfg addrs)).hit_count = (run cfg addrs).hit_count ∧
      (∀ k j, (k ≠ setIndexOf cfg a ∨ j ≠ p) →
        lineAt ((accessData cfg a (run cfg addrs)).cache.getD k []) j =
          lineAt ((run cfg addrs).cache.getD k []) j) ∧
      (∀ k j, (lineAt ((run cfg addrs).cache.getD k []) j).used = 1 →
        lineAt ((accessData cfg a (run cfg addrs)).cache.getD k []) j =
          lineAt ((run cfg addrs).cache.getD k []) j) ∧
      ∀ a', resident cfg (run cfg addrs) a' →
        resident cfg (accessData cfg a (run cfg addrs)) a' := by
  have hI := Inv_run cfg addrs
  have hh := (not_resident_iff_hitScan cfg _ a).mp hnr
  have h2 : (compulsoryScan (curSet cfg (run cfg addrs) a) cfg.E).2 ≠ 0 :=
    fun hc => hnf (full_of_scan cfg _ hI a hc)
  have hst := accessData_fill cfg a _ hh h2
  have hidx : setIndexOf cfg a < (run cfg addrs).cache.length := by
    rw [hI.length_cache]; exact setIndexOf_lt cfg hv a
  have hl : ((run cfg addrs).cache.getD (setIndexOf cfg a) []).length = cfg.E :=
    curSet_length cfg hv _ hI a
  rcases compulsoryScan_spec (curSet cfg (run cfg addrs) a) cfg.E with
    ⟨h', _⟩ | ⟨_, hp, hu, hlow⟩
  · exact absurd h' h2
  · have hc : (accessData cfg a (run cfg addrs)).cache =
        (run cfg addrs).cache.set (setIndexOf cfg a)
          (((run cfg addrs).cache.getD (setIndexOf cfg a) []).set
            (compulsoryScan (curSet cfg (run cfg addrs) a) cfg.E).1
            ⟨tagOf cfg a, 1, (run cfg addrs).g_lru_counter % 2 ^ 32⟩) := by
      rw [hst]; rfl
    have hother : ∀ k j,
        (k ≠ setIndexOf cfg a ∨ j ≠ (compulsoryScan (curSet cfg (run cfg addrs) a) cfg.E).1) →
        lineAt ((accessData cfg a (run cfg addrs)).cache.getD k []) j =
          lineAt ((run cfg addrs).cache.getD k []) j := by
      intro k j hne
      rw [hc, lineAt_update, if_neg]
      rintro ⟨⟨h1, _⟩, h2, _⟩
      rcases hne with hk | hj
      · exact hk h1.symm
      · exact hj h2.symm
    have hvalid : ∀ k j, (lineAt ((run cfg addrs).cache.getD k []) j).used = 1 →
        lineAt ((accessData cfg a (run cfg addrs)).cache.getD k []) j =
          lineAt ((run cfg addrs).cache.getD k []) j := by
      intro k j hused
      apply hother
      by_contra hcon
      simp only [not_or, not_not] at hcon
      obtain ⟨rfl, rfl⟩ := hcon
      unfold curSet at hu hused
      omega
    refine ⟨_, hp, hu, ?_, ?_, by rw [hst]; rfl, by rw [hst]; rfl, by rw [hst]; rfl,
      hother, hvalid, ?_⟩
    · intro j hj
      rcases hI.used01 (setIndexOf cfg a) j with h0 | h1
      · exact absurd h0 (hlow j hj)
      · exact h1
    · unfold curSet
      rw [hc, lineAt_update, if_pos ⟨⟨rfl, hidx⟩, rfl, by rw [hl]; exact hp⟩]
    · rintro a' ⟨i, hi, ht, hused⟩
      refine ⟨i, hi, ?_, ?_⟩
      · unfold curSet at ht hused ⊢
        rw [hvalid _ _ hused]; exact ht
      · unfold curSet at hused ⊢
        rw [hvalid _ _ hused]; exact hused

theorem C16_fill_lowest_invalid_witness :
    (⟨1, 1, 2, 2⟩ : Config).Valid ∧
      ¬ resident ⟨1, 1, 2, 2⟩ (run ⟨1, 1, 2, 2⟩ [0]) 4 ∧
      ¬ setFull ⟨1, 1, 2, 2⟩ (run ⟨1, 1, 2, 2⟩ [0]) 4 ∧
      ∃ p, p < 2 ∧
        (lineAt (curSet ⟨1, 1, 2, 2⟩ (run ⟨1, 1, 2, 2⟩ [0]) 4) p).used = 0 ∧
        (accessData ⟨1, 1, 2, 2⟩ 4 (run ⟨1, 1, 2, 2⟩ [0])).miss_count =
          (run ⟨1, 1, 2, 2⟩ [0]).miss_count + 1 ∧
        (accessData ⟨1, 1, 2, 2⟩ 4 (run ⟨1, 1, 2, 2⟩ [0])).eviction_count =
          (run ⟨1, 1, 2, 2⟩ [0]).eviction_count :=
  ⟨by decide, by decide, by decide, by
    obtain ⟨p, h1, h2, _, _, h3, h4, _⟩ :=
      C16_fill_lowest_invalid ⟨1, 1, 2, 2⟩ (by decide) [0] 4 (by decide) (by decide)
    exact ⟨p, h1, h2, h3, h4⟩⟩

/-! ## Counting valid lines -/

theorem countP_set_le {α : Type} (q : α → Bool) (x : α) (hx : q x = true) :
    ∀ (l : List α) (i : Nat), l.countP q ≤ (l.set i x).countP q := by
  intro l
  induction l with
  | nil => intro i; simp
  | cons y ys ih =>
    intro i
    cases i with
    | zero =>
      rw [List.set_cons_zero, List.countP_cons, List.countP_cons, hx]
      simp only [if_true]
      split <;> omega
    | succ i =>
      rw [List.set_cons_succ, List.countP_cons, List.countP_cons]
      have := ih i
      omega

theorem validLines_set_le (cs : List cache_block_t) (p : Nat) (x : cache_block_t)
    (hx : x.used = 1) : validLines cs ≤ validLines (cs.set p x) :=
  countP_set_le _ x (by simp [hx]) cs p

/-- In every state, a line that is valid before a call of `accessData` is valid after
it. -/
theorem used_accessData (cfg : Config) (a : Nat) (st : Globals) (k j : Nat)
    (h : (lineAt (st.cache.getD k []) j).used = 1) :
    (lineAt ((accessData cfg a st).cache.getD k []) j).used = 1 := by
  rcases accessData_write cfg a st with ⟨p, _, hc, _⟩ | ⟨hc, _⟩
  · rw [hc, lineAt_update]
    split
    · rfl
    · exact h
  · rw [hc]; exact h

/-- In every state, a call of `accessData` does not decrease the number of valid lines
of any set. -/
theorem validLines_accessData (cfg : Config) (a : Nat) (st : Globals) (k : Nat) :
    validLines (st.cache.getD k []) ≤ validLines ((accessData cfg a st).cache.getD k []) := by
  rcases accessData_write cfg a st with ⟨p, _, hc, _⟩ | ⟨hc, _⟩
  · rw [hc, getD_set_ite]
    split
    · rename_i hk
      rw [← hk.1]
      exact validLines_set_le _ _ _ rfl
    · exact le_refl _
  · rw [hc]

/-! ## C17 : validity is monotone -/

/-- C17: for every cache state and every address, a line that is valid before
`accessData` is valid after it, and so it is after any sequence of calls; the number
of valid lines of each set does not decrease, in one call and along any sequence of
calls. -/
theorem C17_validity_monotone (cfg : Config) (addrs : List Nat) (st : Globals) :
    (∀ a k j, (lineAt (st.cache.getD k []) j).used = 1 →
        (lineAt ((accessData cfg a st).cache.getD k []) j).used = 1) ∧
      (∀ k j, (lineAt (st.cache.getD k []) j).used = 1 →
        (lineAt ((accessAll cfg addrs st).cache.getD k []) j).used = 1) ∧
      (∀ a k, validLines (st.cache.getD k []) ≤
        validLines ((accessData cfg a st).cache.getD k [])) ∧
      ∀ k, validLines (st.cache.getD k []) ≤
        validLines ((accessAll cfg addrs st).cache.getD k []) := by
  refine ⟨fun a k j h => used_accessData cfg a st k j h, ?_,
    fun a k => validLines_accessData cfg a st k, ?_⟩
  · intro k j
    induction addrs generalizing st with
    | nil => intro h; exact h
    | cons a as ih =>
      intro h
      rw [accessAll_cons]
      exact ih _ (used_accessData cfg a st k j h)
  · intro k
    induction addrs generalizing st with
    | nil => exact le_refl _
    | cons a as ih =>
      rw [accessAll_cons]
      exact le_trans (validLines_accessData cfg a st k) (ih _)

theorem C17_validity_monotone_witness :
    (lineAt ((run ⟨1, 1, 2, 2⟩ [0]).cache.getD 0 []) 0).used = 1 ∧
      (lineAt ((accessAll ⟨1, 1, 2, 2⟩ [4, 8, 12] (run ⟨1, 1, 2, 2⟩ [0])).cache.getD 0 [])
        0).used = 1 ∧
      validLines ((run ⟨1, 1, 2, 2⟩ [0]).cache.getD 0 []) ≤
        validLines ((accessAll ⟨1, 1, 2, 2⟩ [4, 8, 12] (run ⟨1, 1, 2, 2⟩ [0])).cache.getD 0 []) :=
  ⟨by decide,
    (C17_validity_monotone ⟨1, 1, 2, 2⟩ [4, 8, 12] (run ⟨1, 1, 2, 2⟩ [0])).2.1 0 0 (by decide),
    (C17_validity_monotone ⟨1, 1, 2, 2⟩ [4, 8, 12] (run ⟨1, 1, 2, 2⟩ [0])).2.2.2 0⟩

/-! ## C18 : the global recency counter -/

/-- C18: the counter `g_lru_counter` is `0` after `initCache`; no call of `accessData`
decreases it, in any state; with `E >= 1` every call in a state reached from
`initCache` increments it by exactly one, so that it counts the calls.  While fewer
than `2 ^ 31` calls have been made, every valid line of the cache carries a recency
strictly below the counter, and no two valid lines of the whole cache carry the same
recency: there is no tie for the minimum. -/
theorem C18_recency_counter (cfg : Config) (hE : 1 ≤ cfg.E) (addrs : List Nat) :
    (initCache cfg).g_lru_counter = 0 ∧
      (∀ a st, st.g_lru_counter ≤ (accessData cfg a st).g_lru_counter) ∧
      (∀ a, (accessData cfg a (run cfg addrs)).g_lru_counter =
        (run cfg addrs).g_lru_counter + 1) ∧
      (run cfg addrs).g_lru_counter = addrs.length ∧
      (addrs.length < 2 ^ 31 →
        (∀ k i, (lineAt ((run cfg addrs).cache.getD k []) i).used = 1 →
          (lineAt ((run cfg addrs).cache.getD k []) i).lru_counter <
            (run cfg addrs).g_lru_counter) ∧
        ∀ k i k' i', (k ≠ k' ∨ i ≠ i') →
          (lineAt ((run cfg addrs).cache.getD k []) i).used = 1 →
          (lineAt ((run cfg addrs).cache.getD k' []) i').used = 1 →
          (lineAt ((run cfg addrs).cache.getD k []) i).lru_counter ≠
            (lineAt ((run cfg addrs).cache.getD k' []) i').lru_counter) := by
  refine ⟨rfl, ?_, fun a => accessData_g_succ cfg hE _ (Inv_run cfg addrs) a,
    run_g cfg hE addrs, ?_⟩
  · intro a st
    rcases accessData_g cfg a st with h | h <;> omega
  · intro hlen
    have hR := RecInv_run cfg addrs (by omega)
    exact ⟨hR.lru_lt, hR.lru_distinct⟩

theorem C18_recency_counter_witness :
    1 ≤ (⟨1, 1, 2, 2⟩ : Config).E ∧
      (run ⟨1, 1, 2, 2⟩ [0, 4, 2, 0, 8]).g_lru_counter = [0, 4, 2, 0, 8].length ∧
      (lineAt ((run ⟨1, 1, 2, 2⟩ [0, 4, 2, 0, 8]).cache.getD 0 []) 0).lru_counter ≠
        (lineAt ((run ⟨1, 1, 2, 2⟩ [0, 4, 2, 0, 8]).cache.getD 1 []) 0).lru_counter :=
  ⟨by decide, (C18_recency_counter ⟨1, 1, 2, 2⟩ (by decide) [0, 4, 2, 0, 8]).2.2.2.1,
    ((C18_recency_counter ⟨1, 1, 2, 2⟩ (by decide) [0, 4, 2, 0, 8]).2.2.2.2 (by decide)).2
      0 0 1 0 (by decide) (by decide) (by decide)⟩

/-! ## The number of valid lines of the cache -/

theorem countP_set_eq {α : Type} (q : α → Bool) (x d : α) :
    ∀ (l : List α) (i : Nat), i < l.length →
      (l.set i x).countP q + (if q (l.getD i d) = true then 1 else 0) =
        l.countP q + (if q x = true then 1 else 0) := by
  intro l
  induction l with
  | nil => intro i h; simp at h
  | cons y ys ih =>
    intro i h
    cases i with
    | zero =>
      rw [List.set_cons_zero, List.countP_cons, List.countP_cons]
      simp only [List.getD_cons_zero]
      omega
    | succ i =>
      rw [List.set_cons_succ, List.countP_cons, List.countP_cons]
      simp only [List.getD_cons_succ]
      have := ih i (by simpa using h)
      omega

theorem sum_map_set {α : Type} (f : α → Nat) (y d : α) :
    ∀ (l : List α) (i : Nat), i < l.length →
      ((l.set i y).map f).sum + f (l.getD i d) = (l.map f).sum + f y := by
  intro l
  induction l with
  | nil => intro i h; simp at h
  | cons z zs ih =>
    intro i h
    cases i with
    | zero =>
      simp only [List.set_cons_zero, List.map_cons, List.sum_cons, List.getD_cons_zero]
      omega
    | succ i =>
      simp only [List.set_cons_succ, List.map_cons, List.sum_cons, List.getD_cons_succ]
      have := ih i (by simpa using h)
      omega

theorem le_sum_map {α : Type} (f : α → Nat) (x : α) :
    ∀ (l : List α), x ∈ l → f x ≤ (l.map f).sum := by
  intro l
  induction l with
  | nil => intro h; simp at h
  | cons z zs ih =>
    intro h
    simp only [List.map_cons, List.sum_cons]
    rcases List.mem_cons.mp h with rfl | h
    · omega
    · have := ih h
      omega

theorem sum_map_le {α : Type} (f : α → Nat) (c : Nat) :
    ∀ (l : List α), (∀ x ∈ l, f x ≤ c) → (l.map f).sum ≤ l.length * c := by
  intro l
  induction l with
  | nil => intro _; simp
  | cons z zs ih =>
    intro h
    simp only [List.map_cons, List.sum_cons, List.length_cons]
    have h1 := h z (List.mem_cons_self _ _)
    have h2 := ih (fun x hx => h x (List.mem_cons_of_mem _ hx))
    rw [Nat.succ_mul]
    omega

/-- Overwriting a line inside the arrays changes the number of valid lines by the
difference of the valid flags. -/
theorem totalValid_update (cache : List (List cache_block_t)) (idx p : Nat) (x : cache_block_t)
    (hidx : idx < cache.length) (hp : p < (cache.getD idx []).length) :
    ((cache.set idx ((cache.getD idx []).set p x)).map validLines).sum +
        (if (lineAt (cache.getD idx []) p).used = 1 then 1 else 0) =
      (cache.map validLines).sum + (if x.used = 1 then 1 else 0) := by
  have h1 := sum_map_set validLines ((cache.getD idx []).set p x) [] cache idx hidx
  have h2 := countP_set_eq (fun l : cache_block_t => decide (l.used = 1)) x zeroBlock
    (cache.getD idx []) p hp
  simp only [decide_eq_true_eq] at h2
  unfold validLines at h1 ⊢
  unfold lineAt
  omega

theorem totalValid_initCache (cfg : Config) : totalValid (initCache cfg) = 0 := by
  unfold totalValid
  apply Nat.eq_zero_of_le_zero
  have h := sum_map_le validLines 0 (initCache cfg).cache (by
    intro x hx
    have hx' : x = List.replicate cfg.E zeroBlock := by
      unfold initCache at hx
      exact (List.mem_replicate.mp hx).2
    rw [hx']
    unfold validLines
    rw [List.countP_eq_zero.mpr]
    intro l hl
    rw [(List.mem_replicate.mp hl).2]
    decide)
  simpa using h

/-- A valid line counts. -/
theorem totalValid_pos (st : Globals) (k i : Nat)
    (h : (lineAt (st.cache.getD k []) i).used = 1) : 1 ≤ totalValid st := by
  obtain ⟨hk, hi⟩ := used_in_bounds st.cache k i h
  have hmem : st.cache.getD k [] ∈ st.cache := by
    rw [List.getD_eq_getElem?_getD, List.getElem?_eq_getElem hk]
    exact List.getElem_mem hk
  have h1 := le_sum_map validLines _ st.cache hmem
  have h2 : 1 ≤ validLines (st.cache.getD k []) := by
    unfold validLines
    apply List.countP_pos_iff.mpr
    exact ⟨_, lineAt_mem _ i hi, decide_eq_true h⟩
  unfold totalValid
  omega

theorem totalValid_le (cfg : Config) (st : Globals) (hI : Inv cfg st) :
    totalValid st ≤ cfg.S * cfg.E := by
  unfold totalValid
  rw [← hI.length_cache]
  apply sum_map_le
  intro x hx
  obtain ⟨k, hk, rfl⟩ := List.getElem_of_mem hx
  have hl := hI.length_set k (by rw [← hI.length_cache]; exact hk)
  rw [List.getD_eq_getElem?_getD, List.getElem?_eq_getElem hk] at hl
  simp only [Option.getD_some] at hl
  unfold validLines
  rw [← hl]
  exact List.countP_le_length _

theorem totalValid_insert (cfg : Config) (hv : cfg.Valid) (st st' : Globals) (hI : Inv cfg st)
    (a p : Nat) (x : cache_block_t) (hp : p < cfg.E) (hx : x.used = 1)
    (hc : st'.cache = st.cache.set (setIndexOf cfg a)
      ((st.cache.getD (setIndexOf cfg a) []).set p x)) :
    totalValid st' + (if (lineAt (curSet cfg st a) p).used = 1 then 1 else 0) =
      totalValid st + 1 := by
  have hidx : setIndexOf cfg a < st.cache.length := by
    rw [hI.length_cache]; exact setIndexOf_lt cfg hv a
  have hl : (st.cache.getD (setIndexOf cfg a) []).length = cfg.E :=
    curSet_length cfg hv st hI a
  have := totalValid_update st.cache (setIndexOf cfg a) p x hidx (by rw [hl]; exact hp)
  rw [if_pos hx] at this
  unfold totalValid curSet
  rw [hc]
  exact this

/-- The accounting identity is kept by every call: a hit and an eviction leave the number
of valid lines as it is, a fill adds one. -/
theorem accounting_accessData (cfg : Config) (hv : cfg.Valid) (st : Globals) (hI : Inv cfg st)
    (a : Nat) (hD : st.miss_count = st.eviction_count + totalValid st) :
    (accessData cfg a st).miss_count =
      (accessData cfg a st).eviction_count + totalValid (accessData cfg a st) := by
  cases h : hitScan (curSet cfg st a) (tagOf cfg a) cfg.E with
  | some i =>
    obtain ⟨hi, _, hu, _⟩ := hitScan_some _ _ _ _ h
    have hst := accessData_hit cfg a st i h
    have ht := totalValid_insert cfg hv st (accessData cfg a st) hI a i
      { lineAt (curSet cfg st a) i with lru_counter := st.g_lru_counter % 2 ^ 32 } hi hu
      (by rw [hst]; rfl)
    rw [if_pos hu] at ht
    have h1 : (accessData cfg a st).miss_count = st.miss_count := by rw [hst]
    have h2 : (accessData cfg a st).eviction_count = st.eviction_count := by rw [hst]
    omega
  | none =>
    by_cases h2 : (compulsoryScan (curSet cfg st a) cfg.E).2 = 0
    · have hp : evictSlot (curSet cfg st a) cfg.E < cfg.E := evictSlot_lt _ _ hv.1
      have h3 : (lineAt (curSet cfg st a) (evictSlot (curSet cfg st a) cfg.E)).used = 1 :=
        full_of_scan cfg st hI a h2 _ hp
      have hst := accessData_evict cfg a st h h2 h3
      have ht := totalValid_insert cfg hv st (accessData cfg a st) hI a _
        ⟨tagOf cfg a, 1, st.g_lru_counter % 2 ^ 32⟩ hp rfl (by rw [hst]; rfl)
      rw [if_pos h3] at ht
      have h1 : (accessData cfg a st).miss_count = st.miss_count + 1 := by rw [hst]; rfl
      have h2 : (accessData cfg a st).eviction_count = st.eviction_count + 1 := by
        rw [hst]; rfl
      omega
    · rcases compulsoryScan_spec (curSet cfg st a) cfg.E with ⟨h', _⟩ | ⟨_, hp, hu, _⟩
      · exact absurd h' h2
      · have hst := accessData_fill cfg a st h h2
        have ht := totalValid_insert cfg hv st (accessData cfg a st) hI a _
          ⟨tagOf cfg a, 1, st.g_lru_counter % 2 ^ 32⟩ hp rfl (by rw [hst]; rfl)
        rw [if_neg (by omega)] at ht
        have h1 : (accessData cfg a st).miss_count = st.miss_count + 1 := by rw [hst]; rfl
        have h2 : (accessData cfg a st).eviction_count = st.eviction_count := by
          rw [hst]; rfl
        omega

theorem accounting_run (cfg : Config) (hv : cfg.Valid) (addrs : List Nat) :
    (run cfg addrs).miss_count = (run cfg addrs).eviction_count + totalValid (run cfg addrs) := by
  have key : ∀ (as : List Nat) (st : Globals), Inv cfg st →
      st.miss_count = st.eviction_count + totalValid st →
      (accessAll cfg as st).miss_count =
        (accessAll cfg as st).eviction_count + totalValid (accessAll cfg as st) := by
    intro as
    induction as with
    | nil => intro st _ h; exact h
    | cons a as ih =>
      intro st hI hD
      rw [accessAll_cons]
      exact ih _ (Inv_accessData cfg a st hI) (accounting_accessData cfg hv st hI a hD)
  apply key addrs _ (Inv_initCache cfg)
  rw [totalValid_initCache]
  rfl

/-- After at least one call some line is valid. -/
theorem totalValid_run_pos (cfg : Config) (hv : cfg.Valid) (addrs : List Nat)
    (hne : addrs ≠ []) : 1 ≤ totalValid (run cfg addrs) := by
  rcases List.eq_nil_or_concat addrs with h | ⟨as, a, h⟩
  · exact absurd h hne
  · rw [List.concat_eq_append] at h
    subst h
    have hr : resident cfg (run cfg (as ++ [a])) a := by
      unfold run
      rw [accessAll_append, accessAll_cons, accessAll_nil]
      exact resident_accessData cfg hv _ (Inv_accessAll cfg as _ (Inv_initCache cfg)) a
    obtain ⟨i, _, _, hu⟩ := hr
    exact totalValid_pos _ _ i hu

/-! ## C14 : when evictions equal misses -/

/-- C14, counterexample: right after `initCache` the counters `eviction_count` and
`miss_count` are equal (both `0`), and no set is filled: the sets hold no valid line. -/
theorem C14_counterexample :
    (run ⟨1, 1, 1, 2⟩ []).eviction_count = (run ⟨1, 1, 1, 2⟩ []).miss_count ∧
      ¬ setFull ⟨1, 1, 1, 2⟩ (run ⟨1, 1, 1, 2⟩ []) 0 ∧
      (lineAt ((run ⟨1, 1, 1, 2⟩ []).cache.getD 0 []) 0).used = 0 ∧
      (lineAt ((run ⟨1, 1, 1, 2⟩ []).cache.getD 1 []) 0).used = 0 := by
  decide

/-- C14, amended: in a state reached from `initCache` by calls of `accessData` (valid
configuration), `eviction_count = miss_count` holds exactly when no call has been
made; then both counters are `0` and no line of any set is valid.  After one or more
calls `eviction_count < miss_count`.  A single call increments `eviction_count`
exactly when it misses in a set all of whose `E` lines are valid. -/
theorem C14_evictions_equal_misses (cfg : Config) (hv : cfg.Valid) (addrs : List Nat) :
    ((run cfg addrs).eviction_count = (run cfg addrs).miss_count ↔ addrs = []) ∧
      ((run cfg addrs).eviction_count = (run cfg addrs).miss_count →
        (run cfg addrs).miss_count = 0 ∧
        ∀ k i, (lineAt ((run cfg addrs).cache.getD k []) i).used = 0) ∧
      (addrs ≠ [] → (run cfg addrs).eviction_count < (run cfg addrs).miss_count) ∧
      ∀ a, (accessData cfg a (run cfg addrs)).eviction_count =
          (run cfg addrs).eviction_count + 1 ↔
        (¬ resident cfg (run cfg addrs) a ∧ setFull cfg (run cfg addrs) a) := by
  have hacc := accounting_run cfg hv addrs
  have hlt : addrs ≠ [] → (run cfg addrs).eviction_count < (run cfg addrs).miss_count := by
    intro hne
    have := totalValid_run_pos cfg hv addrs hne
    omega
  have hnil : (run cfg addrs).eviction_count = (run cfg addrs).miss_count → addrs = [] := by
    intro he
    by_contra hne
    have := hlt hne
    omega
  refine ⟨⟨hnil, ?_⟩, ?_, hlt, ?_⟩
  · intro h
    subst h
    rfl
  · intro he
    have h := hnil he
    subst h
    refine ⟨rfl, ?_⟩
    intro k i
    have : run cfg [] = initCache cfg := rfl
    rw [this, lineAt_initCache]
    rfl
  · intro a
    by_cases hr : resident cfg (run cfg addrs) a
    · obtain ⟨_, _, h3⟩ := accessData_counts_hit cfg a _ hr
      rw [h3]
      constructor
      · intro h; omega
      · intro h; exact absurd hr h.1
    · obtain ⟨_, _, h3⟩ := accessData_counts_miss cfg a _ hr
      rw [h3]
      constructor
      · intro h
        refine ⟨hr, ?_⟩
        apply full_of_scan cfg _ (Inv_run cfg addrs) a
        by_contra hc
        rw [if_neg hc] at h
        omega
      · intro h
        rw [if_pos (scan_of_full cfg _ a h.2)]

theorem C14_evictions_equal_misses_witness :
    (⟨1, 1, 1, 2⟩ : Config).Valid ∧ [0, 8] ≠ ([] : List Nat) ∧
      (run ⟨1, 1, 1, 2⟩ [0, 8]).eviction_count < (run ⟨1, 1, 1, 2⟩ [0, 8]).miss_count ∧
      (¬ resident ⟨1, 1, 1, 2⟩ (run ⟨1, 1, 1, 2⟩ [0, 8]) 0 ∧
        setFull ⟨1, 1, 1, 2⟩ (run ⟨1, 1, 1, 2⟩ [0, 8]) 0) ∧
      (accessData ⟨1, 1, 1, 2⟩ 0 (run ⟨1, 1, 1, 2⟩ [0, 8])).eviction_count =
        (run ⟨1, 1, 1, 2⟩ [0, 8]).eviction_count + 1 :=
  ⟨by decide, by decide,
    (C14_evictions_equal_misses ⟨1, 1, 1, 2⟩ (by decide) [0, 8]).2.2.1 (by decide),
    by decide,
    ((C14_evictions_equal_misses ⟨1, 1, 1, 2⟩ (by decide) [0, 8]).2.2.2 0).mpr (by decide)⟩

/-! ## C19 : the accounting identity -/

/-- C19: in every state reached from `initCache` by calls of `accessData` (valid
configuration), `miss_count - eviction_count` is the number of valid lines of the
whole cache; hence it is at most `S * E`, and `eviction_count < miss_count` as soon as
one call has been made. -/
theorem C19_accounting_identity (cfg : Config) (hv : cfg.Valid) (addrs : List Nat) :
    (run cfg addrs).miss_count =
        (run cfg addrs).eviction_count + totalValid (run cfg addrs) ∧
      (run cfg addrs).miss_count - (run cfg addrs).eviction_count =
        totalValid (run cfg addrs) ∧
      (run cfg addrs).miss_count - (run cfg addrs).eviction_count ≤ cfg.S * cfg.E ∧
      (addrs ≠ [] → (run cfg addrs).eviction_count < (run cfg addrs).miss_count) := by
  have hacc := accounting_run cfg hv addrs
  have hle := totalValid_le cfg _ (Inv_run cfg addrs)
  refine ⟨hacc, by omega, by omega, ?_⟩
  intro hne
  have := totalValid_run_pos cfg hv addrs hne
  omega

theorem C19_accounting_identity_witness :
    (⟨1, 1, 2, 2⟩ : Config).Valid ∧ [0, 4, 8, 2] ≠ ([] : List Nat) ∧
      totalValid (run ⟨1, 1, 2, 2⟩ [0, 4, 8, 2]) = 3 ∧
      (run ⟨1, 1, 2, 2⟩ [0, 4, 8, 2]).miss_count - (run ⟨1, 1, 2, 2⟩ [0, 4, 8, 2]).eviction_count =
        totalValid (run ⟨1, 1, 2, 2⟩ [0, 4, 8, 2]) ∧
      (run ⟨1, 1, 2, 2⟩ [0, 4, 8, 2]).eviction_count < (run ⟨1, 1, 2, 2⟩ [0, 4, 8, 2]).miss_count :=
  ⟨by decide, by decide, by decide,
    (C19_accounting_identity ⟨1, 1, 2, 2⟩ (by decide) [0, 4, 8, 2]).2.1,
    (C19_accounting_identity ⟨1, 1, 2, 2⟩ (by decide) [0, 4, 8, 2]).2.2.2 (by decide)⟩

/-! ## The reference model: its search for the minimum -/

/-- The slot that the reference model evicts holds the minimum recency of the set, and
is the lowest such slot. -/
theorem refLruSlot_spec (set : List RefLine) (E : Nat) :
    (refLruSlot set E = 0 ∨ refLruSlot set E < E) ∧
      (∀ i, i < E → (refLineAt set (refLruSlot set E)).recency ≤ (refLineAt set i).recency) ∧
      ∀ i, i < refLruSlot set E →
        (refLineAt set (refLruSlot set E)).recency < (refLineAt set i).recency := by
  induction E with
  | zero =>
    have h0 : refLruSlot set 0 = 0 := by simp [refLruSlot]
    rw [h0]
    exact ⟨Or.inl rfl, fun i hi => absurd hi (Nat.not_lt_zero _),
      fun i hi => absurd hi (Nat.not_lt_zero _)⟩
  | succ n ih =>
    have hstep : refLruSlot set (n + 1) =
        if (refLineAt set n).recency < (refLineAt set (refLruSlot set n)).recency then n
        else refLruSlot set n := by
      simp [refLruSlot, List.range_succ, List.foldl_append]
    obtain ⟨h1, h2, h3⟩ := ih
    by_cases hlt : (refLineAt set n).recency < (refLineAt set (refLruSlot set n)).recency
    · rw [hstep, if_pos hlt]
      refine ⟨Or.inr (Nat.lt_succ_self _), ?_, ?_⟩
      · intro i hi
        rcases Nat.lt_succ_iff_lt_or_eq.mp hi with h | h
        · have := h2 i h
          omega
        · subst h; exact le_refl _
      · intro i hi
        have := h2 i hi
        omega
    · rw [hstep, if_neg hlt]
      refine ⟨?_, ?_, h3⟩
      · rcases h1 with h | h
        · exact Or.inl h
        · exact Or.inr (Nat.lt_succ_of_lt h)
      · intro i hi
        rcases Nat.lt_succ_iff_lt_or_eq.mp hi with h | h
        · exact h2 i h
        · subst h; omega

/-! ## The program and the reference model, search by search -/

theorem find_range_eq_some (q : Nat → Bool) (E i : Nat) (hi : i < E) (hq : q i = true)
    (hlow : ∀ j, j < i → q j = false) : (List.range E).find? q = some i := by
  cases h : (List.range E).find? q with
  | none =>
    rw [List.find?_eq_none] at h
    exact absurd hq (h i (List.mem_range.mpr hi))
  | some k =>
    obtain ⟨_, h2, h3⟩ := find_range_some q E k h
    rcases Nat.lt_trichotomy k i with hlt | heq | hgt
    · rw [hlow k hlt] at h2
      exact absurd h2 (by decide)
    · rw [heq]
    · rw [h3 i hgt] at hq
      exact absurd hq (by decide)

theorem refLineAt_map (cs : List cache_block_t) (i : Nat) :
    refLineAt (cs.map absLine) i = absLine (lineAt cs i) := by
  unfold refLineAt lineAt
  rw [List.getD_eq_getElem?_getD, List.getD_eq_getElem?_getD, List.getElem?_map]
  cases cs[i]? <;> rfl

theorem getD_map_abs (cache : List (List cache_block_t)) (k : Nat) :
    (cache.map fun set => set.map absLine).getD k [] = (cache.getD k []).map absLine := by
  rw [List.getD_eq_getElem?_getD, List.getD_eq_getElem?_getD, List.getElem?_map]
  cases cache[k]? <;> rfl

theorem refFind_abs (cs : List cache_block_t) (t E : Nat) :
    refFind (cs.map absLine) t E = hitScan cs t E := by
  unfold refFind hitScan
  congr 1
  funext i
  rw [refLineAt_map, Bool.and_comm]
  rfl

/-- With valid flags `0` or `1`, the first invalid slot of the reference model is the
slot that the first search of the miss path finds. -/
theorem refInvalidSlot_abs (cs : List cache_block_t) (E : Nat)
    (h01 : ∀ i, (lineAt cs i).used = 0 ∨ (lineAt cs i).used = 1) :
    refInvalidSlot (cs.map absLine) E =
      if (compulsoryScan cs E).2 = 0 then none else some (compulsoryScan cs E).1 := by
  have hq : ∀ i, (!(refLineAt (cs.map absLine) i).valid) = decide ((lineAt cs i).used = 0) := by
    intro i
    rw [refLineAt_map]
    rcases h01 i with h | h <;> simp [absLine, h]
  unfold refInvalidSlot
  rcases compulsoryScan_spec cs E with ⟨h1, _, h3⟩ | ⟨h1, h2, h3, h4⟩
  · rw [if_pos h1, List.find?_eq_none]
    intro i hi
    rw [hq]
    simpa using h3 i (List.mem_range.mp hi)
  · rw [if_neg (by omega)]
    apply find_range_eq_some _ _ _ h2
    · rw [hq]; simpa using h3
    · intro j hj
      rw [hq]
      simpa using h4 j hj

/-- For one or two lines per set, the eviction scan of the program returns the slot of
minimum recency. -/
theorem refLruSlot_abs (cs : List cache_block_t) (E : Nat) (hE : E = 1 ∨ E = 2)
    (h0 : (lineAt cs 0).lru_counter < 2 ^ 32) :
    refLruSlot (cs.map absLine) E = evictSlot cs E := by
  have hm : toUInt32 (toInt32 (lineAt cs 0).lru_counter) = (lineAt cs 0).lru_counter := by
    rw [toUInt32_toInt32, Nat.mod_eq_of_lt h0]
  unfold refLruSlot evictSlot evictScan
  rw [hm]
  rcases hE with rfl | rfl
  · simp [List.range_succ]
  · simp [List.range_succ, refLineAt_map, absLine]

/-! ## The program refines the reference model for one and two lines per set -/

/-- One call of `accessData` is one access of the reference model, for `E = 1` and
`E = 2`, while the counter is below `2 ^ 32`. -/
theorem abs_accessData (cfg : Config) (hv : cfg.Valid) (hE : cfg.E = 1 ∨ cfg.E = 2)
    (st : Globals) (hI : Inv cfg st) (hR : RecInv st) (hg : st.g_lru_counter < 2 ^ 32)
    (a : Nat) :
    absCache (accessData cfg a st) = refAccess cfg.s cfg.b cfg.E a (absCache st) := by
  have hs := (Valid_s_le cfg hv).1
  have hidx : (a >>> cfg.b) % 2 ^ cfg.s = setIndexOf cfg a :=
    (setIndexOf_small cfg a (by omega)).symm
  have hmod : st.g_lru_counter % 2 ^ 32 = st.g_lru_counter := Nat.mod_eq_of_lt hg
  have htag : a >>> (cfg.s + cfg.b) = tagOf cfg a := rfl
  unfold refAccess
  simp only [absCache]
  rw [hidx, htag, getD_map_abs, refFind_abs]
  cases h : hitScan (curSet cfg st a) (tagOf cfg a) cfg.E with
  | some i =>
    have h' := h
    unfold curSet at h'
    rw [h', accessData_hit cfg a st i h]
    simp only [List.map_set, refLineAt_map, absLine, hmod, curSet]
  | none =>
    have h' := h
    unfold curSet at h'
    rw [h']
    simp only
    rw [refInvalidSlot_abs _ _ (hI.used01 (setIndexOf cfg a))]
    by_cases h2 : (compulsoryScan (curSet cfg st a) cfg.E).2 = 0
    · have hp : evictSlot (curSet cfg st a) cfg.E < cfg.E := evictSlot_lt _ _ hv.1
      have hfull := full_of_scan cfg st hI a h2
      have h3 : (lineAt (curSet cfg st a) (evictSlot (curSet cfg st a) cfg.E)).used = 1 :=
        hfull _ hp
      have h0 : (lineAt (curSet cfg st a) 0).lru_counter < 2 ^ 32 :=
        Nat.lt_trans (hR.lru_lt _ 0 (hfull 0 hv.1)) hg
      have h2' := h2
      unfold curSet at h2' h0
      rw [if_pos h2', refLruSlot_abs _ _ hE h0, accessData_evict cfg a st h h2 h3]
      simp only [insertBlock, List.map_set, absLine, hmod, curSet]
      rfl
    · have h2' := h2
      unfold curSet at h2'
      rw [if_neg h2', accessData_fill cfg a st h h2]
      simp only [insertBlock, List.map_set, absLine, hmod, curSet]
      rfl

theorem abs_initCache (cfg : Config) (hv : cfg.Valid) :
    absCache (initCache cfg) = refInit cfg.s cfg.E := by
  have hS := (Valid_s_le cfg hv).2
  simp [absCache, initCache, refInit, hS, absLine, zeroBlock, refEmpty]

theorem refAccessAll_cons (s b E a : Nat) (as : List Nat) (c : RefCache) :
    refAccessAll s b E (a :: as) c = refAccessAll s b E as (refAccess s b E a c) := rfl

theorem abs_accessAll (cfg : Config) (hv : cfg.Valid) (hE : cfg.E = 1 ∨ cfg.E = 2)
    (addrs : List Nat) : ∀ st, Inv cfg st → RecInv st →
      st.g_lru_counter + addrs.length ≤ 2 ^ 32 →
      absCache (accessAll cfg addrs st) =
          refAccessAll cfg.s cfg.b cfg.E addrs (absCache st) ∧
        outcomes cfg addrs st = refOutcomes cfg.s cfg.b cfg.E addrs (absCache st) := by
  induction addrs with
  | nil => intro st _ _ _; exact ⟨rfl, rfl⟩
  | cons a as ih =>
    intro st hI hR hlen
    rw [List.length_cons] at hlen
    have hstep := abs_accessData cfg hv hE st hI hR (by omega) a
    have hnext := ih (accessData cfg a st) (Inv_accessData cfg a st hI)
      (RecInv_accessData cfg a st hR (by omega))
      (by rcases accessData_g cfg a st with h | h <;> omega)
    rw [accessAll_cons, refAccessAll_cons, ← hstep]
    refine ⟨hnext.1, ?_⟩
    have ho : outcomeOf cfg a st = refOutcomeOf cfg.s cfg.b cfg.E a (absCache st) := by
      unfold outcomeOf refOutcomeOf
      rw [← hstep]
      rfl
    show outcomeOf cfg a st :: outcomes cfg as (accessData cfg a st) =
      refOutcomeOf cfg.s cfg.b cfg.E a (absCache st) ::
        refOutcomes cfg.s cfg.b cfg.E as (refAccess cfg.s cfg.b cfg.E a (absCache st))
    rw [ho, hnext.2, hstep]

theorem residentTags_abs (st : Globals) : refResidentTags (absCache st) = residentTags st := by
  unfold refResidentTags residentTags absCache
  simp only [List.map_map]
  congr 1
  funext set
  induction set with
  | nil => rfl
  | cons l ls ih =>
    simp only [Function.comp, List.map_cons, List.filter_cons] at ih ⊢
    by_cases hu : l.used = 1
    · simp [absLine, hu, ih]
    · simp [absLine, hu, ih]

/-! ## C20 : true LRU for one and two lines per set -/

/-- C20: for `E = 1` and `E = 2` (valid configuration, fewer than `2 ^ 31` accesses) the
program behaves as the reference model of the specification, which on a miss in a full
set evicts the line of minimum recency: for every sequence of addresses the sequences
of outcomes (hit, miss, miss with eviction) are equal, after each access the resident
tags of every set are equal, the final counters are equal, and the whole state of the
program stands for the state of the reference model. -/
theorem C20_true_lru_small_associativity (cfg : Config) (hv : cfg.Valid)
    (hE : cfg.E = 1 ∨ cfg.E = 2) (addrs : List Nat) (hlen : addrs.length < 2 ^ 31) :
    outcomes cfg addrs (initCache cfg) =
        refOutcomes cfg.s cfg.b cfg.E addrs (refInit cfg.s cfg.E) ∧
      (∀ n, residentTags (run cfg (addrs.take n)) =
        refResidentTags (refRun cfg.s cfg.b cfg.E (addrs.take n))) ∧
      ((run cfg addrs).hit_count = (refRun cfg.s cfg.b cfg.E addrs).hits ∧
        (run cfg addrs).miss_count = (refRun cfg.s cfg.b cfg.E addrs).misses ∧
        (run cfg addrs).eviction_count = (refRun cfg.s cfg.b cfg.E addrs).evictions) ∧
      absCache (run cfg addrs) = refRun cfg.s cfg.b cfg.E addrs := by
  have key : ∀ as : List Nat, as.length < 2 ^ 31 →
      absCache (run cfg as) = refRun cfg.s cfg.b cfg.E as ∧
        outcomes cfg as (initCache cfg) =
          refOutcomes cfg.s cfg.b cfg.E as (refInit cfg.s cfg.E) := by
    intro as hl
    have h := abs_accessAll cfg hv hE as (initCache cfg) (Inv_initCache cfg)
      (RecInv_initCache cfg) (by
        have : (initCache cfg).g_lru_counter = 0 := rfl
        omega)
    rw [abs_initCache cfg hv] at h
    exact h
  obtain ⟨habs, hout⟩ := key addrs hlen
  refine ⟨hout, ?_, ?_, habs⟩
  · intro n
    have hl : (addrs.take n).length < 2 ^ 31 := by
      rw [List.length_take]
      exact Nat.lt_of_le_of_lt (Nat.min_le_right _ _) hlen
    rw [← (key (addrs.take n) hl).1, residentTags_abs]
  · rw [← habs]
    exact ⟨rfl, rfl, rfl⟩

theorem C20_true_lru_small_associativity_witness :
    (⟨1, 1, 2, 2⟩ : Config).Valid ∧
      ((⟨1, 1, 2, 2⟩ : Config).E = 1 ∨ (⟨1, 1, 2, 2⟩ : Config).E = 2) ∧
      [0, 4, 8, 4, 0, 12].length < 2 ^ 31 ∧
      refOutcomes 1 1 2 [0, 4, 8, 4, 0, 12] (refInit 1 2) =
        [Outcome.miss, Outcome.miss, Outcome.missEvict, Outcome.hit, Outcome.missEvict,
          Outcome.missEvict] ∧
      outcomes ⟨1, 1, 2, 2⟩ [0, 4, 8, 4, 0, 12] (initCache ⟨1, 1, 2, 2⟩) =
        refOutcomes 1 1 2 [0, 4, 8, 4, 0, 12] (refInit 1 2) :=
  ⟨by decide, by decide, by decide, by decide,
    (C20_true_lru_small_associativity ⟨1, 1, 2, 2⟩ (by decide) (by decide) [0, 4, 8, 4, 0, 12]
      (by decide)).1⟩

end Csim
